import Mathlib

/-!
# FreeFileSync tree grid: aggregation and percentage distribution

A shallow embedding of `FreeFileSync/Source/ui/tree_grid.cpp`.

Conventions of the embedding:
* `uint64_t` values are natural numbers and every `uint64_t` operation is reduced
  modulo `2 ^ 64`;
* `int` values are integers; `static_cast<int>` of an unsigned value is two's
  complement truncation to 32 bits (`toInt32`); signed `int` arithmetic is exact
  (signed overflow is undefined behaviour in C++);
* `int*` output slots are addresses into a `Store`;
* object identities (`FileSystemObject::ObjectId`) are natural numbers, the null
  identity is `none`;
* routines that are defined outside the sources (`std::nth_element`, `std::sort`,
  `LessNaturalSort`, `FileSystemObject::retrieve`, `FileSystemObject::parent`,
  `AFS::isNullPath`, `getShortDisplayNameForFolderPair`) are parameters, and the
  parts of their contracts that a theorem needs are its hypotheses.
-/

namespace TreeGrid

/-! ## Percentage distribution (`calcPercentage`) -/

/-- Truncation of an unsigned value to a 32-bit two's complement `int`
(`static_cast<int>`). -/
def toInt32 (n : Nat) : Int :=
  if n % 2 ^ 32 < 2 ^ 31 then ((n % 2 ^ 32 : Nat) : Int) else ((n % 2 ^ 32 : Nat) : Int) - 2 ^ 32

/-- Address of an `int` output slot (the target of an `int*`). -/
abbrev Slot := Nat

/-- Memory holding the `int` output slots. -/
abbrev Store := Slot → Int

/-- Assignment through a pointer: `*p = v`. -/
def Store.write (mem : Store) (p : Slot) (v : Int) : Store :=
  fun q => if q = p then v else mem q

/-- The work list `std::vector<std::pair<uint64_t, int*>>`: weight and output slot. -/
abbrev WorkList := List (Nat × Slot)

/-- Type of `std::nth_element(first, first + n, last, comp)` on a work list: the
comparator, the index `n`, the range; the result is the rearranged range. The
standard library routine is not part of the sources, so it is a parameter. -/
abbrev NthElement := (Nat × Slot → Nat × Slot → Bool) → Nat → WorkList → WorkList

/-- The part of the contract of `std::nth_element` used here: the range is only
rearranged. -/
def NthElementPerm (nthElement : NthElement) : Prop :=
  ∀ comp n workList, List.Perm (nthElement comp n workList) workList

/-- The requirement that the standard library puts on a comparison (`Compare`): a
strict weak ordering, that is irreflexive, transitive, and with a transitive
incomparability. -/
def StrictWeakOrder {α : Type} (comp : α → α → Bool) : Prop :=
  (∀ a, comp a a = false)
    ∧ (∀ a b c, comp a b = true → comp b c = true → comp a c = true)
    ∧ (∀ a b c, comp a b = false → comp b a = false → comp b c = false → comp c b = false →
        comp a c = false ∧ comp c a = false)

/-- The part of the contract of `std::nth_element` about the order: for a
comparison that is a strict weak ordering and an index `n` inside the range, no
element from position `n` onward is ordered before an element up to position
`n`. -/
def NthElementPartition (nthElement : NthElement) : Prop :=
  ∀ comp n workList, StrictWeakOrder comp → n < workList.length →
    ∀ i j x y, i ≤ n → n ≤ j → (nthElement comp n workList)[i]? = some x →
      (nthElement comp n workList)[j]? = some y → comp y x = false

/-- Insertion of one element into a list ordered by `comp`: it goes behind exactly
the elements that `comp` orders strictly before it. -/
def orderedInsert (comp : Nat × Slot → Nat × Slot → Bool) (x : Nat × Slot) :
    WorkList → WorkList
  | [] => [x]
  | y :: ys => if comp y x then y :: orderedInsert comp x ys else x :: y :: ys

/-- A reference `nth_element`: it sorts the whole range (stable insertion sort),
which is one legal implementation of the library routine. -/
def nthElementBySort : NthElement :=
  fun comp _ workList => workList.foldr (orderedInsert comp) []

/-- Another `nth_element` that the contract allows: it sorts the range taken from
its back to its front, so that pairs which the comparison does not tell apart
end up in the reverse of their original order. -/
def nthElementFromBack : NthElement :=
  fun comp n workList => nthElementBySort comp n workList.reverse

/-- The `std::accumulate` call: sum of the weights in `uint64_t` arithmetic. -/
def accumulateTotal (workList : WorkList) : Nat :=
  workList.foldl (fun sum pair => (sum + pair.1) % 2 ^ 64) 0

/-- The branch `total == 0U`: every slot of the work list is set to 0. -/
def zeroAll (workList : WorkList) (mem : Store) : Store :=
  workList.foldl (fun m pair => m.write pair.2 0) mem

/-- The round-down loop: `*percent = static_cast<int>(bytes * 100U / total);
remainingPercent -= *percent;`, started with `remainingPercent`. -/
def roundDown (total : Nat) (workList : WorkList) (mem : Store) (remainingPercent : Int) :
    Store × Int :=
  workList.foldl
    (fun acc pair =>
      let m := acc.1.write pair.2 (toInt32 (pair.1 * 100 % 2 ^ 64 / total))
      (m, acc.2 - m pair.2))
    (mem, remainingPercent)

/-- The comparator handed to `std::nth_element`: larger fractional remainder first. -/
def remainderGreater (total : Nat) (lhs rhs : Nat × Slot) : Bool :=
  decide (lhs.1 * 100 % 2 ^ 64 % total > rhs.1 * 100 % 2 ^ 64 % total)

/-- The `std::for_each` call: `++*pair.second` for every pair of the range. -/
def incrementAll (range : WorkList) (mem : Store) : Store :=
  range.foldl (fun m pair => m.write pair.2 (m pair.2 + 1)) mem

/-- `calcPercentage(workList)`: the rearranged work list and the memory after the call. -/
def calcPercentage (nthElement : NthElement) (workList : WorkList) (mem : Store) :
    WorkList × Store :=
  let total := accumulateTotal workList
  if total = 0 then
    (workList, zeroAll workList mem)
  else
    let pass := roundDown total workList mem 100
    let remainingPercent := min pass.2 (toInt32 workList.length)
    if remainingPercent > 0 then
      let rearranged := nthElement (remainderGreater total) (remainingPercent.toNat - 1) workList
      (rearranged, incrementAll (rearranged.take remainingPercent.toNat) pass.1)
    else
      (workList, pass.1)

/-- Sum of the percentages found in the slots of a work list. -/
def percentSum (workList : WorkList) (mem : Store) : Int :=
  (workList.map (fun pair => mem pair.2)).sum

/-- The total rounding error of an allocation of percentages to the pairs of a work
list: the sum of `|p - 100 * w / total|` over the pairs with weight `w` and
percentage `p`, `total` being the sum of the weights. -/
def roundingError (workList : WorkList) (percent : Store) : ℚ :=
  (workList.map
    (fun pair =>
      |((percent pair.2 : Int) : ℚ)
        - 100 * ((pair.1 : Nat) : ℚ) / (((workList.map Prod.fst).sum : Nat) : ℚ)|)).sum

/-- A work list of `n` pairs of weight 1 with the distinct slots `0`, ..., `n - 1`. -/
def unitWeights (n : Nat) : WorkList :=
  (List.range n).map (fun i => (1, i))

/-! ## The comparison tree (read-only input of the view) -/

/-- Identity handle of a file system object (`FileSystemObject::ObjectId`). -/
abbrev ObjectId := Nat

/-- A file pair: identity and the file size on either side (`uint64_t`). -/
structure FilePair where
  id : ObjectId
  leftSize : Nat
  rightSize : Nat
deriving DecidableEq, Repr

/-- A symlink pair: only its identity matters here. -/
structure SymlinkPair where
  id : ObjectId
deriving DecidableEq, Repr

/-- The `ContainerObject` part of a hierarchy object: direct files, direct
symlinks and direct folders (`refSubFiles`, `refSubLinks`, `refSubFolders`). -/
structure ContainerObjectOf (φ : Type) where
  subFiles : List FilePair := []
  subLinks : List SymlinkPair := []
  subFolders : List φ := []

/-- A folder pair: a file system object (identity, name) that is also a
`ContainerObject`. -/
inductive FolderPair where
  | mk (id : ObjectId) (itemName : String) (hier : ContainerObjectOf FolderPair) : FolderPair

/-- The `ContainerObject` base class: a root pair or a folder pair seen as a
container of items. -/
abbrev ContainerObject := ContainerObjectOf FolderPair

/-- The identity of a folder pair: `getId()`. -/
def FolderPair.id : FolderPair → ObjectId
  | .mk i _ _ => i

/-- The name of a folder pair: `getItemNameAny()`. -/
def FolderPair.itemName : FolderPair → String
  | .mk _ n _ => n

/-- The upcast of a folder pair to `ContainerObject`. -/
def FolderPair.hier : FolderPair → ContainerObject
  | .mk _ _ h => h

/-- A root pair (`BaseFolderPair`): an identity, the two base paths and the
container part. -/
structure BaseFolderPair where
  id : ObjectId
  leftPath : String
  rightPath : String
  hier : ContainerObject

/-- The argument type of a filter predicate: `const FileSystemObject&`, which is
a file, a symlink or a folder. -/
inductive FileSystemObject where
  | file (f : FilePair) : FileSystemObject
  | symlink (l : SymlinkPair) : FileSystemObject
  | folder (d : FolderPair) : FileSystemObject

/-- A filter predicate `(const FileSystemObject&) -> bool`. -/
abbrev Predicate := FileSystemObject → Bool

/-! ## The pruned shadow tree -/

/-- The fields of `TreeView::Container`; `σ` is the type of the entries of
`subDirs`. Every field has the default of the C++ member initialiser. -/
structure ContainerOf (σ : Type) where
  bytesGross : Nat := 0
  bytesNet : Nat := 0
  itemCountGross : Int := 0
  itemCountNet : Int := 0
  subDirs : List σ := []
  firstFileId : Option ObjectId := none

/-- The node `TreeView::DirNodeImpl`: a `Container` with the identity of its folder. -/
inductive DirNodeImpl where
  | mk (toContainer : ContainerOf DirNodeImpl) (objId : Option ObjectId) : DirNodeImpl

/-- The node `TreeView::Container`, whose `subDirs` are `DirNodeImpl`. -/
abbrev Container := ContainerOf DirNodeImpl

/-- The `Container` base of a `DirNodeImpl`. -/
def DirNodeImpl.toContainer : DirNodeImpl → Container
  | .mk c _ => c

/-- The member `objId` of a `DirNodeImpl`. -/
def DirNodeImpl.objId : DirNodeImpl → Option ObjectId
  | .mk _ i => i

/-- The node `TreeView::RootNodeImpl`: a `Container` with its root pair and a
display name. -/
structure RootNodeImpl extends ContainerOf DirNodeImpl where
  baseFolder : Option BaseFolderPair := none
  displayName : String := ""

/-! ## Subtree extraction (`extractVisibleSubtree`, `compressNode`, `updateView`) -/

/-- `TreeView::compressNode`: a container without sub-directories loses its
files bucket (the second, disabled rule is not compiled). -/
def compressNode (cont : Container) : Container :=
  if cont.subDirs.isEmpty then { cont with firstFileId := none } else cont

/-- The lambda `getBytes` of `extractVisibleSubtree`. -/
def getBytes (file : FilePair) : Nat :=
  max file.leftSize file.rightSize

/-- The loop over `hierObj.refSubFiles()`. -/
def scanSubFiles (pred : Predicate) (files : List FilePair) (cont : Container) : Container :=
  files.foldl
    (fun c file =>
      if pred (.file file) then
        { c with
          bytesNet := (c.bytesNet + getBytes file) % 2 ^ 64
          itemCountNet := c.itemCountNet + 1
          firstFileId := if c.firstFileId.isNone then some file.id else c.firstFileId }
      else c)
    cont

/-- The loop over `hierObj.refSubLinks()`. -/
def scanSubLinks (pred : Predicate) (links : List SymlinkPair) (cont : Container) : Container :=
  links.foldl
    (fun c symlink =>
      if pred (.symlink symlink) then
        { c with
          itemCountNet := c.itemCountNet + 1
          firstFileId := if c.firstFileId.isNone then some symlink.id else c.firstFileId }
      else c)
    cont

/-- The part of `extractVisibleSubtree` before the loop over the sub-folders:
reset of `firstFileId`, the two loops over files and symlinks, and the transfer
of the net values into the gross values. -/
def extractDirectItems (hierObj : ContainerObject) (cont : Container) (pred : Predicate) :
    Container :=
  let c := scanSubLinks pred hierObj.subLinks
    (scanSubFiles pred hierObj.subFiles { cont with firstFileId := none })
  { c with
    bytesGross := (c.bytesGross + c.bytesNet) % 2 ^ 64
    itemCountGross := c.itemCountGross + c.itemCountNet }

/-- The tail of one iteration of the loop over the sub-folders, after the
recursive call has filled `subDirCont` (the element just appended to
`cont.subDirs`): count the folder itself, add the gross values to the parent,
then either remove the element again or tag and compress it. -/
def finishSubFolder (pred : Predicate) (folder : FolderPair) (subDirCont : Container)
    (cont : Container) : Container :=
  let included := pred (.folder folder)
  let subDirCont :=
    if included then { subDirCont with itemCountGross := subDirCont.itemCountGross + 1 }
    else subDirCont
  let cont :=
    { cont with
      bytesGross := (cont.bytesGross + subDirCont.bytesGross) % 2 ^ 64
      itemCountGross := cont.itemCountGross + subDirCont.itemCountGross }
  if !included && subDirCont.firstFileId.isNone && subDirCont.subDirs.isEmpty then
    cont
  else
    { cont with subDirs := cont.subDirs ++ [DirNodeImpl.mk (compressNode subDirCont) (some folder.id)] }

mutual
/-- The recursive call `extractVisibleSubtree(folder, subDirCont, pred)` on a
folder pair. -/
def extractFolder : FolderPair → Container → Predicate → Container
  | .mk _ _ hier, cont, pred =>
      extractSubFolders hier.subFolders (extractDirectItems hier cont pred) pred
/-- The loop `for (FolderPair& folder : hierObj.refSubFolders())`. -/
def extractSubFolders : List FolderPair → Container → Predicate → Container
  | [], cont, _ => cont
  | folder :: rest, cont, pred =>
      extractSubFolders rest (finishSubFolder pred folder (extractFolder folder {} pred) cont) pred
end

/-- `TreeView::extractVisibleSubtree(hierObj, cont, pred)`; the result is the
final value of the out-parameter `cont`. -/
def extractVisibleSubtree (hierObj : ContainerObject) (cont : Container) (pred : Predicate) :
    Container :=
  extractSubFolders hierObj.subFolders (extractDirectItems hierObj cont pred) pred

/-- One iteration of the loop of `updateView` over the root pairs: extract into a
fresh root node, then remove it again or complete and compress it.
`getShortDisplayNameForFolderPair` is defined outside the sources and is a
parameter. -/
def updateViewStep (getShortDisplayNameForFolderPair : String → String → String)
    (pred : Predicate) (newView : List RootNodeImpl) (baseObj : BaseFolderPair) :
    List RootNodeImpl :=
  let root := extractVisibleSubtree baseObj.hier {} pred
  if root.firstFileId.isNone && root.subDirs.isEmpty then
    newView
  else
    newView ++
      [{ toContainerOf := compressNode root
         baseFolder := some baseObj
         displayName := getShortDisplayNameForFolderPair baseObj.leftPath baseObj.rightPath }]

/-- The pruned forest `newView` built by `updateView(pred)` from the root pairs
`folderCmp_`, as handed to `applySubView`. -/
def updateViewForest (getShortDisplayNameForFolderPair : String → String → String)
    (folderCmp : List BaseFolderPair) (pred : Predicate) : List RootNodeImpl :=
  folderCmp.foldl (updateViewStep getShortDisplayNameForFolderPair pred) []

/-! ## Vocabulary of the properties -/

mutual
/-- A node and all nodes below it. -/
def DirNodeImpl.withDescendants : DirNodeImpl → List DirNodeImpl
  | .mk c i => .mk c i :: allNodes c.subDirs
/-- Every node of a list of sub-trees, at any depth. -/
def allNodes : List DirNodeImpl → List DirNodeImpl
  | [] => []
  | d :: ds => d.withDescendants ++ allNodes ds
end

mutual
/-- A folder and all folders below it. -/
def FolderPair.withDescendants : FolderPair → List FolderPair
  | .mk i n hier => .mk i n hier :: allFolders hier.subFolders
/-- Every folder of a list of folder sub-trees, at any depth. -/
def allFolders : List FolderPair → List FolderPair
  | [] => []
  | d :: ds => d.withDescendants ++ allFolders ds
end

/-- Every file anywhere in the sub-tree of a hierarchy object. -/
def allFiles (hierObj : ContainerObject) : List FilePair :=
  hierObj.subFiles ++ (allFolders hierObj.subFolders).flatMap (fun d => d.hier.subFiles)

/-- Every symlink anywhere in the sub-tree of a hierarchy object. -/
def allLinks (hierObj : ContainerObject) : List SymlinkPair :=
  hierObj.subLinks ++ (allFolders hierObj.subFolders).flatMap (fun d => d.hier.subLinks)

/-- Sum of `max(leftSize, rightSize)` over the files of a list that satisfy the
predicate. -/
def includedBytes (pred : Predicate) (files : List FilePair) : Nat :=
  ((files.filter (fun f => pred (.file f))).map getBytes).sum

/-- Number of files, symlinks and folders strictly below a hierarchy object that
satisfy the predicate. -/
def includedCount (pred : Predicate) (hierObj : ContainerObject) : Nat :=
  ((allFiles hierObj).filter (fun f => pred (.file f))).length
    + ((allLinks hierObj).filter (fun l => pred (.symlink l))).length
    + ((allFolders hierObj.subFolders).filter (fun d => pred (.folder d))).length

/-- Number of direct files and direct symlinks of a hierarchy object that satisfy
the predicate. -/
def includedDirectCount (pred : Predicate) (hierObj : ContainerObject) : Nat :=
  (hierObj.subFiles.filter (fun f => pred (.file f))).length
    + (hierObj.subLinks.filter (fun l => pred (.symlink l))).length

/-- No direct file and no direct symlink of the hierarchy object satisfies the
predicate. -/
def noDirectItem (pred : Predicate) (hierObj : ContainerObject) : Bool :=
  hierObj.subFiles.all (fun f => !pred (.file f))
    && hierObj.subLinks.all (fun l => !pred (.symlink l))

/-- The drop rule in the words of the specification: the folder fails the
predicate, none of its direct files or symlinks satisfies the predicate, and its
own container kept no sub-folders. -/
def dropRule (pred : Predicate) (folder : FolderPair) : Bool :=
  !pred (.folder folder) && noDirectItem pred folder.hier
    && (extractVisibleSubtree folder.hier {} pred).subDirs.isEmpty

/-- The container of a folder as its parent sees it after the recursive call and
the statement `if (included) ++subDirCont.itemCountGross;`. -/
def countedSubDir (pred : Predicate) (folder : FolderPair) : Container :=
  let subDirCont := extractVisibleSubtree folder.hier {} pred
  if pred (.folder folder) then
    { subDirCont with itemCountGross := subDirCont.itemCountGross + 1 }
  else subDirCont

/-- The node that the loop over the sub-folders appends for a folder it keeps:
tagged with the identity of the folder and compressed. -/
def keptNode (pred : Predicate) (folder : FolderPair) : DirNodeImpl :=
  DirNodeImpl.mk (compressNode (countedSubDir pred folder)) (some folder.id)

/-- The root drop rule in the words of the specification: no direct file or
symlink of the root pair satisfies the predicate and its container kept no
sub-folders. -/
def rootDropRule (pred : Predicate) (baseObj : BaseFolderPair) : Bool :=
  noDirectItem pred baseObj.hier && (extractVisibleSubtree baseObj.hier {} pred).subDirs.isEmpty

/-- The value `1` for an included folder and `0` otherwise: the folder counts as
one item of its own container. -/
def selfCount (pred : Predicate) (folder : FolderPair) : Int :=
  if pred (.folder folder) then 1 else 0

/-- The root node that the loop of `updateView` appends for a root pair it keeps. -/
def keptRoot (getShortDisplayNameForFolderPair : String → String → String)
    (pred : Predicate) (baseObj : BaseFolderPair) : RootNodeImpl :=
  { toContainerOf := compressNode (extractVisibleSubtree baseObj.hier {} pred)
    baseFolder := some baseObj
    displayName := getShortDisplayNameForFolderPair baseObj.leftPath baseObj.rightPath }

/-- Sum of `bytesGross` over the direct child containers, as a `uint64_t` operand. -/
def childBytesGross (subDirs : List DirNodeImpl) : Nat :=
  (subDirs.map (fun d => d.toContainer.bytesGross)).sum

/-- Sum of `itemCountGross` over the direct child containers. -/
def childItemCountGross (subDirs : List DirNodeImpl) : Int :=
  (subDirs.map (fun d => d.toContainer.itemCountGross)).sum

/-- Every folder of a comparison, at any depth below any root pair. -/
def forestFolders (folderCmp : List BaseFolderPair) : List FolderPair :=
  allFolders (folderCmp.flatMap (fun b => b.hier.subFolders))

/-! ## The flat row list (`TreeLine`, `getChildren`, sorting, `applySubView`) -/

/-- The kind of a row, `enum class NodeType { root, folder, files }`. -/
inductive NodeType where
  | root : NodeType
  | folder : NodeType
  | files : NodeType
deriving DecidableEq, Repr

/-- The numeric value of a `NodeType`, which `lhs.type < rhs.type` compares. -/
def NodeType.toNat : NodeType → Nat
  | .root => 0
  | .folder => 1
  | .files => 2

/-- The sort column, `enum class ColumnTypeTree { folder, itemCount, bytes }`. -/
inductive ColumnTypeTree where
  | folder : ColumnTypeTree
  | itemCount : ColumnTypeTree
  | bytes : ColumnTypeTree
deriving DecidableEq, Repr

/-- The sort configuration `TreeView::SortInfo`. -/
structure SortInfo where
  sortCol : ColumnTypeTree
  ascending : Bool
deriving DecidableEq, Repr

/-- The result of `getStatus`: `STATUS_EXPANDED`, `STATUS_REDUCED`, `STATUS_EMPTY`. -/
inductive NodeStatus where
  | expanded : NodeStatus
  | reduced : NodeStatus
  | empty : NodeStatus
deriving DecidableEq, Repr

/-- The target of a `const Container*` held by a row: the root node or directory
node it points at, so that two rows pointing at equal nodes compare equal by
content. -/
inductive NodePtr where
  | root (r : RootNodeImpl) : NodePtr
  | dir (d : DirNodeImpl) : NodePtr

/-- The `Container` base of the node a row points at. -/
def NodePtr.cont : NodePtr → Container
  | .root r => r.toContainerOf
  | .dir d => d.toContainer

/-- The member `objId` read through `static_cast<const DirNodeImpl*>`; the cast of
a root node is undefined in C++ and reads the null identity here. -/
def NodePtr.objId : NodePtr → Option ObjectId
  | .root _ => none
  | .dir d => d.objId

/-- The member `displayName` read through `static_cast<const RootNodeImpl*>`; the
cast of a directory node is undefined in C++ and reads the empty name here. -/
def NodePtr.displayName : NodePtr → String
  | .root r => r.displayName
  | .dir _ => ""

/-- The member `baseFolder` read through `static_cast<const RootNodeImpl*>`; the
cast of a directory node is undefined in C++ and reads the null pointer here. -/
def NodePtr.baseFolder : NodePtr → Option BaseFolderPair
  | .root r => r.baseFolder
  | .dir _ => none

/-- A flat row `TreeView::TreeLine`. The level is the nesting depth of the row
and stays far below the range of `unsigned int`, so it is a natural number. -/
structure TreeLine where
  level : Nat
  percent : Int
  node : NodePtr
  type : NodeType

/-- The routines that `tree_grid.cpp` calls and that are defined outside the
sources: `std::nth_element`, `std::sort` on rows, the comparison
`LessNaturalSort` on names, the object registry `FileSystemObject::retrieve` and
`getShortDisplayNameForFolderPair`. -/
structure Library where
  nthElement : NthElement
  sort : (TreeLine → TreeLine → Bool) → List TreeLine → List TreeLine
  lessNaturalSort : String → String → Bool
  retrieve : Option ObjectId → Option FileSystemObject
  getShortDisplayNameForFolderPair : String → String → String

/-- The part of the contract of `std::sort` used here: the range is only
rearranged. -/
def SortPerm (lib : Library) : Prop :=
  ∀ comp items, List.Perm (lib.sort comp items) items

/-- The part of the contract of `std::sort` about the order: for a comparison that
is a strict weak ordering, no row of the result is ordered before a row that
precedes it. -/
def SortSorted (lib : Library) : Prop :=
  ∀ comp items, StrictWeakOrder comp →
    List.Pairwise (fun a b => comp b a = false) (lib.sort comp items)

/-- Modelled from the spec: `makeSortDirection` is the generic
ascending/descending adapter of a comparison; ascending keeps the comparison,
descending swaps its arguments. -/
def makeSortDirection {α : Type} (less : α → α → Bool) (ascending : Bool) : α → α → Bool :=
  if ascending then less else fun lhs rhs => less rhs lhs

/-- The expression `dynamic_cast<const FolderPair*>(FileSystemObject::retrieve(objId))`. -/
def resolveFolder (lib : Library) (objId : Option ObjectId) : Option FolderPair :=
  match lib.retrieve objId with
  | some (.folder folder) => some folder
  | _ => none

/-- The comparison `TreeView::LessShortName<ascending>`. -/
def lessShortName (lib : Library) (ascending : Bool) (lhs rhs : TreeLine) : Bool :=
  if lhs.type = .files then false
  else if rhs.type = .files then true
  else if lhs.type ≠ rhs.type then decide (lhs.type.toNat < rhs.type.toNat)
  else
    match lhs.type with
    | .root =>
        makeSortDirection lib.lessNaturalSort ascending lhs.node.displayName rhs.node.displayName
    | .folder =>
        match resolveFolder lib lhs.node.objId, resolveFolder lib rhs.node.objId with
        | none, _ => false
        | some _, none => true
        | some folderL, some folderR =>
            makeSortDirection lib.lessNaturalSort ascending folderL.itemName folderR.itemName
    | .files => false

/-- The lambda `getBytes` of `sortSingleLevel`. -/
def lineBytes (line : TreeLine) : Nat :=
  match line.type with
  | .root => line.node.cont.bytesGross
  | .folder => line.node.cont.bytesGross
  | .files => line.node.cont.bytesNet

/-- The lambda `getCount` of `sortSingleLevel`. -/
def lineCount (line : TreeLine) : Int :=
  match line.type with
  | .root => line.node.cont.itemCountGross
  | .folder => line.node.cont.itemCountGross
  | .files => line.node.cont.itemCountNet

/-- `TreeView::sortSingleLevel<ascending>(items, columnType)`. -/
def sortSingleLevel (lib : Library) (ascending : Bool) (items : List TreeLine)
    (columnType : ColumnTypeTree) : List TreeLine :=
  match columnType with
  | .folder => lib.sort (lessShortName lib ascending) items
  | .itemCount =>
      lib.sort
        (makeSortDirection (fun lhs rhs => decide (lineCount lhs < lineCount rhs)) ascending) items
  | .bytes =>
      lib.sort
        (makeSortDirection (fun lhs rhs => decide (lineBytes lhs < lineBytes rhs)) ascending) items

/-- The work list of a sibling group: the pair of the `i`-th weight points at the
`percent` member of the `i`-th row, counted from `start`. -/
def percentWorkList (start : Nat) : List Nat → WorkList
  | [] => []
  | w :: ws => (w, start) :: percentWorkList (start + 1) ws

/-- The `percent` members of the rows as a memory of `int` slots. -/
def percentStore (output : List TreeLine) : Store :=
  fun slot => match output[slot]? with
    | some line => line.percent
    | none => 0

/-- The rows after their `percent` members have been overwritten with the
contents of the slots, counted from `start`. -/
def storePercent (mem : Store) (start : Nat) : List TreeLine → List TreeLine
  | [] => []
  | line :: rest => { line with percent := mem start } :: storePercent mem (start + 1) rest

/-- The effect of `calcPercentage(workList)` on the rows whose `percent` members
the slots of the work list point at; `weights` are the first components of the
work list, in the order of the rows. -/
def assignPercentages (lib : Library) (output : List TreeLine) (weights : List Nat) :
    List TreeLine :=
  storePercent
    (calcPercentage lib.nthElement (percentWorkList 0 weights) (percentStore output)).2 0 output

/-- The rows that `getChildren` pushes before the percentages are computed: one
row of kind folder per sub-directory, then one row of kind files if
`firstFileId` is set. -/
def childRows (cont : NodePtr) (level : Nat) : List TreeLine :=
  cont.cont.subDirs.map
      (fun subDir => { level := level, percent := 0, node := NodePtr.dir subDir, type := .folder })
    ++ (if cont.cont.firstFileId.isSome then
          [{ level := level, percent := 0, node := cont, type := .files }]
        else [])

/-- The weights that `getChildren` puts into the work list, in the order of
`childRows`. -/
def childWeights (cont : NodePtr) : List Nat :=
  cont.cont.subDirs.map (fun subDir => subDir.toContainer.bytesGross)
    ++ (if cont.cont.firstFileId.isSome then [cont.cont.bytesNet] else [])

/-- `TreeView::getChildren(cont, level, output)`; the result is `output`. The
reference `cont` is given by the node it refers to. -/
def getChildren (lib : Library) (currentSort : SortInfo) (cont : NodePtr) (level : Nat) :
    List TreeLine :=
  let output := assignPercentages lib (childRows cont level) (childWeights cont)
  if currentSort.ascending then sortSingleLevel lib true output currentSort.sortCol
  else sortSingleLevel lib false output currentSort.sortCol

/-- The state of a `TreeView`. -/
structure TreeView where
  folderCmp : List BaseFolderPair
  currentSort : SortInfo
  folderCmpView : List RootNodeImpl := []
  flatTree : List TreeLine := []
  lastViewFilterPred : Predicate := fun _ => true

/-- The logical identity of an expandable row (`const ContainerObject*`): a root
pair or a folder pair, told apart by their identities. -/
inductive HierAlias where
  | base (id : ObjectId) : HierAlias
  | folder (id : ObjectId) : HierAlias
deriving DecidableEq, Repr

/-- The lambda `getHierAlias` of `applySubView`. -/
def getHierAlias (lib : Library) (tl : TreeLine) : Option HierAlias :=
  match tl.type with
  | .root => tl.node.baseFolder.map (fun baseObj => HierAlias.base baseObj.id)
  | .folder => (resolveFolder lib tl.node.objId).map (fun folder => HierAlias.folder folder.id)
  | .files => none

/-- The set `expandedNodes` that `applySubView` collects from the current flat
rows: the identities of the rows that are followed by a deeper row. -/
def expandedNodes (lib : Library) : List TreeLine → List HierAlias
  | [] => []
  | [_] => []
  | it :: next :: rest =>
      (if it.level < next.level then (getHierAlias lib it).toList else [])
        ++ expandedNodes lib (next :: rest)

/-- The test of the restore loop: the row has an identity and `expandedNodes`
contains it. -/
def isRestored (lib : Library) (expanded : List HierAlias) (line : TreeLine) : Bool :=
  match getHierAlias lib line with
  | some hierObj => decide (hierObj ∈ expanded)
  | none => false

/-- The loop `for (size_t row = 0; row < flatTree_.size(); ++row)` of
`applySubView`, from `row` on: the children of every restored row are inserted
behind it and visited in turn. Every iteration consumes one unit of `fuel`. -/
def restoreLoop (lib : Library) (currentSort : SortInfo) (expanded : List HierAlias) :
    Nat → Nat → List TreeLine → List TreeLine
  | 0, _, flatTree => flatTree
  | fuel + 1, row, flatTree =>
      match flatTree[row]? with
      | none => flatTree
      | some line =>
          if isRestored lib expanded line then
            restoreLoop lib currentSort expanded fuel (row + 1)
              (flatTree.take (row + 1) ++ getChildren lib currentSort line.node (line.level + 1)
                ++ flatTree.drop (row + 1))
          else
            restoreLoop lib currentSort expanded fuel (row + 1) flatTree

mutual
/-- An upper bound of the number of rows that a directory node and everything
below it can contribute to the flat list: the node, its files row and the rows
of its sub-directories. -/
def DirNodeImpl.rowBound : DirNodeImpl → Nat
  | .mk c _ => 2 + rowBoundOfList c.subDirs
/-- The sum of the row bounds of a list of directory nodes. -/
def rowBoundOfList : List DirNodeImpl → Nat
  | [] => 0
  | d :: ds => d.rowBound + rowBoundOfList ds
end

/-- An upper bound of the number of rows that a row and its restored descendants
occupy in the flat list. -/
def TreeLine.rowBound (line : TreeLine) : Nat :=
  match line.type with
  | .files => 1
  | _ => 2 + rowBoundOfList line.node.cont.subDirs

/-- An upper bound of the number of iterations of the restore loop on a list of
rows. -/
def restoreFuel (rows : List TreeLine) : Nat :=
  (rows.map TreeLine.rowBound).sum

/-- The row bound of a row as a function of its level, node and kind. -/
def shapeBound (shape : Nat × NodePtr × NodeType) : Nat :=
  match shape.2.2 with
  | .files => 1
  | _ => 2 + rowBoundOfList shape.2.1.cont.subDirs

/-- The top-level rows that `applySubView` sets before it restores the expansion
status. -/
def defaultFlatTree (lib : Library) (folderCmp : List BaseFolderPair) (currentSort : SortInfo)
    (folderCmpView : List RootNodeImpl) : List TreeLine :=
  if folderCmp.length = 1 then
    match folderCmpView with
    | [] => []
    | root :: _ => getChildren lib currentSort (.root root) 0
  else
    let output := assignPercentages lib
      (folderCmpView.map
        (fun root => { level := 0, percent := 0, node := NodePtr.root root, type := .root }))
      (folderCmpView.map (fun root => root.bytesGross))
    if currentSort.ascending then sortSingleLevel lib true output currentSort.sortCol
    else sortSingleLevel lib false output currentSort.sortCol

/-- `TreeView::applySubView(newView)`. -/
def applySubView (lib : Library) (tv : TreeView) (newView : List RootNodeImpl) : TreeView :=
  let expanded := expandedNodes lib tv.flatTree
  let top := defaultFlatTree lib tv.folderCmp tv.currentSort newView
  { tv with
    folderCmpView := newView
    flatTree := restoreLoop lib tv.currentSort expanded (restoreFuel top) 0 top }

/-- `TreeView::updateView(pred)`. -/
def updateView (lib : Library) (tv : TreeView) (pred : Predicate) : TreeView :=
  applySubView lib { tv with lastViewFilterPred := pred }
    (updateViewForest lib.getShortDisplayNameForFolderPair tv.folderCmp pred)

/-- `TreeView::setSortDirection(colType, ascending)`. -/
def setSortDirection (lib : Library) (tv : TreeView) (colType : ColumnTypeTree)
    (ascending : Bool) : TreeView :=
  applySubView lib { tv with currentSort := { sortCol := colType, ascending := ascending } }
    tv.folderCmpView

/-- `TreeView::getStatus(row)`. -/
def getStatus (tv : TreeView) (row : Nat) : NodeStatus :=
  match tv.flatTree[row]? with
  | none => .empty
  | some line =>
      if (match tv.flatTree[row + 1]? with
          | some next => decide (next.level > line.level)
          | none => false) then .expanded
      else
        match line.type with
        | .files => .empty
        | _ =>
            if line.node.cont.firstFileId.isSome || !line.node.cont.subDirs.isEmpty then .reduced
            else .empty

/-- `TreeView::expandNode(row)`. -/
def expandNode (lib : Library) (tv : TreeView) (row : Nat) : TreeView :=
  if getStatus tv row ≠ .reduced then tv
  else
    match tv.flatTree[row]? with
    | none => tv
    | some line =>
        let newLines :=
          match line.type with
          | .files => []
          | _ => getChildren lib tv.currentSort line.node (line.level + 1)
        { tv with flatTree := tv.flatTree.take (row + 1) ++ newLines ++ tv.flatTree.drop (row + 1) }

/-- The `std::remove_if` call of `reduceNode` with its stateful predicate: rows
are removed while their level exceeds `parentLevel`; from the first row that
does not, `done` is set and everything is kept. -/
def removeDeeper (parentLevel : Nat) : Bool → List TreeLine → List TreeLine
  | _, [] => []
  | done, line :: rest =>
      if done then line :: removeDeeper parentLevel true rest
      else if line.level > parentLevel then removeDeeper parentLevel false rest
      else line :: removeDeeper parentLevel true rest

/-- `TreeView::reduceNode(row)`. -/
def reduceNode (tv : TreeView) (row : Nat) : TreeView :=
  match tv.flatTree[row]? with
  | none => tv
  | some line =>
      { tv with
        flatTree := tv.flatTree.take (row + 1)
          ++ removeDeeper line.level false (tv.flatTree.drop (row + 1)) }

/-- The group of a row under `LessShortName`: root rows, then folder rows whose
identity resolves, then folder rows whose identity does not resolve, then files
rows. -/
def nameRank (lib : Library) (line : TreeLine) : Nat :=
  match line.type with
  | .root => 0
  | .folder => if (resolveFolder lib line.node.objId).isSome then 1 else 2
  | .files => 3

/-- The name that `LessShortName` compares within a group: the display name of a
root row, the item name of a resolved folder row. -/
def nameKey (lib : Library) (line : TreeLine) : String :=
  match line.type with
  | .root => line.node.displayName
  | .folder =>
      match resolveFolder lib line.node.objId with
      | some folder => folder.itemName
      | none => ""
  | .files => ""

/-- The loop `while (row-- > 0) if (flatTree_[row].level < level) return row;` of
`getParent` followed by `return -1`; the argument is the value of `row` before the
test. Every row it reads is in range. -/
def getParentLoop (flatTree : List TreeLine) (level : Nat) : Nat → Int
  | 0 => -1
  | row + 1 =>
      match flatTree[row]? with
      | some line =>
          if line.level < level then (row : Int) else getParentLoop flatTree level row
      | none => getParentLoop flatTree level row

/-- `TreeView::getParent(row)`; the result is a `ptrdiff_t`. -/
def getParent (tv : TreeView) (row : Nat) : Int :=
  match tv.flatTree[row]? with
  | some line => getParentLoop tv.flatTree line.level row
  | none => -1

/-- Modelled from the spec: the display node `TreeView::Node` with its variants
`RootNode`, `DirNode` and `FilesNode`; they are declared in the header, which is
not part of the sources. Each variant carries the arguments that `getLine` hands
to its constructor, in their order; the reference `*root.baseFolder` is given by
the pointer it is bound to. -/
inductive Node where
  | RootNode (percent : Int) (bytes : Nat) (itemCount : Int) (status : NodeStatus)
      (baseFolder : Option BaseFolderPair) (displayName : String) : Node
  | DirNode (percent : Int) (bytes : Nat) (itemCount : Int) (level : Nat)
      (status : NodeStatus) (folder : FolderPair) : Node
  | FilesNode (percent : Int) (bytes : Nat) (itemCount : Int) (level : Nat)
      (filesAndLinks : List FileSystemObject) : Node

/-- The two loops of `getLine` that collect the files and then the symlinks of
`parent` that satisfy `lastViewFilterPred_`. -/
def collectFilesAndLinks (pred : Predicate) (parent : ContainerObject) : List FileSystemObject :=
  let filesAndLinks := parent.subFiles.foldl
    (fun acc file => if pred (.file file) then acc ++ [FileSystemObject.file file] else acc) []
  parent.subLinks.foldl
    (fun acc link => if pred (.symlink link) then acc ++ [FileSystemObject.symlink link] else acc)
    filesAndLinks

/-- `TreeView::getLine(row)`; `none` is the null pointer. `FileSystemObject::parent`
is defined outside the sources and is the parameter `parent`. -/
def getLine (lib : Library) (parent : FileSystemObject → ContainerObject) (tv : TreeView)
    (row : Nat) : Option Node :=
  match tv.flatTree[row]? with
  | none => none
  | some line =>
      match line.type with
      | .root =>
          some (Node.RootNode line.percent line.node.cont.bytesGross
            line.node.cont.itemCountGross (getStatus tv row) line.node.baseFolder
            line.node.displayName)
      | .folder =>
          match resolveFolder lib line.node.objId with
          | some folder =>
              some (Node.DirNode line.percent line.node.cont.bytesGross
                line.node.cont.itemCountGross line.level (getStatus tv row) folder)
          | none => none
      | .files =>
          match lib.retrieve line.node.cont.firstFileId with
          | some firstFile =>
              some (Node.FilesNode line.percent line.node.cont.bytesNet
                line.node.cont.itemCountNet line.level
                (collectFilesAndLinks tv.lastViewFilterPred (parent firstFile)))
          | none => none

/-- The rows that a row gets when it is expanded: `getChildren` of its node, one
level deeper. -/
def childrenOf (lib : Library) (currentSort : SortInfo) (line : TreeLine) : List TreeLine :=
  getChildren lib currentSort line.node (line.level + 1)

/-- `FlatOf children opens siblings rows`: `rows` lists the sibling rows in their
order, every row that is open immediately followed by the rows of its children,
laid out in the same way (nested expansions included), every other row followed
by nothing of its own. `opens line b` says whether `line` may be open (`b = true`)
or closed (`b = false`). -/
inductive FlatOf (children : TreeLine → List TreeLine) (opens : TreeLine → Bool → Prop) :
    List TreeLine → List TreeLine → Prop where
  | nil : FlatOf children opens [] []
  | closed {line : TreeLine} {siblings rows : List TreeLine} :
      opens line false → FlatOf children opens siblings rows →
        FlatOf children opens (line :: siblings) (line :: rows)
  | opened {line : TreeLine} {siblings below rows : List TreeLine} :
      opens line true → FlatOf children opens (children line) below →
        FlatOf children opens siblings rows →
          FlatOf children opens (line :: siblings) (line :: (below ++ rows))

/-- The row at index `row` is followed by a deeper row: the condition by which
`getStatus` and `applySubView` recognise an expanded row. -/
def followedByDeeper (flatTree : List TreeLine) (row : Nat) : Prop :=
  ∃ line next, flatTree[row]? = some line ∧ flatTree[row + 1]? = some next
    ∧ line.level < next.level

/-- The row of kind root at level 0 for a root node, with a given percentage. -/
def rootRow (root : RootNodeImpl) (percent : Int) : TreeLine :=
  { level := 0, percent := percent, node := NodePtr.root root, type := NodeType.root }

/-! ## Worked examples -/

/-- A folder without any content. -/
def emptyFolder : FolderPair :=
  .mk 3 "empty" {}

/-- A root pair with three folders: `empty` (no content), `src` (two files of
300 and 100 bytes, taking the larger side) and `docs` (one file of 600 bytes and
a sub-folder holding one symlink). -/
def exampleRoot : BaseFolderPair :=
  { id := 100
    leftPath := "left"
    rightPath := "right"
    hier :=
      { subFolders :=
          [ emptyFolder,
            .mk 1 "src" { subFiles := [⟨10, 100, 50⟩, ⟨11, 20, 300⟩] },
            .mk 2 "docs"
              { subFiles := [⟨12, 600, 600⟩]
                subFolders := [.mk 4 "img" { subLinks := [⟨13⟩] }] } ] } }

/-- A root pair without any content. -/
def emptyRoot : BaseFolderPair :=
  { id := 101, leftPath := "other left", rightPath := "other right", hier := {} }

/-- A comparison of two root pairs. -/
def exampleCmp : List BaseFolderPair :=
  [exampleRoot, emptyRoot]

/-- A comparison of one root pair whose only item is an empty folder. -/
def emptyFolderCmp : List BaseFolderPair :=
  [{ id := 100, leftPath := "left", rightPath := "right",
     hier := { subFolders := [emptyFolder] } }]

/-- The predicate that includes everything. -/
def includeAll : Predicate :=
  fun _ => true

/-- The predicate that includes folders only. -/
def includeFolders : Predicate
  | .folder _ => true
  | _ => false

/-- The predicate that includes files and symlinks only. -/
def includeItems : Predicate
  | .folder _ => false
  | _ => true

/-- A display name: the left path. -/
def leftName : String → String → String :=
  fun l _ => l

/-- Insertion of one row into a list ordered by `comp`: it goes behind exactly the
rows that `comp` orders strictly before it. -/
def insertLine (comp : TreeLine → TreeLine → Bool) (x : TreeLine) : List TreeLine → List TreeLine
  | [] => [x]
  | y :: ys => if comp y x then y :: insertLine comp x ys else x :: y :: ys

/-- A reference `std::sort`: stable insertion sort. -/
def sortByInsertion (comp : TreeLine → TreeLine → Bool) (items : List TreeLine) : List TreeLine :=
  items.foldr (insertLine comp) []

/-- A reference object registry: it resolves the identity of every folder below
the root pairs of a comparison to that folder, then the identity of every file
and of every symlink, and nothing else. -/
def retrieveIn (folderCmp : List BaseFolderPair) : Option ObjectId → Option FileSystemObject
  | none => none
  | some i =>
      match (forestFolders folderCmp).find? (fun folder => folder.id == i) with
      | some folder => some (.folder folder)
      | none =>
          match (folderCmp.flatMap (fun b => allFiles b.hier)).find? (fun f => f.id == i) with
          | some file => some (.file file)
          | none =>
              ((folderCmp.flatMap (fun b => allLinks b.hier)).find? (fun l => l.id == i)).map
                FileSystemObject.symlink

/-- The lexicographic order of two lists of character codes. -/
def lexLess : List Nat → List Nat → Bool
  | _, [] => false
  | [], _ :: _ => true
  | a :: as, b :: bs => decide (a < b) || (a == b && lexLess as bs)

/-- A reference library for a comparison: the reference `nth_element` and sort,
the lexicographic order of the character codes for names, the reference registry
and the left path as display name. -/
def referenceLibrary (folderCmp : List BaseFolderPair) : Library :=
  { nthElement := nthElementBySort
    sort := sortByInsertion
    lessNaturalSort := fun lhs rhs =>
      lexLess (lhs.toList.map Char.toNat) (rhs.toList.map Char.toNat)
    retrieve := retrieveIn folderCmp
    getShortDisplayNameForFolderPair := leftName }

/-- The sort configuration by name, ascending. -/
def byNameAscending : SortInfo :=
  { sortCol := .folder, ascending := true }

/-- A root pair with the folders `src` (files of 100 and 300 bytes) and `docs`
(one file of 600 bytes). -/
def shareRoot : BaseFolderPair :=
  { id := 200
    leftPath := "A"
    rightPath := "A2"
    hier :=
      { subFolders :=
          [ .mk 21 "src" { subFiles := [⟨31, 100, 0⟩, ⟨32, 300, 0⟩] },
            .mk 22 "docs" { subFiles := [⟨33, 600, 0⟩] } ] } }

/-- A comparison of the root pair `shareRoot` and an empty root pair. -/
def shareCmp : List BaseFolderPair :=
  [shareRoot, emptyRoot]

/-- A comparison of one root pair with one folder that holds one file of
`2 ^ 63` bytes. -/
def hugeFileCmp : List BaseFolderPair :=
  [{ id := 300, leftPath := "left", rightPath := "right",
     hier := { subFolders := [.mk 41 "huge" { subFiles := [⟨51, 2 ^ 63, 0⟩] }] } }]

/-- The view state right after construction: no forest, no rows. -/
def initialView (folderCmp : List BaseFolderPair) (currentSort : SortInfo) : TreeView :=
  { folderCmp := folderCmp, currentSort := currentSort }

/-- The constructor `TreeView::TreeView(folderCmp, si)`: the root pairs whose
two base paths are both null are erased from `folderCmp_`; there is no forest and
no row yet. `AFS::isNullPath` is defined outside the sources and is a parameter. -/
def TreeView.construct (isNullPath : String → Bool) (folderCmp : List BaseFolderPair)
    (si : SortInfo) : TreeView :=
  initialView
    (folderCmp.filter
      (fun baseObj => !(isNullPath baseObj.leftPath && isNullPath baseObj.rightPath)))
    si

/-- The views that the operations of `TreeView` reach from the state after
construction on the comparison `folderCmp`. -/
inductive Reachable (lib : Library) (isNullPath : String → Bool)
    (folderCmp : List BaseFolderPair) : TreeView → Prop where
  | constructed (currentSort : SortInfo) :
      Reachable lib isNullPath folderCmp (TreeView.construct isNullPath folderCmp currentSort)
  | afterUpdateView {tv : TreeView} (pred : Predicate) :
      Reachable lib isNullPath folderCmp tv →
        Reachable lib isNullPath folderCmp (updateView lib tv pred)
  | afterSetSortDirection {tv : TreeView} (colType : ColumnTypeTree) (ascending : Bool) :
      Reachable lib isNullPath folderCmp tv →
        Reachable lib isNullPath folderCmp (setSortDirection lib tv colType ascending)
  | afterExpandNode {tv : TreeView} (row : Nat) :
      Reachable lib isNullPath folderCmp tv →
        Reachable lib isNullPath folderCmp (expandNode lib tv row)
  | afterReduceNode {tv : TreeView} (row : Nat) :
      Reachable lib isNullPath folderCmp tv →
        Reachable lib isNullPath folderCmp (reduceNode tv row)

/-- The rows that may be open in a layout reached by expanding and reducing: any
row that is no files row; every row may be closed. -/
def mayOpen (line : TreeLine) (isOpen : Bool) : Prop :=
  isOpen = true → line.type ≠ NodeType.files

/-- The identity that `getHierAlias` gives to a folder row that points at this
node. -/
def folderAlias (lib : Library) (d : DirNodeImpl) : Option HierAlias :=
  (resolveFolder lib d.objId).map (fun folder => HierAlias.folder folder.id)

/-- The identities of the rows that can appear below a row: those of all nodes
below its node; nothing below a files row. -/
def aliasesUnder (lib : Library) (line : TreeLine) : List HierAlias :=
  if line.type = NodeType.files then []
  else (allNodes line.node.cont.subDirs).filterMap (folderAlias lib)

/-- The identity of a row together with the identities of the rows that can
appear below it. -/
def aliasPotential (lib : Library) (line : TreeLine) : List HierAlias :=
  (getHierAlias lib line).toList ++ aliasesUnder lib line

/-- The identities of all rows that a forest can show: per root node the identity
of its root pair and the identities of all nodes below it. -/
def forestAliases (lib : Library) (view : List RootNodeImpl) : List HierAlias :=
  view.flatMap (fun root =>
    (root.baseFolder.map (fun baseObj => HierAlias.base baseObj.id)).toList
      ++ (allNodes root.subDirs).filterMap (folderAlias lib))

/-- The identities of all root pairs and folders of a comparison. -/
def comparisonAliases (folderCmp : List BaseFolderPair) : List HierAlias :=
  folderCmp.flatMap (fun baseObj =>
    HierAlias.base baseObj.id
      :: (allFolders baseObj.hier.subFolders).map (fun folder => HierAlias.folder folder.id))

/-- A row that is no files row has an identity, and so has every node below its
node. -/
def rowResolves (lib : Library) (line : TreeLine) : Prop :=
  line.type ≠ NodeType.files →
    (getHierAlias lib line).isSome = true
      ∧ ∀ d ∈ allNodes line.node.cont.subDirs, (folderAlias lib d).isSome = true

/-- The folder `img` of the example comparison. -/
def imgFolder : FolderPair :=
  .mk 4 "img" { subLinks := [⟨13⟩] }

/-- The folder `docs` of the example comparison. -/
def docsFolder : FolderPair :=
  .mk 2 "docs" { subFiles := [⟨12, 600, 600⟩], subFolders := [imgFolder] }

/-- The node that the view keeps for `docs` when everything is included. -/
def docsNode : DirNodeImpl :=
  keptNode includeAll docsFolder

/-- The folder row of `img` among the children of `docs`. -/
def imgRow : TreeLine :=
  { level := 2, percent := 0, node := NodePtr.dir (keptNode includeAll imgFolder), type := .folder }

/-- The files row among the children of `docs`. -/
def docsFilesRow : TreeLine :=
  { level := 2, percent := 100, node := NodePtr.dir docsNode, type := .files }

/-- A folder row whose identity belongs to no folder of the example comparison. -/
def staleRow : TreeLine :=
  { level := 2, percent := 0, node := NodePtr.dir (DirNodeImpl.mk {} (some 999)), type := .folder }

/-- The sort configuration by bytes, descending. -/
def byBytesDescending : SortInfo :=
  { sortCol := .bytes, ascending := false }

/-- The view of the example comparison sorted by name with everything included,
after expanding the root row and then the row of `docs`. -/
def exampleView : TreeView :=
  expandNode (referenceLibrary exampleCmp)
    (expandNode (referenceLibrary exampleCmp)
      (updateView (referenceLibrary exampleCmp)
        (TreeView.construct (fun _ => false) exampleCmp byNameAscending) includeAll) 0) 1

/-- The hierarchy objects of a comparison: the root pairs and all folders. -/
def containersOf (folderCmp : List BaseFolderPair) : List ContainerObject :=
  folderCmp.map (fun b => b.hier) ++ (forestFolders folderCmp).map (fun folder => folder.hier)

/-- A reference `FileSystemObject::parent`: the first hierarchy object of the
comparison that holds an object of the same kind and identity directly. -/
def parentIn (folderCmp : List BaseFolderPair) (fsObj : FileSystemObject) : ContainerObject :=
  match (containersOf folderCmp).find?
      (fun c =>
        match fsObj with
        | .file f => c.subFiles.any (fun x => x.id == f.id)
        | .symlink l => c.subLinks.any (fun x => x.id == l.id)
        | .folder d => c.subFolders.any (fun x => x.id == d.id)) with
  | some c => c
  | none => {}

/-- A hierarchy object whose sizes exceed 64 bits in sum: direct files of `2 ^ 63`,
`2 ^ 63` and 7 bytes (the second on the right side), and two folders that hold one
file of `2 ^ 63` bytes each. -/
def wrapHier : ContainerObject :=
  { subFiles := [⟨61, 2 ^ 63, 0⟩, ⟨62, 0, 2 ^ 63⟩, ⟨63, 7, 7⟩]
    subFolders :=
      [ .mk 71 "a" { subFiles := [⟨64, 2 ^ 63, 0⟩] },
        .mk 72 "b" { subFiles := [⟨65, 2 ^ 63, 0⟩] } ] }

/-- A comparison of one root pair with the hierarchy object `wrapHier`. -/
def wrapCmp : List BaseFolderPair :=
  [{ id := 400, leftPath := "big", rightPath := "big2", hier := wrapHier }]

/-- The view of the comparison `shareCmp` after `updateView`, sorted by name,
with everything included. -/
def shareView : TreeView :=
  updateView (referenceLibrary shareCmp) (initialView shareCmp byNameAscending) includeAll

/-! ## Theorems: percentage distribution -/

theorem orderedInsert_perm (comp : Nat × Slot → Nat × Slot → Bool) (x : Nat × Slot)
    (l : WorkList) : List.Perm (orderedInsert comp x l) (x :: l) := by
  induction l with
  | nil => simp [orderedInsert]
  | cons y ys ih =>
    unfold orderedInsert
    split
    · exact (List.Perm.cons y ih).trans (List.Perm.swap x y ys)
    · exact List.Perm.refl _

theorem nthElementBySort_perm : NthElementPerm nthElementBySort := by
  intro comp n workList
  induction workList with
  | nil => simp [nthElementBySort]
  | cons x xs ih =>
    have h := orderedInsert_perm comp x (xs.foldr (orderedInsert comp) [])
    exact h.trans (List.Perm.cons x ih)

theorem accumulate_foldl_mod (l : WorkList) (a : Nat) :
    l.foldl (fun sum pair => (sum + pair.1) % 2 ^ 64) a % 2 ^ 64
      = (a + (l.map Prod.fst).sum) % 2 ^ 64 := by
  induction l generalizing a with
  | nil => simp
  | cons x xs ih =>
    simp only [List.foldl_cons, List.map_cons, List.sum_cons]
    rw [ih]
    omega

theorem accumulate_foldl_lt (l : WorkList) (a : Nat) (ha : a < 2 ^ 64) :
    l.foldl (fun sum pair => (sum + pair.1) % 2 ^ 64) a < 2 ^ 64 := by
  induction l generalizing a with
  | nil => simpa using ha
  | cons x xs ih =>
    simp only [List.foldl_cons]
    exact ih _ (Nat.mod_lt _ (by norm_num))

/-- The total computed by `std::accumulate` is the sum of the weights modulo `2 ^ 64`. -/
theorem accumulateTotal_eq (workList : WorkList) :
    accumulateTotal workList = (workList.map Prod.fst).sum % 2 ^ 64 := by
  have h1 := accumulate_foldl_mod workList 0
  have h2 := accumulate_foldl_lt workList 0 (by norm_num)
  unfold accumulateTotal
  rw [Nat.mod_eq_of_lt h2] at h1
  simpa using h1

theorem zeroAll_apply (workList : WorkList) (mem : Store) (q : Slot) :
    zeroAll workList mem q = if q ∈ workList.map Prod.snd then 0 else mem q := by
  unfold zeroAll
  induction workList generalizing mem with
  | nil => simp
  | cons x xs ih =>
    simp only [List.foldl_cons, List.map_cons, List.mem_cons]
    rw [ih]
    by_cases hq : q ∈ xs.map Prod.snd
    · simp [hq]
    · by_cases hx : q = x.2
      · simp [hq, hx, Store.write]
      · simp [hq, hx, Store.write]

/-- When the total computed by the code is zero, every slot of the work list holds 0
afterwards and every other slot is untouched. -/
theorem calcPercentage_of_total_zero (nthElement : NthElement) (workList : WorkList)
    (mem : Store) (h : accumulateTotal workList = 0) (q : Slot) :
    (calcPercentage nthElement workList mem).2 q
      = if q ∈ workList.map Prod.snd then 0 else mem q := by
  unfold calcPercentage
  simp only [h, if_true]
  exact zeroAll_apply workList mem q

/-- C2: for every work list whose total weight is 0 (the empty list included),
`calcPercentage` sets every slot of the list to 0. -/
theorem calcPercentage_zero_total (nthElement : NthElement) (workList : WorkList)
    (mem : Store) (h : (workList.map Prod.fst).sum = 0) :
    ∀ pair ∈ workList, (calcPercentage nthElement workList mem).2 pair.2 = 0 := by
  intro pair hp
  have ht : accumulateTotal workList = 0 := by
    rw [accumulateTotal_eq, h]; rfl
  rw [calcPercentage_of_total_zero nthElement workList mem ht]
  have : pair.2 ∈ workList.map Prod.snd := List.mem_map_of_mem Prod.snd hp
  simp [this]

theorem calcPercentage_zero_total_witness :
    ([(0, 0), (0, 1)].map Prod.fst).sum = 0 ∧
      ∀ pair ∈ [((0 : Nat), (0 : Slot)), (0, 1)],
        (calcPercentage nthElementBySort [(0, 0), (0, 1)] (fun _ => 7)).2 pair.2 = 0 :=
  ⟨by decide, calcPercentage_zero_total nthElementBySort [(0, 0), (0, 1)] (fun _ => 7) (by decide)⟩

/-- C1 (failing input): on the one-element work list with weight `2 ^ 63`, whose
total is `2 ^ 63 > 0`, the product `bytes * 100U` wraps around to 0 in `uint64_t`,
the round-down pass leaves `remainingPercent = 100`, the clamp reduces it to 1, and
the only slot ends up holding 1: the percentages sum to 1, not to 100. -/
theorem calcPercentage_wraps_at_two_pow_63 (nthElement : NthElement)
    (h : NthElementPerm nthElement) (mem : Store) :
    accumulateTotal [(2 ^ 63, 0)] = 2 ^ 63
      ∧ (roundDown (2 ^ 63) [(2 ^ 63, 0)] mem 100).2 = 100
      ∧ (calcPercentage nthElement [(2 ^ 63, 0)] mem).2 0 = 1
      ∧ percentSum [(2 ^ 63, 0)] (calcPercentage nthElement [(2 ^ 63, 0)] mem).2 = 1 := by
  have hn : ∀ comp n, nthElement comp n [(2 ^ 63, 0)] = [(2 ^ 63, 0)] := by
    intro comp n
    exact List.perm_singleton.mp (h comp n [(2 ^ 63, 0)])
  have ht : accumulateTotal [(2 ^ 63, 0)] = 2 ^ 63 := by decide
  have hr : roundDown (2 ^ 63) [(2 ^ 63, 0)] mem 100 = (mem.write 0 0, 100) := by
    simp [roundDown, Store.write, toInt32]
  have hc : (calcPercentage nthElement [(2 ^ 63, 0)] mem).2 0 = 1 := by
    unfold calcPercentage
    simp only [ht, hr, hn]
    simp [toInt32, incrementAll, Store.write]
  refine ⟨ht, by rw [hr], hc, ?_⟩
  unfold percentSum
  simp only [List.map_cons, List.map_nil, List.sum_cons, List.sum_nil, hc]
  rfl

theorem calcPercentage_wraps_at_two_pow_63_witness :
    NthElementPerm nthElementBySort
      ∧ accumulateTotal [(2 ^ 63, 0)] = 2 ^ 63
      ∧ (roundDown (2 ^ 63) [(2 ^ 63, 0)] (fun _ => 0) 100).2 = 100
      ∧ (calcPercentage nthElementBySort [(2 ^ 63, 0)] (fun _ => 0)).2 0 = 1
      ∧ percentSum [(2 ^ 63, 0)] (calcPercentage nthElementBySort [(2 ^ 63, 0)] (fun _ => 0)).2 = 1 :=
  ⟨nthElementBySort_perm,
    calcPercentage_wraps_at_two_pow_63 nthElementBySort nthElementBySort_perm (fun _ => 0)⟩

/-! ### The sum of the percentages when no `uint64_t` operation wraps around -/

theorem toInt32_of_lt (n : Nat) (h : n < 2 ^ 31) : toInt32 n = (n : Int) := by
  unfold toInt32
  have h1 : n % 2 ^ 32 = n := Nat.mod_eq_of_lt (by omega)
  rw [h1, if_pos h]

theorem percentSum_perm (l1 l2 : WorkList) (mem : Store) (h : List.Perm l1 l2) :
    percentSum l1 mem = percentSum l2 mem := by
  unfold percentSum
  exact List.Perm.sum_eq (List.Perm.map _ h)

theorem percentSum_write_of_not_mem (l : WorkList) (mem : Store) (p : Slot) (v : Int)
    (h : p ∉ l.map Prod.snd) : percentSum l (mem.write p v) = percentSum l mem := by
  unfold percentSum
  congr 1
  apply List.map_congr_left
  intro x hx
  have hne : x.2 ≠ p := by
    intro e
    exact h (e ▸ List.mem_map_of_mem Prod.snd hx)
  simp [Store.write, hne]

theorem roundDown_cons (total : Nat) (x : Nat × Slot) (xs : WorkList) (mem : Store) (r : Int) :
    roundDown total (x :: xs) mem r
      = roundDown total xs (mem.write x.2 (toInt32 (x.1 * 100 % 2 ^ 64 / total)))
          (r - toInt32 (x.1 * 100 % 2 ^ 64 / total)) := by
  simp [roundDown, Store.write]

theorem roundDown_apply_of_not_mem (total : Nat) (l : WorkList) (mem : Store) (r : Int)
    (q : Slot) (h : q ∉ l.map Prod.snd) : (roundDown total l mem r).1 q = mem q := by
  induction l generalizing mem r with
  | nil => simp [roundDown]
  | cons x xs ih =>
    rw [roundDown_cons, ih]
    · have hne : q ≠ x.2 := by
        intro e
        exact h (by simp [e])
      simp [Store.write, hne]
    · intro hq
      exact h (by simp [List.mem_map] at hq ⊢; exact Or.inr hq)

/-- After the round-down loop the remaining percent is the start value minus the
sum of the shares, and the slots hold the shares. -/
theorem roundDown_spec (total : Nat) (l : WorkList) (mem : Store) (r : Int)
    (hslots : (l.map Prod.snd).Nodup) :
    (roundDown total l mem r).2
        = r - (l.map (fun pair => toInt32 (pair.1 * 100 % 2 ^ 64 / total))).sum
      ∧ percentSum l (roundDown total l mem r).1
        = (l.map (fun pair => toInt32 (pair.1 * 100 % 2 ^ 64 / total))).sum := by
  induction l generalizing mem r with
  | nil => simp [roundDown, percentSum]
  | cons x xs ih =>
    rw [List.map_cons, List.nodup_cons] at hslots
    obtain ⟨h1, h2⟩ := ih (mem.write x.2 (toInt32 (x.1 * 100 % 2 ^ 64 / total)))
      (r - toInt32 (x.1 * 100 % 2 ^ 64 / total)) hslots.2
    rw [roundDown_cons]
    constructor
    · rw [h1]
      simp only [List.map_cons, List.sum_cons]
      ring
    · have hx := roundDown_apply_of_not_mem total xs
        (mem.write x.2 (toInt32 (x.1 * 100 % 2 ^ 64 / total)))
        (r - toInt32 (x.1 * 100 % 2 ^ 64 / total)) x.2 hslots.1
      have hsplit : ∀ m : Store, percentSum (x :: xs) m = m x.2 + percentSum xs m := by
        intro m
        simp [percentSum]
      rw [hsplit, hx, h2]
      simp [Store.write]

theorem incrementAll_apply_of_not_mem (range : WorkList) (mem : Store) (q : Slot)
    (h : q ∉ range.map Prod.snd) : incrementAll range mem q = mem q := by
  unfold incrementAll
  induction range generalizing mem with
  | nil => simp
  | cons x xs ih =>
    rw [List.foldl_cons, ih]
    · have hne : q ≠ x.2 := by
        intro e
        exact h (by simp [e])
      simp [Store.write, hne]
    · intro hq
      exact h (by simp [List.mem_map] at hq ⊢; exact Or.inr hq)

/-- Incrementing the slots of the first `k` pairs of a list with distinct slots
raises the sum over the list by `k`. -/
theorem percentSum_incrementAll_take (l : WorkList) (mem : Store) (k : Nat)
    (hslots : (l.map Prod.snd).Nodup) (hk : k ≤ l.length) :
    percentSum l (incrementAll (l.take k) mem) = percentSum l mem + k := by
  induction l generalizing mem k with
  | nil =>
    have : k = 0 := by simpa using hk
    subst this
    simp [incrementAll, percentSum]
  | cons x xs ih =>
    rw [List.map_cons, List.nodup_cons] at hslots
    cases k with
    | zero => simp [incrementAll]
    | succ k =>
      have hk2 : k ≤ xs.length := by simpa using hk
      have hnot : x.2 ∉ (xs.take k).map Prod.snd := by
        intro hm
        obtain ⟨y, hy, hy2⟩ := List.mem_map.mp hm
        exact hslots.1 (List.mem_map.mpr ⟨y, List.mem_of_mem_take hy, hy2⟩)
      have hstep : incrementAll ((x :: xs).take (k + 1)) mem
          = incrementAll (xs.take k) (mem.write x.2 (mem x.2 + 1)) := by
        simp [incrementAll]
      have hsplit : ∀ m : Store, percentSum (x :: xs) m = m x.2 + percentSum xs m := by
        intro m
        simp [percentSum]
      rw [hstep, hsplit, hsplit, incrementAll_apply_of_not_mem _ _ _ hnot,
        ih (mem.write x.2 (mem x.2 + 1)) k hslots.2 hk2,
        percentSum_write_of_not_mem xs mem x.2 _ hslots.1]
      simp only [Store.write, if_true]
      push_cast
      ring

/-- The number theory behind the two assertions: the shares `w * 100 / total` of
`n ≥ 1` weights with sum `total > 0` add up to at most 100 and to more than
`100 - n`. -/
theorem shares_bounds (ws : List Nat) (hne : ws ≠ []) (hpos : 0 < ws.sum) :
    (ws.map (fun w => w * 100 / ws.sum)).sum ≤ 100
      ∧ 100 < (ws.map (fun w => w * 100 / ws.sum)).sum + ws.length := by
  have key : ∀ (t : Nat) (l : List Nat), 0 < t →
      t * (l.map (fun w => w * 100 / t)).sum ≤ l.sum * 100
        ∧ (l ≠ [] → l.sum * 100 < t * (l.map (fun w => w * 100 / t)).sum + t * l.length) := by
    intro t l ht
    induction l with
    | nil => simp
    | cons w ws ih =>
      simp only [List.map_cons, List.sum_cons, List.length_cons]
      have hd := Nat.div_add_mod (w * 100) t
      have hm := Nat.mod_lt (w * 100) ht
      have hle : t * (w * 100 / t) ≤ w * 100 := Nat.mul_div_le _ _
      constructor
      · have := ih.1
        nlinarith
      · intro _
        by_cases hws : ws = []
        · subst hws
          simp only [List.map_nil, List.sum_nil, List.length_nil]
          nlinarith
        · have := ih.2 hws
          nlinarith
  obtain ⟨h1, h2⟩ := key ws.sum ws hpos
  have h3 := h2 hne
  constructor
  · by_contra hc
    have : 101 ≤ (ws.map (fun w => w * 100 / ws.sum)).sum := by omega
    have := Nat.mul_le_mul_left ws.sum this
    omega
  · by_contra hc
    have hle : (ws.map (fun w => w * 100 / ws.sum)).sum + ws.length ≤ 100 := by omega
    have := Nat.mul_le_mul_left ws.sum hle
    rw [Nat.mul_add] at this
    omega

theorem sum_map_natCast {α : Type} (f : α → Nat) (l : List α) :
    (l.map (fun a => (f a : Int))).sum = ((l.map f).sum : Nat) := by
  induction l with
  | nil => simp
  | cons x xs ih =>
    simp only [List.map_cons, List.sum_cons, ih]
    push_cast
    rfl

/-- When no `uint64_t` operation wraps around (every `weight * 100` and the total
fit in 64 bits), the slots are distinct and the size of the list fits an `int`,
the percentages of a non-empty work list with positive total sum to exactly 100. -/
theorem calcPercentage_sum_of_no_wrap (nthElement : NthElement)
    (hperm : NthElementPerm nthElement) (workList : WorkList) (mem : Store)
    (hslots : (workList.map Prod.snd).Nodup) (hne : workList ≠ [])
    (hlen : workList.length < 2 ^ 31)
    (hw : ∀ pair ∈ workList, pair.1 * 100 < 2 ^ 64)
    (hsum : (workList.map Prod.fst).sum < 2 ^ 64)
    (hpos : 0 < (workList.map Prod.fst).sum) :
    percentSum workList (calcPercentage nthElement workList mem).2 = 100 := by
  have ht : accumulateTotal workList = (workList.map Prod.fst).sum := by
    rw [accumulateTotal_eq, Nat.mod_eq_of_lt hsum]
  have hne2 : workList.map Prod.fst ≠ [] := by
    intro h
    exact hne (List.map_eq_nil_iff.mp h)
  obtain ⟨hb1, hb2⟩ := shares_bounds (workList.map Prod.fst) hne2 hpos
  rw [List.map_map] at hb1 hb2
  rw [List.length_map] at hb2
  have hshare : workList.map
      (fun pair => toInt32 (pair.1 * 100 % 2 ^ 64 / (workList.map Prod.fst).sum))
      = workList.map (fun pair =>
          (((fun w => w * 100 / (workList.map Prod.fst).sum) ∘ Prod.fst) pair : Int)) := by
    apply List.map_congr_left
    intro pair hp
    have hle : pair.1 ≤ (workList.map Prod.fst).sum :=
      List.single_le_sum (fun _ _ => Nat.zero_le _) _ (List.mem_map_of_mem Prod.fst hp)
    have hdiv : pair.1 * 100 / (workList.map Prod.fst).sum ≤ 100 := by
      apply Nat.div_le_of_le_mul
      nlinarith
    rw [Nat.mod_eq_of_lt (hw pair hp), toInt32_of_lt _ (by omega)]
    rfl
  have hcast : (workList.map (fun pair =>
      (((fun w => w * 100 / (workList.map Prod.fst).sum) ∘ Prod.fst) pair : Int))).sum
      = ((workList.map
          ((fun w => w * 100 / (workList.map Prod.fst).sum) ∘ Prod.fst)).sum : Nat) :=
    sum_map_natCast _ workList
  obtain ⟨hr1, hr2⟩ := roundDown_spec (workList.map Prod.fst).sum workList mem 100 hslots
  rw [hshare, hcast] at hr1 hr2
  have hlen2 : toInt32 workList.length = (workList.length : Int) := toInt32_of_lt _ hlen
  unfold calcPercentage
  simp only [ht, hlen2]
  rw [if_neg (by omega)]
  generalize hS : (workList.map
      ((fun w => w * 100 / (workList.map Prod.fst).sum) ∘ Prod.fst)).sum = S at hb1 hb2 hr1 hr2
  have hmin : min (roundDown (workList.map Prod.fst).sum workList mem 100).2
      (workList.length : Int) = 100 - (S : Int) := by
    rw [hr1]
    apply min_eq_left
    omega
  rw [hmin]
  by_cases hgt : (100 : Int) - S > 0
  · rw [if_pos hgt]
    have hp := hperm (remainderGreater (workList.map Prod.fst).sum)
      ((100 - (S : Int)).toNat - 1) workList
    have hslots2 : ((nthElement (remainderGreater (workList.map Prod.fst).sum)
        ((100 - (S : Int)).toNat - 1) workList).map Prod.snd).Nodup :=
      (List.Perm.nodup_iff (List.Perm.map Prod.snd hp)).mpr hslots
    have hk : (100 - (S : Int)).toNat ≤ (nthElement (remainderGreater (workList.map Prod.fst).sum)
        ((100 - (S : Int)).toNat - 1) workList).length := by
      rw [List.Perm.length_eq hp]
      omega
    simp only []
    rw [← percentSum_perm _ _ _ hp, percentSum_incrementAll_take _ _ _ hslots2 hk,
      percentSum_perm _ _ _ hp, hr2]
    omega
  · rw [if_neg hgt]
    simp only []
    rw [hr2]
    omega

theorem calcPercentage_sum_of_no_wrap_example :
    percentSum [(1, 0), (1, 1), (1, 2)]
      (calcPercentage nthElementBySort [(1, 0), (1, 1), (1, 2)] (fun _ => 0)).2 = 100 :=
  calcPercentage_sum_of_no_wrap nthElementBySort nthElementBySort_perm
    [(1, 0), (1, 1), (1, 2)] (fun _ => 0) (by decide) (by decide) (by decide) (by decide)
    (by decide) (by decide)

/-! ## Theorems: structure of the extraction -/

mutual
/-- Induction over folder trees: a property holds of every folder if it holds of
a folder whenever it holds of all its direct sub-folders. -/
theorem FolderPair.tree_induction {P : FolderPair → Prop}
    (step : ∀ i n (hier : ContainerObject), (∀ s ∈ hier.subFolders, P s) → P (.mk i n hier)) :
    ∀ folder, P folder
  | .mk i n hier => step i n hier (FolderPair.forall_mem_of_step step hier.subFolders)
theorem FolderPair.forall_mem_of_step {P : FolderPair → Prop}
    (step : ∀ i n (hier : ContainerObject), (∀ s ∈ hier.subFolders, P s) → P (.mk i n hier)) :
    ∀ (l : List FolderPair), ∀ s ∈ l, P s
  | [], _, hs => absurd hs (List.not_mem_nil _)
  | f :: fs, s, hs =>
      (List.mem_cons.mp hs).elim (fun e => e ▸ FolderPair.tree_induction step f)
        (fun hm => FolderPair.forall_mem_of_step step fs s hm)
end

/-- Induction over hierarchy objects, through the folders below them. -/
theorem ContainerObject.hier_induction {P : ContainerObject → Prop}
    (step : ∀ hier : ContainerObject, (∀ s ∈ hier.subFolders, P s.hier) → P hier) :
    ∀ hier, P hier := by
  intro hier
  have h : ∀ folder : FolderPair, P folder.hier := by
    apply FolderPair.tree_induction
    intro i n hier ih
    exact step hier ih
  exact h (.mk 0 "" hier)

theorem extractFolder_eq (folder : FolderPair) (cont : Container) (pred : Predicate) :
    extractFolder folder cont pred = extractVisibleSubtree folder.hier cont pred := by
  cases folder
  simp [extractFolder, extractVisibleSubtree, FolderPair.hier]

theorem extractSubFolders_cons (folder : FolderPair) (rest : List FolderPair)
    (cont : Container) (pred : Predicate) :
    extractSubFolders (folder :: rest) cont pred
      = extractSubFolders rest
          (finishSubFolder pred folder (extractVisibleSubtree folder.hier {} pred) cont) pred := by
  rw [← extractFolder_eq]
  simp [extractSubFolders]

/-! ### The loops over direct files and symlinks -/

theorem scanSubFiles_frame (pred : Predicate) (files : List FilePair) (c : Container) :
    (scanSubFiles pred files c).bytesGross = c.bytesGross
      ∧ (scanSubFiles pred files c).itemCountGross = c.itemCountGross
      ∧ (scanSubFiles pred files c).subDirs = c.subDirs := by
  unfold scanSubFiles
  induction files generalizing c with
  | nil => simp
  | cons f fs ih =>
    simp only [List.foldl_cons]
    by_cases hp : pred (.file f) = true
    · simp only [hp, if_true]
      exact ih _
    · simp only [hp]
      exact ih _

theorem scanSubFiles_itemCountNet (pred : Predicate) (files : List FilePair) (c : Container) :
    (scanSubFiles pred files c).itemCountNet
      = c.itemCountNet + ((files.filter (fun f => pred (.file f))).length : Nat) := by
  unfold scanSubFiles
  induction files generalizing c with
  | nil => simp
  | cons f fs ih =>
    simp only [List.foldl_cons]
    rw [ih]
    cases hp : pred (.file f)
    · simp [hp]
    · simp [hp]
      ring

theorem scanSubFiles_bytesNet_mod (pred : Predicate) (files : List FilePair) (c : Container) :
    (scanSubFiles pred files c).bytesNet % 2 ^ 64
      = (c.bytesNet + includedBytes pred files) % 2 ^ 64 := by
  unfold scanSubFiles includedBytes
  induction files generalizing c with
  | nil => simp
  | cons f fs ih =>
    simp only [List.foldl_cons]
    rw [ih]
    cases hp : pred (.file f)
    · simp [hp]
    · simp only [hp, if_true, List.filter_cons_of_pos, List.map_cons, List.sum_cons]
      omega

theorem scanSubFiles_bytesNet_lt (pred : Predicate) (files : List FilePair) (c : Container)
    (hc : c.bytesNet < 2 ^ 64) : (scanSubFiles pred files c).bytesNet < 2 ^ 64 := by
  unfold scanSubFiles
  induction files generalizing c with
  | nil => simpa using hc
  | cons f fs ih =>
    simp only [List.foldl_cons]
    by_cases hp : pred (.file f) = true
    · simp only [hp, if_true]
      exact ih _ (Nat.mod_lt _ (by norm_num))
    · simp only [hp]
      exact ih _ hc

theorem scanSubFiles_firstFileId (pred : Predicate) (files : List FilePair) (c : Container) :
    (scanSubFiles pred files c).firstFileId.isNone
      = (c.firstFileId.isNone && files.all (fun f => !pred (.file f))) := by
  unfold scanSubFiles
  induction files generalizing c with
  | nil => simp
  | cons f fs ih =>
    simp only [List.foldl_cons, List.all_cons]
    by_cases hp : pred (.file f) = true
    · simp only [hp, if_true]
      rw [ih]
      cases c.firstFileId <;> simp
    · simp only [hp]
      rw [ih]
      simp [hp]

theorem scanSubLinks_frame (pred : Predicate) (links : List SymlinkPair) (c : Container) :
    (scanSubLinks pred links c).bytesGross = c.bytesGross
      ∧ (scanSubLinks pred links c).itemCountGross = c.itemCountGross
      ∧ (scanSubLinks pred links c).subDirs = c.subDirs
      ∧ (scanSubLinks pred links c).bytesNet = c.bytesNet := by
  unfold scanSubLinks
  induction links generalizing c with
  | nil => simp
  | cons f fs ih =>
    simp only [List.foldl_cons]
    by_cases hp : pred (.symlink f) = true
    · simp only [hp, if_true]
      exact ih _
    · simp only [hp]
      exact ih _

theorem scanSubLinks_itemCountNet (pred : Predicate) (links : List SymlinkPair)
    (c : Container) :
    (scanSubLinks pred links c).itemCountNet
      = c.itemCountNet + ((links.filter (fun l => pred (.symlink l))).length : Nat) := by
  unfold scanSubLinks
  induction links generalizing c with
  | nil => simp
  | cons f fs ih =>
    simp only [List.foldl_cons]
    rw [ih]
    cases hp : pred (.symlink f)
    · simp [hp]
    · simp [hp]
      ring

theorem scanSubLinks_firstFileId (pred : Predicate) (links : List SymlinkPair)
    (c : Container) :
    (scanSubLinks pred links c).firstFileId.isNone
      = (c.firstFileId.isNone && links.all (fun l => !pred (.symlink l))) := by
  unfold scanSubLinks
  induction links generalizing c with
  | nil => simp
  | cons f fs ih =>
    simp only [List.foldl_cons, List.all_cons]
    by_cases hp : pred (.symlink f) = true
    · simp only [hp, if_true]
      rw [ih]
      cases c.firstFileId <;> simp
    · simp only [hp]
      rw [ih]
      simp [hp]

/-! ### The direct items of a fresh container -/

theorem extractDirectItems_bytesNet (hier : ContainerObject) (pred : Predicate) :
    (extractDirectItems hier {} pred).bytesNet = includedBytes pred hier.subFiles % 2 ^ 64 := by
  have h1 := scanSubFiles_bytesNet_mod pred hier.subFiles ({ } : Container)
  have h2 := scanSubFiles_bytesNet_lt pred hier.subFiles ({ } : Container) (by norm_num)
  have h3 := (scanSubLinks_frame pred hier.subLinks
    (scanSubFiles pred hier.subFiles ({ } : Container))).2.2.2
  simp only [extractDirectItems]
  rw [h3, ← Nat.mod_eq_of_lt h2, h1]
  simp

theorem extractDirectItems_bytesGross (hier : ContainerObject) (pred : Predicate) :
    (extractDirectItems hier {} pred).bytesGross = includedBytes pred hier.subFiles % 2 ^ 64 := by
  have h := extractDirectItems_bytesNet hier pred
  have h3 := (scanSubLinks_frame pred hier.subLinks
    (scanSubFiles pred hier.subFiles ({ } : Container))).1
  have h4 := (scanSubFiles_frame pred hier.subFiles ({ } : Container)).1
  simp only [extractDirectItems] at h ⊢
  rw [h3, h4, h]
  simp

theorem extractDirectItems_itemCountNet (hier : ContainerObject) (pred : Predicate) :
    (extractDirectItems hier {} pred).itemCountNet = (includedDirectCount pred hier : Nat) := by
  simp only [extractDirectItems, includedDirectCount]
  rw [scanSubLinks_itemCountNet, scanSubFiles_itemCountNet]
  push_cast
  simp

theorem extractDirectItems_itemCountGross (hier : ContainerObject) (pred : Predicate) :
    (extractDirectItems hier {} pred).itemCountGross = (includedDirectCount pred hier : Nat) := by
  have h := extractDirectItems_itemCountNet hier pred
  have h3 := (scanSubLinks_frame pred hier.subLinks
    (scanSubFiles pred hier.subFiles ({ } : Container))).2.1
  have h4 := (scanSubFiles_frame pred hier.subFiles ({ } : Container)).2.1
  simp only [extractDirectItems] at h ⊢
  rw [h3, h4, h]
  simp

theorem extractDirectItems_subDirs (hier : ContainerObject) (pred : Predicate) :
    (extractDirectItems hier {} pred).subDirs = [] := by
  have h3 := (scanSubLinks_frame pred hier.subLinks
    (scanSubFiles pred hier.subFiles ({ } : Container))).2.2.1
  have h4 := (scanSubFiles_frame pred hier.subFiles ({ } : Container)).2.2
  simp only [extractDirectItems]
  rw [h3, h4]

theorem extractDirectItems_firstFileId (hier : ContainerObject) (pred : Predicate) :
    (extractDirectItems hier {} pred).firstFileId.isNone = noDirectItem pred hier := by
  simp only [extractDirectItems, noDirectItem]
  rw [scanSubLinks_firstFileId, scanSubFiles_firstFileId]
  simp

/-! ### The loop over the sub-folders -/

theorem finishSubFolder_frame (pred : Predicate) (folder : FolderPair)
    (subDirCont cont : Container) :
    (finishSubFolder pred folder subDirCont cont).bytesNet = cont.bytesNet
      ∧ (finishSubFolder pred folder subDirCont cont).itemCountNet = cont.itemCountNet
      ∧ (finishSubFolder pred folder subDirCont cont).firstFileId = cont.firstFileId := by
  cases hp : pred (.folder folder) <;> cases h1 : subDirCont.firstFileId.isNone <;>
    cases h2 : subDirCont.subDirs.isEmpty <;> simp [finishSubFolder, hp, h1, h2]

theorem extractSubFolders_frame (folders : List FolderPair) (cont : Container)
    (pred : Predicate) :
    (extractSubFolders folders cont pred).bytesNet = cont.bytesNet
      ∧ (extractSubFolders folders cont pred).itemCountNet = cont.itemCountNet
      ∧ (extractSubFolders folders cont pred).firstFileId = cont.firstFileId := by
  induction folders generalizing cont with
  | nil => simp [extractSubFolders]
  | cons f fs ih =>
    rw [extractSubFolders_cons]
    have h := finishSubFolder_frame pred f (extractVisibleSubtree f.hier {} pred) cont
    have h2 := ih (finishSubFolder pred f (extractVisibleSubtree f.hier {} pred) cont)
    exact ⟨h2.1.trans h.1, h2.2.1.trans h.2.1, h2.2.2.trans h.2.2⟩

theorem extractVisibleSubtree_bytesNet (hier : ContainerObject) (pred : Predicate) :
    (extractVisibleSubtree hier {} pred).bytesNet = includedBytes pred hier.subFiles % 2 ^ 64 := by
  unfold extractVisibleSubtree
  rw [(extractSubFolders_frame _ _ _).1, extractDirectItems_bytesNet]

theorem extractVisibleSubtree_itemCountNet (hier : ContainerObject) (pred : Predicate) :
    (extractVisibleSubtree hier {} pred).itemCountNet = (includedDirectCount pred hier : Nat) := by
  unfold extractVisibleSubtree
  rw [(extractSubFolders_frame _ _ _).2.1, extractDirectItems_itemCountNet]

theorem extractVisibleSubtree_firstFileId (hier : ContainerObject) (pred : Predicate) :
    (extractVisibleSubtree hier {} pred).firstFileId.isNone = noDirectItem pred hier := by
  unfold extractVisibleSubtree
  rw [(extractSubFolders_frame _ _ _).2.2, extractDirectItems_firstFileId]

theorem countedSubDir_subDirs (pred : Predicate) (folder : FolderPair) :
    (countedSubDir pred folder).subDirs = (extractVisibleSubtree folder.hier {} pred).subDirs := by
  unfold countedSubDir
  simp only []
  split <;> rfl

theorem countedSubDir_bytesGross (pred : Predicate) (folder : FolderPair) :
    (countedSubDir pred folder).bytesGross
      = (extractVisibleSubtree folder.hier {} pred).bytesGross := by
  unfold countedSubDir
  simp only []
  split <;> rfl

theorem countedSubDir_bytesNet (pred : Predicate) (folder : FolderPair) :
    (countedSubDir pred folder).bytesNet
      = (extractVisibleSubtree folder.hier {} pred).bytesNet := by
  unfold countedSubDir
  simp only []
  split <;> rfl

theorem countedSubDir_itemCountNet (pred : Predicate) (folder : FolderPair) :
    (countedSubDir pred folder).itemCountNet
      = (extractVisibleSubtree folder.hier {} pred).itemCountNet := by
  unfold countedSubDir
  simp only []
  split <;> rfl

theorem countedSubDir_itemCountGross (pred : Predicate) (folder : FolderPair) :
    (countedSubDir pred folder).itemCountGross
      = (extractVisibleSubtree folder.hier {} pred).itemCountGross + selfCount pred folder := by
  unfold countedSubDir selfCount
  simp only []
  split <;> simp

theorem countedSubDir_firstFileId (pred : Predicate) (folder : FolderPair) :
    (countedSubDir pred folder).firstFileId
      = (extractVisibleSubtree folder.hier {} pred).firstFileId := by
  unfold countedSubDir
  simp only []
  split <;> rfl

/-- One iteration of the loop over the sub-folders, in terms of the drop rule. -/
theorem finishSubFolder_eq (pred : Predicate) (folder : FolderPair) (cont : Container) :
    finishSubFolder pred folder (extractVisibleSubtree folder.hier {} pred) cont
      = { cont with
          bytesGross := (cont.bytesGross + (countedSubDir pred folder).bytesGross) % 2 ^ 64
          itemCountGross := cont.itemCountGross + (countedSubDir pred folder).itemCountGross
          subDirs := cont.subDirs ++
            (if dropRule pred folder then [] else [keptNode pred folder]) } := by
  have hf := extractVisibleSubtree_firstFileId folder.hier pred
  unfold finishSubFolder dropRule keptNode countedSubDir
  cases hp : pred (.folder folder)
  · simp only [Bool.false_eq_true, if_false, Bool.not_false, Bool.true_and, hf]
    split <;> simp
  · simp

theorem extractSubFolders_subDirs (folders : List FolderPair) (cont : Container)
    (pred : Predicate) :
    (extractSubFolders folders cont pred).subDirs
      = cont.subDirs ++ (folders.filter (fun f => !dropRule pred f)).map (keptNode pred) := by
  induction folders generalizing cont with
  | nil => simp [extractSubFolders]
  | cons f fs ih =>
    rw [extractSubFolders_cons, ih, finishSubFolder_eq]
    cases hd : dropRule pred f <;> simp [hd]

theorem extractSubFolders_bytesGross_mod (folders : List FolderPair) (cont : Container)
    (pred : Predicate) :
    (extractSubFolders folders cont pred).bytesGross % 2 ^ 64
      = (cont.bytesGross + (folders.map (fun f => (countedSubDir pred f).bytesGross)).sum)
          % 2 ^ 64 := by
  induction folders generalizing cont with
  | nil => simp [extractSubFolders]
  | cons f fs ih =>
    rw [extractSubFolders_cons, ih, finishSubFolder_eq]
    simp only [List.map_cons, List.sum_cons]
    omega

theorem extractSubFolders_bytesGross_lt (folders : List FolderPair) (cont : Container)
    (pred : Predicate) (hc : cont.bytesGross < 2 ^ 64) :
    (extractSubFolders folders cont pred).bytesGross < 2 ^ 64 := by
  induction folders generalizing cont with
  | nil => simpa [extractSubFolders] using hc
  | cons f fs ih =>
    rw [extractSubFolders_cons]
    apply ih
    rw [finishSubFolder_eq]
    exact Nat.mod_lt _ (by norm_num)

theorem extractSubFolders_itemCountGross (folders : List FolderPair) (cont : Container)
    (pred : Predicate) :
    (extractSubFolders folders cont pred).itemCountGross
      = cont.itemCountGross
        + (folders.map (fun f => (countedSubDir pred f).itemCountGross)).sum := by
  induction folders generalizing cont with
  | nil => simp [extractSubFolders]
  | cons f fs ih =>
    rw [extractSubFolders_cons, ih, finishSubFolder_eq]
    simp only [List.map_cons, List.sum_cons]
    ring

/-- The sub-directories kept for a hierarchy object: one node per direct folder
that the drop rule does not remove, in source order. -/
theorem extractVisibleSubtree_subDirs (hier : ContainerObject) (pred : Predicate) :
    (extractVisibleSubtree hier {} pred).subDirs
      = (hier.subFolders.filter (fun f => !dropRule pred f)).map (keptNode pred) := by
  unfold extractVisibleSubtree
  rw [extractSubFolders_subDirs, extractDirectItems_subDirs]
  simp

theorem extractVisibleSubtree_bytesGross (hier : ContainerObject) (pred : Predicate) :
    (extractVisibleSubtree hier {} pred).bytesGross
      = (includedBytes pred hier.subFiles
          + (hier.subFolders.map (fun f => (countedSubDir pred f).bytesGross)).sum) % 2 ^ 64 := by
  have h1 := extractSubFolders_bytesGross_mod hier.subFolders
    (extractDirectItems hier {} pred) pred
  have h2 := extractSubFolders_bytesGross_lt hier.subFolders
    (extractDirectItems hier {} pred) pred
    (by rw [extractDirectItems_bytesGross]; exact Nat.mod_lt _ (by norm_num))
  unfold extractVisibleSubtree
  rw [← Nat.mod_eq_of_lt h2, h1, extractDirectItems_bytesGross]
  omega

theorem extractVisibleSubtree_itemCountGross (hier : ContainerObject) (pred : Predicate) :
    (extractVisibleSubtree hier {} pred).itemCountGross
      = (includedDirectCount pred hier : Nat)
        + (hier.subFolders.map (fun f => (countedSubDir pred f).itemCountGross)).sum := by
  unfold extractVisibleSubtree
  rw [extractSubFolders_itemCountGross, extractDirectItems_itemCountGross]

/-! ### Nodes and folders at any depth -/

theorem withDescendants_node (d : DirNodeImpl) :
    d.withDescendants = d :: allNodes d.toContainer.subDirs := by
  cases d
  simp [DirNodeImpl.withDescendants, DirNodeImpl.toContainer]

theorem allNodes_cons (d : DirNodeImpl) (ds : List DirNodeImpl) :
    allNodes (d :: ds) = d :: allNodes d.toContainer.subDirs ++ allNodes ds := by
  rw [allNodes, withDescendants_node]

theorem allNodes_append (l1 l2 : List DirNodeImpl) :
    allNodes (l1 ++ l2) = allNodes l1 ++ allNodes l2 := by
  induction l1 with
  | nil => simp [allNodes]
  | cons d ds ih => simp [allNodes_cons, ih]

theorem mem_allNodes (l : List DirNodeImpl) (x : DirNodeImpl) :
    x ∈ allNodes l ↔ ∃ d ∈ l, x = d ∨ x ∈ allNodes d.toContainer.subDirs := by
  induction l with
  | nil => simp [allNodes]
  | cons d ds ih =>
    rw [allNodes_cons]
    simp only [List.cons_append, List.mem_cons, List.mem_append, ih]
    constructor
    · rintro (h | h | ⟨e, he, h⟩)
      · exact ⟨d, Or.inl rfl, Or.inl h⟩
      · exact ⟨d, Or.inl rfl, Or.inr h⟩
      · exact ⟨e, Or.inr he, h⟩
    · rintro ⟨e, (rfl | he), h⟩
      · rcases h with h | h
        · exact Or.inl h
        · exact Or.inr (Or.inl h)
      · exact Or.inr (Or.inr ⟨e, he, h⟩)

theorem withDescendants_folder (d : FolderPair) :
    d.withDescendants = d :: allFolders d.hier.subFolders := by
  cases d
  simp [FolderPair.withDescendants, FolderPair.hier]

theorem allFolders_cons (d : FolderPair) (ds : List FolderPair) :
    allFolders (d :: ds) = d :: allFolders d.hier.subFolders ++ allFolders ds := by
  rw [allFolders, withDescendants_folder]

theorem mem_allFolders (l : List FolderPair) (x : FolderPair) :
    x ∈ allFolders l ↔ ∃ d ∈ l, x = d ∨ x ∈ allFolders d.hier.subFolders := by
  induction l with
  | nil => simp [allFolders]
  | cons d ds ih =>
    rw [allFolders_cons]
    simp only [List.cons_append, List.mem_cons, List.mem_append, ih]
    constructor
    · rintro (h | h | ⟨e, he, h⟩)
      · exact ⟨d, Or.inl rfl, Or.inl h⟩
      · exact ⟨d, Or.inl rfl, Or.inr h⟩
      · exact ⟨e, Or.inr he, h⟩
    · rintro ⟨e, (rfl | he), h⟩
      · rcases h with h | h
        · exact Or.inl h
        · exact Or.inr (Or.inl h)
      · exact Or.inr (Or.inr ⟨e, he, h⟩)

theorem keptNode_subDirs (pred : Predicate) (folder : FolderPair) :
    (keptNode pred folder).toContainer.subDirs
      = (extractVisibleSubtree folder.hier {} pred).subDirs := by
  unfold keptNode compressNode
  simp only [DirNodeImpl.toContainer]
  split
  · exact countedSubDir_subDirs pred folder
  · exact countedSubDir_subDirs pred folder

theorem keptNode_objId (pred : Predicate) (folder : FolderPair) :
    (keptNode pred folder).objId = some folder.id := rfl

theorem compressNode_subDirs (c : Container) : (compressNode c).subDirs = c.subDirs := by
  unfold compressNode
  split <;> rfl

theorem compressNode_bytesGross (c : Container) : (compressNode c).bytesGross = c.bytesGross := by
  unfold compressNode
  split <;> rfl

theorem compressNode_bytesNet (c : Container) : (compressNode c).bytesNet = c.bytesNet := by
  unfold compressNode
  split <;> rfl

theorem compressNode_itemCountGross (c : Container) :
    (compressNode c).itemCountGross = c.itemCountGross := by
  unfold compressNode
  split <;> rfl

theorem compressNode_itemCountNet (c : Container) :
    (compressNode c).itemCountNet = c.itemCountNet := by
  unfold compressNode
  split <;> rfl

theorem allFolders_eq_flatMap (l : List FolderPair) :
    allFolders l = l.flatMap (fun s => s :: allFolders s.hier.subFolders) := by
  induction l with
  | nil => simp [allFolders]
  | cons d ds ih => rw [allFolders_cons, ih]; simp

theorem flatMap_allFolders {β : Type} (g : FolderPair → List β) (l : List FolderPair) :
    (allFolders l).flatMap g
      = l.flatMap (fun s => g s ++ (allFolders s.hier.subFolders).flatMap g) := by
  induction l with
  | nil => simp [allFolders]
  | cons d ds ih => rw [allFolders_cons]; simp [ih]

theorem allFiles_eq (hier : ContainerObject) :
    allFiles hier = hier.subFiles ++ hier.subFolders.flatMap (fun s => allFiles s.hier) := by
  unfold allFiles
  rw [flatMap_allFolders]

theorem allLinks_eq (hier : ContainerObject) :
    allLinks hier = hier.subLinks ++ hier.subFolders.flatMap (fun s => allLinks s.hier) := by
  unfold allLinks
  rw [flatMap_allFolders]

theorem includedBytes_append (pred : Predicate) (a b : List FilePair) :
    includedBytes pred (a ++ b) = includedBytes pred a + includedBytes pred b := by
  simp [includedBytes]

theorem includedBytes_flatMap {α : Type} (pred : Predicate) (g : α → List FilePair)
    (l : List α) :
    includedBytes pred (l.flatMap g) = (l.map (fun s => includedBytes pred (g s))).sum := by
  induction l with
  | nil => simp [includedBytes]
  | cons d ds ih => simp [includedBytes_append, ih]

theorem filter_length_flatMap {α β : Type} (p : β → Bool) (g : α → List β) (l : List α) :
    ((l.flatMap g).filter p).length = (l.map (fun s => ((g s).filter p).length)).sum := by
  induction l with
  | nil => simp
  | cons d ds ih => simp [ih]

theorem sum_map_mod {α : Type} (f : α → Nat) (m : Nat) (l : List α) :
    (l.map (fun s => f s % m)).sum % m = (l.map f).sum % m := by
  induction l with
  | nil => simp
  | cons d ds ih =>
    simp only [List.map_cons, List.sum_cons]
    rw [Nat.add_mod, ih, Nat.mod_mod, ← Nat.add_mod]

/-! ### Aggregates of a container and of the sub-tree it comes from -/

theorem includedCount_eq (pred : Predicate) (hier : ContainerObject) :
    includedCount pred hier
      = includedDirectCount pred hier
        + (hier.subFolders.map
            (fun s => includedCount pred s.hier + (if pred (.folder s) then 1 else 0))).sum := by
  have hf : ∀ l : List FolderPair,
      ((allFolders l).filter (fun d => pred (.folder d))).length
        = (l.map (fun s => (if pred (.folder s) then 1 else 0)
            + ((allFolders s.hier.subFolders).filter (fun d => pred (.folder d))).length)).sum := by
    intro l
    induction l with
    | nil => simp [allFolders]
    | cons d ds ih =>
      rw [allFolders_cons]
      simp only [List.cons_append, List.map_cons, List.sum_cons]
      cases hp : pred (.folder d)
      · rw [List.filter_cons_of_neg (by simp [hp]), List.filter_append, List.length_append, ih]
        simp only [Bool.false_eq_true, if_false]
        omega
      · rw [List.filter_cons_of_pos (by simp [hp]), List.length_cons, List.filter_append,
          List.length_append, ih]
        simp only [if_true]
        omega
  have hsum : ∀ (l : List FolderPair) (a b c : FolderPair → Nat),
      (l.map a).sum + (l.map b).sum + (l.map c).sum
        = (l.map (fun s => a s + b s + c s)).sum := by
    intro l a b c
    induction l with
    | nil => simp
    | cons d ds ih =>
      simp only [List.map_cons, List.sum_cons]
      rw [← ih]
      omega
  unfold includedCount includedDirectCount
  rw [allFiles_eq, allLinks_eq, hf]
  simp only [List.filter_append, List.length_append, filter_length_flatMap]
  have := hsum hier.subFolders
    (fun s => ((allFiles s.hier).filter (fun f => pred (.file f))).length)
    (fun s => ((allLinks s.hier).filter (fun l => pred (.symlink l))).length)
    (fun s => (if pred (.folder s) then 1 else 0)
            + ((allFolders s.hier.subFolders).filter (fun d => pred (.folder d))).length)
  have e : (fun s : FolderPair =>
      ((allFiles s.hier).filter (fun f => pred (.file f))).length
        + ((allLinks s.hier).filter (fun l => pred (.symlink l))).length
        + ((if pred (.folder s) then 1 else 0)
            + ((allFolders s.hier.subFolders).filter (fun d => pred (.folder d))).length))
      = (fun s => ((allFiles s.hier).filter (fun f => pred (.file f))).length
        + ((allLinks s.hier).filter (fun l => pred (.symlink l))).length
        + ((allFolders s.hier.subFolders).filter (fun d => pred (.folder d))).length
        + (if pred (.folder s) then 1 else 0)) := by
    funext s
    omega
  rw [e] at this
  omega

/-- The gross values of the container extracted for a hierarchy object are the
totals over its whole sub-tree, whatever happened to the folders in between. -/
theorem extractVisibleSubtree_gross (pred : Predicate) :
    ∀ hier : ContainerObject,
      (extractVisibleSubtree hier {} pred).bytesGross
          = includedBytes pred (allFiles hier) % 2 ^ 64
        ∧ (extractVisibleSubtree hier {} pred).itemCountGross
          = (includedCount pred hier : Nat) := by
  apply ContainerObject.hier_induction
  intro hier ih
  constructor
  · rw [extractVisibleSubtree_bytesGross, allFiles_eq, includedBytes_append,
      includedBytes_flatMap]
    have e : hier.subFolders.map (fun f => (countedSubDir pred f).bytesGross)
        = hier.subFolders.map (fun f => includedBytes pred (allFiles f.hier) % 2 ^ 64) := by
      apply List.map_congr_left
      intro f hf
      rw [countedSubDir_bytesGross]
      exact (ih f hf).1
    rw [e, Nat.add_mod, sum_map_mod, ← Nat.add_mod]
  · rw [extractVisibleSubtree_itemCountGross, includedCount_eq]
    have e : hier.subFolders.map (fun f => (countedSubDir pred f).itemCountGross)
        = hier.subFolders.map (fun f =>
            ((includedCount pred f.hier + (if pred (.folder f) then 1 else 0) : Nat) : Int)) := by
      apply List.map_congr_left
      intro f hf
      rw [countedSubDir_itemCountGross, (ih f hf).2]
      unfold selfCount
      split <;> simp
    rw [e]
    push_cast
    congr 1
    induction hier.subFolders with
    | nil => simp
    | cons d ds ihl => simp [ihl]

/-- Every node at any depth of an extracted container is the node kept for some
folder of the sub-tree that the drop rule does not remove. -/
theorem node_origin (pred : Predicate) :
    ∀ hier : ContainerObject,
      ∀ d ∈ allNodes (extractVisibleSubtree hier {} pred).subDirs,
        ∃ folder ∈ allFolders hier.subFolders,
          dropRule pred folder = false ∧ d = keptNode pred folder := by
  apply ContainerObject.hier_induction
  intro hier ih d hd
  rw [extractVisibleSubtree_subDirs, mem_allNodes] at hd
  obtain ⟨e, he, hde⟩ := hd
  obtain ⟨s, hs, rfl⟩ := List.mem_map.mp he
  have hs1 : s ∈ hier.subFolders := (List.mem_filter.mp hs).1
  have hs2 : dropRule pred s = false := by
    have := (List.mem_filter.mp hs).2
    simpa using this
  rcases hde with rfl | hde
  · exact ⟨s, (mem_allFolders _ _).mpr ⟨s, hs1, Or.inl rfl⟩, hs2, rfl⟩
  · rw [keptNode_subDirs] at hde
    obtain ⟨folder, hf, hdrop, hk⟩ := ih s hs1 d hde
    exact ⟨folder, (mem_allFolders _ _).mpr ⟨s, hs1, Or.inr hf⟩, hdrop, hk⟩

/-- Every folder of the sub-tree that the drop rule does not remove has its node
in the extracted container. -/
theorem kept_folder_has_node (pred : Predicate) :
    ∀ hier : ContainerObject,
      ∀ a ∈ allFolders hier.subFolders, dropRule pred a = false →
        keptNode pred a ∈ allNodes (extractVisibleSubtree hier {} pred).subDirs := by
  apply ContainerObject.hier_induction
  intro hier ih a ha hdrop
  obtain ⟨s, hs, has⟩ := (mem_allFolders _ _).mp ha
  rw [extractVisibleSubtree_subDirs, mem_allNodes]
  rcases has with rfl | has
  · refine ⟨keptNode pred a, ?_, Or.inl rfl⟩
    exact List.mem_map.mpr ⟨a, List.mem_filter.mpr ⟨hs, by simp [hdrop]⟩, rfl⟩
  · have hin := ih s hs a has hdrop
    have hne : (extractVisibleSubtree s.hier {} pred).subDirs ≠ [] := by
      intro h0
      rw [h0] at hin
      simp [allNodes] at hin
    have hsd : dropRule pred s = false := by
      unfold dropRule
      cases hsub : (extractVisibleSubtree s.hier {} pred).subDirs with
      | nil => exact absurd hsub hne
      | cons x xs => simp
    refine ⟨keptNode pred s, ?_, Or.inr ?_⟩
    · exact List.mem_map.mpr ⟨s, List.mem_filter.mpr ⟨hs, by simp [hsd]⟩, rfl⟩
    · rw [keptNode_subDirs]
      exact hin

theorem includedBytes_of_all_excluded (pred : Predicate) (files : List FilePair)
    (h : files.all (fun f => !pred (.file f)) = true) : includedBytes pred files = 0 := by
  unfold includedBytes
  have : files.filter (fun f => pred (.file f)) = [] := by
    rw [List.filter_eq_nil_iff]
    intro f hf
    have := List.all_eq_true.mp h f hf
    simpa using this
  rw [this]
  rfl

theorem includedDirectCount_of_noDirectItem (pred : Predicate) (hier : ContainerObject)
    (h : noDirectItem pred hier = true) : includedDirectCount pred hier = 0 := by
  unfold noDirectItem at h
  rw [Bool.and_eq_true] at h
  unfold includedDirectCount
  have h1 : hier.subFiles.filter (fun f => pred (.file f)) = [] := by
    rw [List.filter_eq_nil_iff]
    intro f hf
    have := List.all_eq_true.mp h.1 f hf
    simpa using this
  have h2 : hier.subLinks.filter (fun l => pred (.symlink l)) = [] := by
    rw [List.filter_eq_nil_iff]
    intro f hf
    have := List.all_eq_true.mp h.2 f hf
    simpa using this
  rw [h1, h2]
  rfl

/-- A folder removed by the drop rule contributes nothing to the gross values of
its parent. -/
theorem dropped_contributes_zero (pred : Predicate) :
    ∀ folder : FolderPair, dropRule pred folder = true →
      (countedSubDir pred folder).bytesGross = 0
        ∧ (countedSubDir pred folder).itemCountGross = 0 := by
  apply FolderPair.tree_induction
  intro i n hier ih hdrop
  have hh : (FolderPair.mk i n hier).hier = hier := rfl
  unfold dropRule at hdrop
  simp only [Bool.and_eq_true, Bool.not_eq_true', hh] at hdrop
  obtain ⟨⟨hp, hnd⟩, hsub⟩ := hdrop
  have hall : ∀ s ∈ hier.subFolders, dropRule pred s = true := by
    intro s hs
    rw [extractVisibleSubtree_subDirs] at hsub
    have h0 : (hier.subFolders.filter (fun f => !dropRule pred f)) = [] := by
      cases hfl : hier.subFolders.filter (fun f => !dropRule pred f) with
      | nil => rfl
      | cons x xs => rw [hfl] at hsub; simp at hsub
    have := (List.filter_eq_nil_iff.mp h0) s hs
    simpa using this
  have hb : hier.subFolders.map (fun f => (countedSubDir pred f).bytesGross)
      = hier.subFolders.map (fun _ => 0) := by
    apply List.map_congr_left
    intro f hf
    exact (ih f hf (hall f hf)).1
  have hc : hier.subFolders.map (fun f => (countedSubDir pred f).itemCountGross)
      = hier.subFolders.map (fun _ => 0) := by
    apply List.map_congr_left
    intro f hf
    exact (ih f hf (hall f hf)).2
  have hfiles : includedBytes pred hier.subFiles = 0 := by
    apply includedBytes_of_all_excluded
    unfold noDirectItem at hnd
    rw [Bool.and_eq_true] at hnd
    exact hnd.1
  constructor
  · rw [countedSubDir_bytesGross, hh, extractVisibleSubtree_bytesGross, hb, hfiles]
    simp
  · rw [countedSubDir_itemCountGross, hh, extractVisibleSubtree_itemCountGross, hc,
      includedDirectCount_of_noDirectItem pred hier hnd]
    simp [selfCount, hp]

/-! ### Soundness of the gross values with respect to the kept children -/

theorem sum_filter_of_zero {α : Type} (g : α → Nat) (p : α → Bool) (l : List α)
    (h : ∀ x ∈ l, p x = false → g x = 0) :
    ((l.filter p).map g).sum = (l.map g).sum := by
  induction l with
  | nil => simp
  | cons x xs ih =>
    have ih2 := ih (fun y hy => h y (List.mem_cons_of_mem x hy))
    cases hp : p x
    · rw [List.filter_cons_of_neg (by simp [hp])]
      simp only [List.map_cons, List.sum_cons, ih2, h x (List.mem_cons_self x xs) hp]
      omega
    · rw [List.filter_cons_of_pos (by simp [hp])]
      simp only [List.map_cons, List.sum_cons, ih2]

theorem sum_filter_of_zero_int {α : Type} (g : α → Int) (p : α → Bool) (l : List α)
    (h : ∀ x ∈ l, p x = false → g x = 0) :
    ((l.filter p).map g).sum = (l.map g).sum := by
  induction l with
  | nil => simp
  | cons x xs ih =>
    have ih2 := ih (fun y hy => h y (List.mem_cons_of_mem x hy))
    cases hp : p x
    · rw [List.filter_cons_of_neg (by simp [hp])]
      simp only [List.map_cons, List.sum_cons, ih2, h x (List.mem_cons_self x xs) hp]
      omega
    · rw [List.filter_cons_of_pos (by simp [hp])]
      simp only [List.map_cons, List.sum_cons, ih2]

theorem keptNode_bytesGross (pred : Predicate) (folder : FolderPair) :
    (keptNode pred folder).toContainer.bytesGross = (countedSubDir pred folder).bytesGross := by
  simp only [keptNode, DirNodeImpl.toContainer, compressNode_bytesGross]

theorem keptNode_itemCountGross (pred : Predicate) (folder : FolderPair) :
    (keptNode pred folder).toContainer.itemCountGross
      = (countedSubDir pred folder).itemCountGross := by
  simp only [keptNode, DirNodeImpl.toContainer, compressNode_itemCountGross]

theorem keptNode_bytesNet (pred : Predicate) (folder : FolderPair) :
    (keptNode pred folder).toContainer.bytesNet
      = includedBytes pred folder.hier.subFiles % 2 ^ 64 := by
  simp only [keptNode, DirNodeImpl.toContainer, compressNode_bytesNet, countedSubDir_bytesNet,
    extractVisibleSubtree_bytesNet]

theorem keptNode_itemCountNet (pred : Predicate) (folder : FolderPair) :
    (keptNode pred folder).toContainer.itemCountNet
      = (includedDirectCount pred folder.hier : Nat) := by
  simp only [keptNode, DirNodeImpl.toContainer, compressNode_itemCountNet,
    countedSubDir_itemCountNet, extractVisibleSubtree_itemCountNet]

theorem childBytesGross_extract (hier : ContainerObject) (pred : Predicate) :
    childBytesGross (extractVisibleSubtree hier {} pred).subDirs
      = (hier.subFolders.map (fun f => (countedSubDir pred f).bytesGross)).sum := by
  unfold childBytesGross
  rw [extractVisibleSubtree_subDirs, List.map_map]
  have e : ((fun d : DirNodeImpl => d.toContainer.bytesGross) ∘ keptNode pred)
      = fun f => (countedSubDir pred f).bytesGross := by
    funext f
    exact keptNode_bytesGross pred f
  rw [e]
  apply sum_filter_of_zero
  intro f _ hf
  have hd : dropRule pred f = true := by simpa using hf
  exact (dropped_contributes_zero pred f hd).1

theorem childItemCountGross_extract (hier : ContainerObject) (pred : Predicate) :
    childItemCountGross (extractVisibleSubtree hier {} pred).subDirs
      = (hier.subFolders.map (fun f => (countedSubDir pred f).itemCountGross)).sum := by
  unfold childItemCountGross
  rw [extractVisibleSubtree_subDirs, List.map_map]
  have e : ((fun d : DirNodeImpl => d.toContainer.itemCountGross) ∘ keptNode pred)
      = fun f => (countedSubDir pred f).itemCountGross := by
    funext f
    exact keptNode_itemCountGross pred f
  rw [e]
  apply sum_filter_of_zero_int
  intro f _ hf
  have hd : dropRule pred f = true := by simpa using hf
  exact (dropped_contributes_zero pred f hd).2

/-- The bytes of an extracted container are its own net bytes plus the gross
bytes of its kept children, in `uint64_t` arithmetic. -/
theorem extract_bytes_sound (hier : ContainerObject) (pred : Predicate) :
    (extractVisibleSubtree hier {} pred).bytesGross
      = ((extractVisibleSubtree hier {} pred).bytesNet
          + childBytesGross (extractVisibleSubtree hier {} pred).subDirs) % 2 ^ 64 := by
  rw [childBytesGross_extract, extractVisibleSubtree_bytesGross, extractVisibleSubtree_bytesNet]
  omega

/-- The item count of an extracted container is its own net count plus the gross
counts of its kept children. -/
theorem extract_count_sound (hier : ContainerObject) (pred : Predicate) :
    (extractVisibleSubtree hier {} pred).itemCountGross
      = (extractVisibleSubtree hier {} pred).itemCountNet
          + childItemCountGross (extractVisibleSubtree hier {} pred).subDirs := by
  rw [childItemCountGross_extract, extractVisibleSubtree_itemCountGross,
    extractVisibleSubtree_itemCountNet]

theorem keptNode_bytes_sound (pred : Predicate) (folder : FolderPair) :
    (keptNode pred folder).toContainer.bytesGross
      = ((keptNode pred folder).toContainer.bytesNet
          + childBytesGross (keptNode pred folder).toContainer.subDirs) % 2 ^ 64 := by
  rw [keptNode_subDirs, keptNode_bytesGross, keptNode_bytesNet, countedSubDir_bytesGross,
    extract_bytes_sound, extractVisibleSubtree_bytesNet]

theorem keptNode_count_sound (pred : Predicate) (folder : FolderPair) :
    (keptNode pred folder).toContainer.itemCountGross
      = (keptNode pred folder).toContainer.itemCountNet
          + childItemCountGross (keptNode pred folder).toContainer.subDirs
          + selfCount pred folder := by
  rw [keptNode_subDirs, keptNode_itemCountGross, keptNode_itemCountNet,
    countedSubDir_itemCountGross, extract_count_sound, extractVisibleSubtree_itemCountNet]

/-! ### The forest built by `updateView` -/

theorem updateViewStep_eq (g : String → String → String) (pred : Predicate)
    (newView : List RootNodeImpl) (baseObj : BaseFolderPair) :
    updateViewStep g pred newView baseObj
      = newView ++ (if rootDropRule pred baseObj then [] else [keptRoot g pred baseObj]) := by
  unfold updateViewStep rootDropRule keptRoot
  simp only [extractVisibleSubtree_firstFileId]
  split <;> simp

theorem updateViewForest_foldl (g : String → String → String) (pred : Predicate)
    (folderCmp : List BaseFolderPair) (acc : List RootNodeImpl) :
    folderCmp.foldl (updateViewStep g pred) acc
      = acc ++ (folderCmp.filter (fun b => !rootDropRule pred b)).map (keptRoot g pred) := by
  induction folderCmp generalizing acc with
  | nil => simp
  | cons b bs ih =>
    rw [List.foldl_cons, ih, updateViewStep_eq]
    cases hd : rootDropRule pred b <;> simp [hd]

/-- The pruned forest: one kept root node per root pair that the root drop rule
does not remove, in the order of the root pairs. -/
theorem updateViewForest_eq (g : String → String → String) (folderCmp : List BaseFolderPair)
    (pred : Predicate) :
    updateViewForest g folderCmp pred
      = (folderCmp.filter (fun b => !rootDropRule pred b)).map (keptRoot g pred) := by
  unfold updateViewForest
  rw [updateViewForest_foldl]
  simp

theorem mem_updateViewForest (g : String → String → String) (folderCmp : List BaseFolderPair)
    (pred : Predicate) (root : RootNodeImpl) :
    root ∈ updateViewForest g folderCmp pred
      ↔ ∃ b ∈ folderCmp, rootDropRule pred b = false ∧ root = keptRoot g pred b := by
  rw [updateViewForest_eq, List.mem_map]
  constructor
  · rintro ⟨b, hb, rfl⟩
    have hb2 := List.mem_filter.mp hb
    exact ⟨b, hb2.1, by simpa using hb2.2, rfl⟩
  · rintro ⟨b, hb, hd, rfl⟩
    exact ⟨b, List.mem_filter.mpr ⟨hb, by simp [hd]⟩, rfl⟩

theorem keptRoot_subDirs (g : String → String → String) (pred : Predicate)
    (b : BaseFolderPair) :
    (keptRoot g pred b).subDirs = (extractVisibleSubtree b.hier {} pred).subDirs := by
  simp only [keptRoot, compressNode_subDirs]

theorem mem_forestFolders (folderCmp : List BaseFolderPair) (x : FolderPair) :
    x ∈ forestFolders folderCmp ↔ ∃ b ∈ folderCmp, x ∈ allFolders b.hier.subFolders := by
  unfold forestFolders
  rw [mem_allFolders]
  constructor
  · rintro ⟨d, hd, h⟩
    obtain ⟨b, hb, hdb⟩ := List.mem_flatMap.mp hd
    exact ⟨b, hb, (mem_allFolders _ _).mpr ⟨d, hdb, h⟩⟩
  · rintro ⟨b, hb, h⟩
    obtain ⟨d, hd, h2⟩ := (mem_allFolders _ _).mp h
    exact ⟨d, List.mem_flatMap.mpr ⟨b, hb, hd⟩, h2⟩

/-! ## Theorems: the claims about the sub-tree extraction -/

/-- C3 (counterexample): with everything included, the container extracted for
`wrapHier` has `bytesGross = 7`, while the sum of `max(leftSize, rightSize)` over
all files in the sub-tree is `4 * 2 ^ 63 + 7`: the `uint64_t` additions wrap
around. -/
theorem gross_bytes_wrap_around :
    (extractVisibleSubtree wrapHier {} includeAll).bytesGross = 7
      ∧ includedBytes includeAll (allFiles wrapHier) = 4 * 2 ^ 63 + 7
      ∧ (extractVisibleSubtree wrapHier {} includeAll).bytesGross
          ≠ includedBytes includeAll (allFiles wrapHier) := by
  decide

/-- C3 (amended): aggregation sees through exclusion. For every hierarchy object
and every predicate, the container extracted for it has `bytesGross` equal,
modulo `2 ^ 64` (`uint64_t` arithmetic), to the sum of `max(leftSize, rightSize)`
over all files anywhere in its sub-tree that satisfy the predicate, hence equal
to that sum whenever the sum is below `2 ^ 64`, and `itemCountGross` equal to the
number of files, symlinks and folders strictly below it that satisfy the
predicate, with no plus-one for the top container; and every container kept at
any depth below it is tagged with a folder of the sub-tree and has the same two
totals for that folder, plus one in the item count when that folder itself
satisfies the predicate. -/
theorem gross_sees_through_exclusion (pred : Predicate) (hierObj : ContainerObject) :
    (extractVisibleSubtree hierObj {} pred).bytesGross
        = includedBytes pred (allFiles hierObj) % 2 ^ 64
      ∧ (includedBytes pred (allFiles hierObj) < 2 ^ 64 →
          (extractVisibleSubtree hierObj {} pred).bytesGross
            = includedBytes pred (allFiles hierObj))
      ∧ (extractVisibleSubtree hierObj {} pred).itemCountGross
        = (includedCount pred hierObj : Nat)
      ∧ ∀ d ∈ allNodes (extractVisibleSubtree hierObj {} pred).subDirs,
          ∃ folder ∈ allFolders hierObj.subFolders,
            d.objId = some folder.id
              ∧ d.toContainer.bytesGross = includedBytes pred (allFiles folder.hier) % 2 ^ 64
              ∧ (includedBytes pred (allFiles folder.hier) < 2 ^ 64 →
                  d.toContainer.bytesGross = includedBytes pred (allFiles folder.hier))
              ∧ d.toContainer.itemCountGross
                = (includedCount pred folder.hier : Nat)
                  + (if pred (.folder folder) then 1 else 0) := by
  refine ⟨(extractVisibleSubtree_gross pred hierObj).1, ?_,
    (extractVisibleSubtree_gross pred hierObj).2, ?_⟩
  · intro hlt
    rw [(extractVisibleSubtree_gross pred hierObj).1, Nat.mod_eq_of_lt hlt]
  · intro d hd
    obtain ⟨folder, hf, _, rfl⟩ := node_origin pred hierObj d hd
    have hb : (keptNode pred folder).toContainer.bytesGross
        = includedBytes pred (allFiles folder.hier) % 2 ^ 64 := by
      rw [keptNode_bytesGross, countedSubDir_bytesGross]
      exact (extractVisibleSubtree_gross pred folder.hier).1
    refine ⟨folder, hf, rfl, hb, ?_, ?_⟩
    · intro hlt
      rw [hb, Nat.mod_eq_of_lt hlt]
    · rw [keptNode_itemCountGross, countedSubDir_itemCountGross,
        (extractVisibleSubtree_gross pred folder.hier).2]
      rfl

/-- C4 (counterexample): in the forest of `wrapCmp` with everything included, the
root node has `bytesGross = 7`, while its own `bytesNet` plus the sum of
`bytesGross` over its two direct child containers is `7 + 2 ^ 64`: the `uint64_t`
additions wrap around. -/
theorem bytes_aggregation_wraps_around :
    (updateViewForest leftName wrapCmp includeAll).map
        (fun root => (root.bytesGross, root.bytesNet + childBytesGross root.subDirs))
      = [(7, 7 + 2 ^ 64)] := by
  decide

/-- C4 (amended): aggregation soundness for bytes. For every predicate, every root
node of the pruned forest and every container at any depth below it has
`bytesGross` equal, modulo `2 ^ 64` (`uint64_t` arithmetic), to its own `bytesNet`
plus the sum of `bytesGross` over its direct child containers, hence equal to
that sum whenever the sum is below `2 ^ 64`. -/
theorem bytes_aggregation_sound (g : String → String → String)
    (folderCmp : List BaseFolderPair) (pred : Predicate) :
    ∀ root ∈ updateViewForest g folderCmp pred,
      root.bytesGross = (root.bytesNet + childBytesGross root.subDirs) % 2 ^ 64
        ∧ (root.bytesNet + childBytesGross root.subDirs < 2 ^ 64 →
            root.bytesGross = root.bytesNet + childBytesGross root.subDirs)
        ∧ ∀ d ∈ allNodes root.subDirs,
            d.toContainer.bytesGross
                = (d.toContainer.bytesNet + childBytesGross d.toContainer.subDirs) % 2 ^ 64
              ∧ (d.toContainer.bytesNet + childBytesGross d.toContainer.subDirs < 2 ^ 64 →
                  d.toContainer.bytesGross
                    = d.toContainer.bytesNet + childBytesGross d.toContainer.subDirs) := by
  intro root hroot
  obtain ⟨b, _, _, rfl⟩ := (mem_updateViewForest g folderCmp pred root).mp hroot
  have hroot2 : (keptRoot g pred b).bytesGross
      = ((keptRoot g pred b).bytesNet + childBytesGross (keptRoot g pred b).subDirs)
          % 2 ^ 64 := by
    simp only [keptRoot, compressNode_bytesGross, compressNode_bytesNet, compressNode_subDirs]
    exact extract_bytes_sound b.hier pred
  refine ⟨hroot2, ?_, ?_⟩
  · intro hlt
    rw [hroot2, Nat.mod_eq_of_lt hlt]
  · intro d hd
    rw [keptRoot_subDirs] at hd
    obtain ⟨folder, _, _, rfl⟩ := node_origin pred b.hier d hd
    refine ⟨keptNode_bytes_sound pred folder, ?_⟩
    intro hlt
    rw [keptNode_bytes_sound pred folder, Nat.mod_eq_of_lt hlt]

theorem exampleRoot_kept :
    keptRoot leftName includeAll exampleRoot ∈ updateViewForest leftName exampleCmp includeAll :=
  (mem_updateViewForest leftName exampleCmp includeAll _).mpr
    ⟨exampleRoot, List.mem_cons_self _ _, by decide, rfl⟩

theorem bytes_aggregation_sound_witness :
    keptRoot leftName includeAll exampleRoot ∈ updateViewForest leftName exampleCmp includeAll
      ∧ ((keptRoot leftName includeAll exampleRoot).bytesGross
          = ((keptRoot leftName includeAll exampleRoot).bytesNet
              + childBytesGross (keptRoot leftName includeAll exampleRoot).subDirs) % 2 ^ 64
        ∧ ((keptRoot leftName includeAll exampleRoot).bytesNet
              + childBytesGross (keptRoot leftName includeAll exampleRoot).subDirs < 2 ^ 64 →
            (keptRoot leftName includeAll exampleRoot).bytesGross
              = (keptRoot leftName includeAll exampleRoot).bytesNet
                + childBytesGross (keptRoot leftName includeAll exampleRoot).subDirs)
        ∧ ∀ d ∈ allNodes (keptRoot leftName includeAll exampleRoot).subDirs,
            d.toContainer.bytesGross
                = (d.toContainer.bytesNet + childBytesGross d.toContainer.subDirs) % 2 ^ 64
              ∧ (d.toContainer.bytesNet + childBytesGross d.toContainer.subDirs < 2 ^ 64 →
                  d.toContainer.bytesGross
                    = d.toContainer.bytesNet + childBytesGross d.toContainer.subDirs)) :=
  ⟨exampleRoot_kept,
    bytes_aggregation_sound leftName exampleCmp includeAll _ exampleRoot_kept⟩

/-- The byte totals of the example root when everything is included: 1000 bytes
gross, none of them net, 0 + 400 + 600 over the three child containers. -/
theorem bytes_aggregation_example :
    (keptRoot leftName includeAll exampleRoot).bytesGross = 1000
      ∧ (keptRoot leftName includeAll exampleRoot).bytesNet = 0
      ∧ (keptRoot leftName includeAll exampleRoot).subDirs.map
          (fun d => d.toContainer.bytesGross) = [0, 400, 600] := by
  decide

/-- C5 (counterexample): in the comparison whose only item is an empty folder,
with everything included, the container of that folder has `itemCountGross = 1`
while its `itemCountNet` plus the gross counts of its children is 0. -/
theorem item_count_sound_fails_for_included_folder :
    (updateViewForest leftName emptyFolderCmp includeAll).flatMap
        (fun root => (allNodes root.subDirs).map
          (fun d => (d.objId, d.toContainer.itemCountGross,
            d.toContainer.itemCountNet + childItemCountGross d.toContainer.subDirs)))
      = [(some 3, 1, 0)] := by
  decide

/-- C5 (amended): aggregation soundness for item counts. For every predicate,
every root node of the pruned forest has `itemCountGross` equal to its own
`itemCountNet` plus the sum of `itemCountGross` over its direct child
containers; every container at any depth below it is tagged with a folder of that
root pair and has `itemCountGross` equal to its own `itemCountNet` plus the sum
over its direct child containers plus one if that folder satisfies the predicate. -/
theorem item_count_aggregation_sound (g : String → String → String)
    (folderCmp : List BaseFolderPair) (pred : Predicate) :
    ∀ root ∈ updateViewForest g folderCmp pred,
      root.itemCountGross = root.itemCountNet + childItemCountGross root.subDirs
        ∧ ∃ base ∈ folderCmp, root.baseFolder = some base
          ∧ ∀ d ∈ allNodes root.subDirs,
              ∃ folder ∈ allFolders base.hier.subFolders,
                d.objId = some folder.id
                  ∧ d.toContainer.itemCountGross
                    = d.toContainer.itemCountNet + childItemCountGross d.toContainer.subDirs
                      + (if pred (.folder folder) then 1 else 0) := by
  intro root hroot
  obtain ⟨b, hb, _, rfl⟩ := (mem_updateViewForest g folderCmp pred root).mp hroot
  constructor
  · simp only [keptRoot, compressNode_itemCountGross, compressNode_itemCountNet,
      compressNode_subDirs]
    exact extract_count_sound b.hier pred
  · refine ⟨b, hb, rfl, ?_⟩
    intro d hd
    rw [keptRoot_subDirs] at hd
    obtain ⟨folder, hf, _, rfl⟩ := node_origin pred b.hier d hd
    exact ⟨folder, hf, rfl, keptNode_count_sound pred folder⟩

theorem item_count_aggregation_sound_witness :
    keptRoot leftName includeAll exampleRoot ∈ updateViewForest leftName exampleCmp includeAll
      ∧ ((keptRoot leftName includeAll exampleRoot).itemCountGross
          = (keptRoot leftName includeAll exampleRoot).itemCountNet
              + childItemCountGross (keptRoot leftName includeAll exampleRoot).subDirs
        ∧ ∃ base ∈ exampleCmp,
            (keptRoot leftName includeAll exampleRoot).baseFolder = some base
          ∧ ∀ d ∈ allNodes (keptRoot leftName includeAll exampleRoot).subDirs,
              ∃ folder ∈ allFolders base.hier.subFolders,
                d.objId = some folder.id
                  ∧ d.toContainer.itemCountGross
                    = d.toContainer.itemCountNet + childItemCountGross d.toContainer.subDirs
                      + (if includeAll (.folder folder) then 1 else 0)) :=
  ⟨exampleRoot_kept,
    item_count_aggregation_sound leftName exampleCmp includeAll _ exampleRoot_kept⟩

/-- C6 (counterexample): with everything included, the container extracted for
`wrapHier` has `bytesNet = 7`, while the sum of `max(leftSize, rightSize)` over
its three direct files is `2 ^ 63 + 2 ^ 63 + 7`: the `uint64_t` additions wrap
around. -/
theorem net_bytes_wrap_around :
    (extractVisibleSubtree wrapHier {} includeAll).bytesNet = 7
      ∧ ((wrapHier.subFiles.filter (fun f => includeAll (.file f))).map
          (fun f => max f.leftSize f.rightSize)).sum = 2 ^ 63 + 2 ^ 63 + 7
      ∧ (extractVisibleSubtree wrapHier {} includeAll).bytesNet
          ≠ ((wrapHier.subFiles.filter (fun f => includeAll (.file f))).map
              (fun f => max f.leftSize f.rightSize)).sum := by
  decide

/-- C6 (amended): net values. For every hierarchy object and every predicate, the
container extracted for it has `bytesNet` equal, modulo `2 ^ 64` (`uint64_t`
arithmetic), to the sum of `max(leftSize, rightSize)` over its direct files that
satisfy the predicate, symlinks contributing no bytes, hence equal to that sum
whenever the sum is below `2 ^ 64`, and `itemCountNet` equal to the number of its
direct files plus the number of its direct symlinks that satisfy the predicate;
and every container kept at any depth below it is tagged with a folder of the
sub-tree and has these two net values for that folder. -/
theorem net_values (pred : Predicate) (hierObj : ContainerObject) :
    (extractVisibleSubtree hierObj {} pred).bytesNet
        = ((hierObj.subFiles.filter (fun f => pred (.file f))).map
            (fun f => max f.leftSize f.rightSize)).sum % 2 ^ 64
      ∧ (((hierObj.subFiles.filter (fun f => pred (.file f))).map
            (fun f => max f.leftSize f.rightSize)).sum < 2 ^ 64 →
          (extractVisibleSubtree hierObj {} pred).bytesNet
            = ((hierObj.subFiles.filter (fun f => pred (.file f))).map
                (fun f => max f.leftSize f.rightSize)).sum)
      ∧ (extractVisibleSubtree hierObj {} pred).itemCountNet
        = ((hierObj.subFiles.filter (fun f => pred (.file f))).length
            + (hierObj.subLinks.filter (fun l => pred (.symlink l))).length : Nat)
      ∧ ∀ d ∈ allNodes (extractVisibleSubtree hierObj {} pred).subDirs,
          ∃ folder ∈ allFolders hierObj.subFolders,
            d.objId = some folder.id
              ∧ d.toContainer.bytesNet
                = ((folder.hier.subFiles.filter (fun f => pred (.file f))).map
                    (fun f => max f.leftSize f.rightSize)).sum % 2 ^ 64
              ∧ (((folder.hier.subFiles.filter (fun f => pred (.file f))).map
                    (fun f => max f.leftSize f.rightSize)).sum < 2 ^ 64 →
                  d.toContainer.bytesNet
                    = ((folder.hier.subFiles.filter (fun f => pred (.file f))).map
                        (fun f => max f.leftSize f.rightSize)).sum)
              ∧ d.toContainer.itemCountNet
                = ((folder.hier.subFiles.filter (fun f => pred (.file f))).length
                    + (folder.hier.subLinks.filter (fun l => pred (.symlink l))).length : Nat) := by
  refine ⟨extractVisibleSubtree_bytesNet hierObj pred, ?_,
    extractVisibleSubtree_itemCountNet hierObj pred, ?_⟩
  · intro hlt
    exact (extractVisibleSubtree_bytesNet hierObj pred).trans (Nat.mod_eq_of_lt hlt)
  · intro d hd
    obtain ⟨folder, hf, _, rfl⟩ := node_origin pred hierObj d hd
    refine ⟨folder, hf, rfl, keptNode_bytesNet pred folder, ?_,
      keptNode_itemCountNet pred folder⟩
    intro hlt
    exact (keptNode_bytesNet pred folder).trans (Nat.mod_eq_of_lt hlt)

/-- C7: child drop rule. For every hierarchy object and every predicate, the
sub-directories of its container are, in source order, exactly the nodes of its
direct folders for which the drop rule fails, where the drop rule holds of a
folder if and only if the folder fails the predicate, none of its direct files or
symlinks satisfies the predicate and its own container kept no sub-folders; the
node of every kept folder is tagged with the identity of the folder. -/
theorem child_drop_rule (pred : Predicate) (hierObj : ContainerObject) :
    (extractVisibleSubtree hierObj {} pred).subDirs
        = (hierObj.subFolders.filter
            (fun folder =>
              !(!pred (.folder folder)
                && (folder.hier.subFiles.all (fun f => !pred (.file f))
                  && folder.hier.subLinks.all (fun l => !pred (.symlink l)))
                && (extractVisibleSubtree folder.hier {} pred).subDirs.isEmpty))).map
            (keptNode pred)
      ∧ ∀ folder : FolderPair, (keptNode pred folder).objId = some folder.id := by
  refine ⟨?_, fun folder => rfl⟩
  rw [extractVisibleSubtree_subDirs]
  rfl

theorem dropRule_of_nothing_included (pred : Predicate) (folder : FolderPair)
    (hp : pred (.folder folder) = false) (h0 : includedCount pred folder.hier = 0)
    (hs : folder.hier.subFolders = []) : dropRule pred folder = true := by
  have hsub : (extractVisibleSubtree folder.hier {} pred).subDirs = [] := by
    rw [extractVisibleSubtree_subDirs, hs]
    rfl
  have hnd : noDirectItem pred folder.hier = true := by
    unfold includedCount allFiles allLinks at h0
    rw [hs] at h0
    simp only [allFolders, List.flatMap_nil, List.append_nil, List.filter_nil, List.length_nil,
      Nat.add_zero, Nat.add_eq_zero, List.length_eq_zero] at h0
    unfold noDirectItem
    rw [Bool.and_eq_true, List.all_eq_true, List.all_eq_true]
    constructor
    · intro f hf
      have := (List.filter_eq_nil_iff.mp h0.1) f hf
      simpa using this
    · intro l hl
      have := (List.filter_eq_nil_iff.mp h0.2) l hl
      simpa using this
  unfold dropRule
  rw [hp, hnd, hsub]
  rfl

/-- C8 (counterexample): in the comparison whose only item is an empty folder,
with everything included, that folder has no included descendant and no
sub-folder, and nevertheless a container tagged with its identity is in the
pruned forest. -/
theorem empty_included_folder_appears :
    includedCount includeAll emptyFolder.hier = 0
      ∧ emptyFolder.hier.subFolders.length = 0
      ∧ (forestFolders emptyFolderCmp).map FolderPair.id = [emptyFolder.id]
      ∧ (updateViewForest leftName emptyFolderCmp includeAll).flatMap
          (fun root => (allNodes root.subDirs).map DirNodeImpl.objId)
        = [some emptyFolder.id] := by
  decide

/-- C8 (amended): pruning. For every predicate and every comparison whose folders
have pairwise distinct identities, a folder that itself fails the predicate, has
zero included descendants and zero sub-folders never appears in the pruned
forest: no container at any depth is tagged with its identity. -/
theorem excluded_empty_folder_is_pruned (g : String → String → String)
    (folderCmp : List BaseFolderPair) (pred : Predicate) (folder : FolderPair)
    (hid : ((forestFolders folderCmp).map FolderPair.id).Nodup)
    (hf : folder ∈ forestFolders folderCmp)
    (hp : pred (.folder folder) = false)
    (h0 : includedCount pred folder.hier = 0)
    (hs : folder.hier.subFolders = []) :
    ∀ root ∈ updateViewForest g folderCmp pred,
      ∀ d ∈ allNodes root.subDirs, d.objId ≠ some folder.id := by
  intro root hroot d hd hobj
  obtain ⟨b, hb, _, rfl⟩ := (mem_updateViewForest g folderCmp pred root).mp hroot
  rw [keptRoot_subDirs] at hd
  obtain ⟨other, ho, hkeep, rfl⟩ := node_origin pred b.hier d hd
  have ho2 : other ∈ forestFolders folderCmp := (mem_forestFolders _ _).mpr ⟨b, hb, ho⟩
  have hsame : other.id = folder.id := by
    rw [keptNode_objId] at hobj
    exact Option.some.inj hobj
  have heq : other = folder := List.inj_on_of_nodup_map hid ho2 hf hsame
  rw [heq, dropRule_of_nothing_included pred folder hp h0 hs] at hkeep
  exact Bool.noConfusion hkeep

theorem excluded_empty_folder_is_pruned_witness :
    ((forestFolders emptyFolderCmp).map FolderPair.id).Nodup
      ∧ emptyFolder ∈ forestFolders emptyFolderCmp
      ∧ includeItems (.folder emptyFolder) = false
      ∧ includedCount includeItems emptyFolder.hier = 0
      ∧ emptyFolder.hier.subFolders = []
      ∧ ∀ root ∈ updateViewForest leftName emptyFolderCmp includeItems,
          ∀ d ∈ allNodes root.subDirs, d.objId ≠ some emptyFolder.id :=
  have h1 : ((forestFolders emptyFolderCmp).map FolderPair.id).Nodup := by decide
  have h2 : emptyFolder ∈ forestFolders emptyFolderCmp :=
    (mem_forestFolders _ _).mpr
      ⟨_, List.mem_cons_self _ _, (mem_allFolders _ _).mpr ⟨_, List.mem_cons_self _ _, Or.inl rfl⟩⟩
  ⟨h1, h2, rfl, by decide, rfl,
    excluded_empty_folder_is_pruned leftName emptyFolderCmp includeItems emptyFolder
      h1 h2 rfl (by decide) rfl⟩

/-- C9: empty folders stay visible. For every predicate, every folder anywhere
below a root pair of the comparison that itself satisfies the predicate has a
container tagged with its identity in the pruned forest, below the root node of
its own root pair, whatever its contents; and every folder above it has a
container there too, with the container of the folder below it. -/
theorem included_folder_stays_visible (g : String → String → String)
    (folderCmp : List BaseFolderPair) (pred : Predicate) (base : BaseFolderPair)
    (folder : FolderPair) (hb : base ∈ folderCmp)
    (hf : folder ∈ allFolders base.hier.subFolders)
    (hp : pred (.folder folder) = true) :
    ∃ root ∈ updateViewForest g folderCmp pred,
      root.baseFolder = some base
        ∧ ∃ d ∈ allNodes root.subDirs,
            d.objId = some folder.id
              ∧ ∀ a ∈ allFolders base.hier.subFolders,
                  folder ∈ allFolders a.hier.subFolders →
                    ∃ da ∈ allNodes root.subDirs,
                      da.objId = some a.id ∧ d ∈ allNodes da.toContainer.subDirs := by
  have hkeep : dropRule pred folder = false := by
    unfold dropRule
    rw [hp]
    rfl
  have hnode := kept_folder_has_node pred base.hier folder hf hkeep
  have hroot : rootDropRule pred base = false := by
    unfold rootDropRule
    cases hsub : (extractVisibleSubtree base.hier {} pred).subDirs with
    | nil => rw [hsub] at hnode; simp [allNodes] at hnode
    | cons x xs => simp
  refine ⟨keptRoot g pred base,
    (mem_updateViewForest g folderCmp pred _).mpr ⟨base, hb, hroot, rfl⟩, rfl,
    keptNode pred folder, ?_, rfl, ?_⟩
  · rw [keptRoot_subDirs]
    exact hnode
  · intro a ha hfa
    have hin := kept_folder_has_node pred a.hier folder hfa hkeep
    have hadrop : dropRule pred a = false := by
      unfold dropRule
      cases hsub : (extractVisibleSubtree a.hier {} pred).subDirs with
      | nil => rw [hsub] at hin; simp [allNodes] at hin
      | cons x xs => simp
    refine ⟨keptNode pred a, ?_, rfl, ?_⟩
    · rw [keptRoot_subDirs]
      exact kept_folder_has_node pred base.hier a ha hadrop
    · rw [keptNode_subDirs]
      exact hin

theorem included_folder_stays_visible_witness :
    exampleRoot ∈ exampleCmp
      ∧ emptyFolder ∈ allFolders exampleRoot.hier.subFolders
      ∧ includeFolders (.folder emptyFolder) = true
      ∧ ∃ root ∈ updateViewForest leftName exampleCmp includeFolders,
          root.baseFolder = some exampleRoot
            ∧ ∃ d ∈ allNodes root.subDirs,
                d.objId = some emptyFolder.id
                  ∧ ∀ a ∈ allFolders exampleRoot.hier.subFolders,
                      emptyFolder ∈ allFolders a.hier.subFolders →
                        ∃ da ∈ allNodes root.subDirs,
                          da.objId = some a.id ∧ d ∈ allNodes da.toContainer.subDirs :=
  have h1 : exampleRoot ∈ exampleCmp := List.mem_cons_self _ _
  have h2 : emptyFolder ∈ allFolders exampleRoot.hier.subFolders :=
    (mem_allFolders _ _).mpr ⟨_, List.mem_cons_self _ _, Or.inl rfl⟩
  ⟨h1, h2, rfl,
    included_folder_stays_visible leftName exampleCmp includeFolders exampleRoot emptyFolder
      h1 h2 rfl⟩

/-- C10: root drop rule. In `updateView`, the root pairs of the surviving root
nodes are, in the order of the root pairs, exactly the root pairs for which the
root drop rule fails; the rule holds of a root pair if and only if after
extraction its container has no `firstFileId` and no sub-directories, and it has
no `firstFileId` if and only if no direct file or symlink satisfies the predicate. -/
theorem root_drop_rule (g : String → String → String) (folderCmp : List BaseFolderPair)
    (pred : Predicate) :
    (updateViewForest g folderCmp pred).map (fun root => root.baseFolder)
        = (folderCmp.filter
            (fun baseObj =>
              !((extractVisibleSubtree baseObj.hier {} pred).firstFileId.isNone
                && (extractVisibleSubtree baseObj.hier {} pred).subDirs.isEmpty))).map some
      ∧ ∀ baseObj : BaseFolderPair,
          (extractVisibleSubtree baseObj.hier {} pred).firstFileId.isNone
            = (baseObj.hier.subFiles.all (fun f => !pred (.file f))
                && baseObj.hier.subLinks.all (fun l => !pred (.symlink l))) := by
  constructor
  · rw [updateViewForest_eq, List.map_map]
    have e : (fun baseObj : BaseFolderPair =>
        !((extractVisibleSubtree baseObj.hier {} pred).firstFileId.isNone
          && (extractVisibleSubtree baseObj.hier {} pred).subDirs.isEmpty))
        = fun b => !rootDropRule pred b := by
      funext b
      rw [extractVisibleSubtree_firstFileId]
      rfl
    rw [e]
    rfl
  · intro baseObj
    rw [extractVisibleSubtree_firstFileId]
    rfl

/-! ## Theorems: the files bucket flag -/

theorem compressNode_firstFileId (c : Container) :
    (compressNode c).firstFileId.isSome = (!c.subDirs.isEmpty && c.firstFileId.isSome) := by
  unfold compressNode
  cases h : c.subDirs.isEmpty <;> simp [h]

theorem not_noDirectItem (pred : Predicate) (hier : ContainerObject) :
    (!noDirectItem pred hier)
      = (hier.subFiles.any (fun f => pred (.file f))
          || hier.subLinks.any (fun l => pred (.symlink l))) := by
  unfold noDirectItem
  rw [Bool.not_and, List.not_all_eq_any_not, List.not_all_eq_any_not]
  simp

theorem isSome_eq_not_isNone {α : Type} (o : Option α) : o.isSome = !o.isNone := by
  cases o <;> rfl

theorem keptNode_firstFileId (pred : Predicate) (folder : FolderPair) :
    (keptNode pred folder).toContainer.firstFileId.isSome
      = (!(keptNode pred folder).toContainer.subDirs.isEmpty
          && (folder.hier.subFiles.any (fun f => pred (.file f))
            || folder.hier.subLinks.any (fun l => pred (.symlink l)))) := by
  rw [keptNode_subDirs, ← not_noDirectItem, ← extractVisibleSubtree_firstFileId,
    ← isSome_eq_not_isNone]
  simp only [keptNode, DirNodeImpl.toContainer]
  rw [compressNode_firstFileId, countedSubDir_subDirs, countedSubDir_firstFileId]

theorem keptRoot_firstFileId (g : String → String → String) (pred : Predicate)
    (b : BaseFolderPair) :
    (keptRoot g pred b).firstFileId.isSome
      = (!(keptRoot g pred b).subDirs.isEmpty
          && (b.hier.subFiles.any (fun f => pred (.file f))
            || b.hier.subLinks.any (fun l => pred (.symlink l)))) := by
  rw [keptRoot_subDirs, ← not_noDirectItem, ← extractVisibleSubtree_firstFileId,
    ← isSome_eq_not_isNone]
  simp only [keptRoot]
  rw [compressNode_firstFileId]

/-- C11: compression and the files bucket flag. For every predicate, every root
node of the pruned forest has `firstFileId` set if and only if it has at least
one sub-directory and at least one direct file or symlink of its root pair
satisfies the predicate; every container at any depth below it is tagged with a
folder of that root pair and has `firstFileId` set if and only if it has at least
one sub-directory and at least one direct file or symlink of that folder
satisfies the predicate. In particular a container without sub-directories has
`firstFileId` cleared. -/
theorem files_bucket_flag (g : String → String → String) (folderCmp : List BaseFolderPair)
    (pred : Predicate) :
    ∀ root ∈ updateViewForest g folderCmp pred,
      ∃ base ∈ folderCmp, root.baseFolder = some base
        ∧ root.firstFileId.isSome
          = (!root.subDirs.isEmpty
              && (base.hier.subFiles.any (fun f => pred (.file f))
                || base.hier.subLinks.any (fun l => pred (.symlink l))))
        ∧ ∀ d ∈ allNodes root.subDirs,
            ∃ folder ∈ allFolders base.hier.subFolders,
              d.objId = some folder.id
                ∧ d.toContainer.firstFileId.isSome
                  = (!d.toContainer.subDirs.isEmpty
                      && (folder.hier.subFiles.any (fun f => pred (.file f))
                        || folder.hier.subLinks.any (fun l => pred (.symlink l)))) := by
  intro root hroot
  obtain ⟨b, hb, _, rfl⟩ := (mem_updateViewForest g folderCmp pred root).mp hroot
  refine ⟨b, hb, rfl, keptRoot_firstFileId g pred b, ?_⟩
  intro d hd
  rw [keptRoot_subDirs] at hd
  obtain ⟨folder, hf, _, rfl⟩ := node_origin pred b.hier d hd
  exact ⟨folder, hf, rfl, keptNode_firstFileId pred folder⟩

theorem files_bucket_flag_witness :
    keptRoot leftName includeAll exampleRoot ∈ updateViewForest leftName exampleCmp includeAll
      ∧ ∃ base ∈ exampleCmp,
          (keptRoot leftName includeAll exampleRoot).baseFolder = some base
        ∧ (keptRoot leftName includeAll exampleRoot).firstFileId.isSome
          = (!(keptRoot leftName includeAll exampleRoot).subDirs.isEmpty
              && (base.hier.subFiles.any (fun f => includeAll (.file f))
                || base.hier.subLinks.any (fun l => includeAll (.symlink l))))
        ∧ ∀ d ∈ allNodes (keptRoot leftName includeAll exampleRoot).subDirs,
            ∃ folder ∈ allFolders base.hier.subFolders,
              d.objId = some folder.id
                ∧ d.toContainer.firstFileId.isSome
                  = (!d.toContainer.subDirs.isEmpty
                      && (folder.hier.subFiles.any (fun f => includeAll (.file f))
                        || folder.hier.subLinks.any (fun l => includeAll (.symlink l)))) :=
  ⟨exampleRoot_kept, files_bucket_flag leftName exampleCmp includeAll _ exampleRoot_kept⟩

/-! ## Theorems: the rows of one sibling group -/

theorem insertLine_perm (comp : TreeLine → TreeLine → Bool) (x : TreeLine)
    (l : List TreeLine) : List.Perm (insertLine comp x l) (x :: l) := by
  induction l with
  | nil => simp [insertLine]
  | cons y ys ih =>
    unfold insertLine
    split
    · exact (List.Perm.cons y ih).trans (List.Perm.swap x y ys)
    · exact List.Perm.refl _

theorem sortByInsertion_perm (comp : TreeLine → TreeLine → Bool) (items : List TreeLine) :
    List.Perm (sortByInsertion comp items) items := by
  induction items with
  | nil => simp [sortByInsertion]
  | cons x xs ih =>
    have h := insertLine_perm comp x (xs.foldr (insertLine comp) [])
    exact h.trans (List.Perm.cons x ih)

theorem referenceLibrary_sortPerm (folderCmp : List BaseFolderPair) :
    SortPerm (referenceLibrary folderCmp) :=
  fun comp items => sortByInsertion_perm comp items

theorem referenceLibrary_nthPerm (folderCmp : List BaseFolderPair) :
    NthElementPerm (referenceLibrary folderCmp).nthElement :=
  nthElementBySort_perm

theorem sortSingleLevel_perm (lib : Library) (hsort : SortPerm lib) (ascending : Bool)
    (items : List TreeLine) (columnType : ColumnTypeTree) :
    List.Perm (sortSingleLevel lib ascending items columnType) items := by
  cases columnType <;> exact hsort _ _

theorem storePercent_length (mem : Store) (start : Nat) (l : List TreeLine) :
    (storePercent mem start l).length = l.length := by
  induction l generalizing start with
  | nil => rfl
  | cons x xs ih => simp [storePercent, ih]

theorem storePercent_shape (mem : Store) (start : Nat) (l : List TreeLine) :
    (storePercent mem start l).map (fun r => (r.level, r.node, r.type))
      = l.map (fun r => (r.level, r.node, r.type)) := by
  induction l generalizing start with
  | nil => rfl
  | cons x xs ih => simp [storePercent, ih]

theorem storePercent_percent (mem : Store) (start : Nat) (l : List TreeLine) :
    (storePercent mem start l).map (fun r => r.percent)
      = (List.range' start l.length).map mem := by
  induction l generalizing start with
  | nil => rfl
  | cons x xs ih => simp [storePercent, ih, List.range'_succ]

/-- The rows of `getChildren` before the sort: the pushed rows with their
`percent` members filled in. -/
theorem getChildren_perm (lib : Library) (hsort : SortPerm lib) (currentSort : SortInfo)
    (cont : NodePtr) (level : Nat) :
    List.Perm (getChildren lib currentSort cont level)
      (assignPercentages lib (childRows cont level) (childWeights cont)) := by
  unfold getChildren
  cases currentSort.ascending <;> exact sortSingleLevel_perm lib hsort _ _ _

theorem childRows_length (cont : NodePtr) (level : Nat) :
    (childRows cont level).length
      = cont.cont.subDirs.length + (if cont.cont.firstFileId.isSome then 1 else 0) := by
  unfold childRows
  cases cont.cont.firstFileId <;> simp

theorem childWeights_length (cont : NodePtr) (level : Nat) :
    (childWeights cont).length = (childRows cont level).length := by
  unfold childRows childWeights
  cases cont.cont.firstFileId <;> simp

/-- The shape of the output of `getChildren`: its rows up to order, its length and
its levels. -/
theorem getChildren_shape (lib : Library) (hsort : SortPerm lib) (currentSort : SortInfo)
    (cont : NodePtr) (level : Nat) :
    List.Perm ((getChildren lib currentSort cont level).map (fun r => (r.level, r.node, r.type)))
        (cont.cont.subDirs.map (fun subDir => (level, NodePtr.dir subDir, NodeType.folder))
          ++ (if cont.cont.firstFileId.isSome then [(level, cont, NodeType.files)] else []))
      ∧ (getChildren lib currentSort cont level).length
        = cont.cont.subDirs.length + (if cont.cont.firstFileId.isSome then 1 else 0)
      ∧ ∀ r ∈ getChildren lib currentSort cont level, r.level = level := by
  have hp := getChildren_perm lib hsort currentSort cont level
  have hshape : (assignPercentages lib (childRows cont level) (childWeights cont)).map
      (fun r => (r.level, r.node, r.type))
      = cont.cont.subDirs.map (fun subDir => (level, NodePtr.dir subDir, NodeType.folder))
          ++ (if cont.cont.firstFileId.isSome then [(level, cont, NodeType.files)] else []) := by
    unfold assignPercentages
    rw [storePercent_shape]
    unfold childRows
    cases cont.cont.firstFileId <;> simp
  refine ⟨?_, ?_, ?_⟩
  · rw [← hshape]
    exact List.Perm.map _ hp
  · rw [List.Perm.length_eq hp]
    unfold assignPercentages
    rw [storePercent_length, childRows_length]
  · intro r hr
    have hm : (r.level, r.node, r.type)
        ∈ (assignPercentages lib (childRows cont level) (childWeights cont)).map
            (fun r => (r.level, r.node, r.type)) :=
      List.mem_map.mpr ⟨r, (List.Perm.mem_iff hp).mp hr, rfl⟩
    rw [hshape] at hm
    rcases List.mem_append.mp hm with h | h
    · obtain ⟨d, _, hd⟩ := List.mem_map.mp h
      exact (congrArg Prod.fst hd).symm
    · cases hf : cont.cont.firstFileId.isSome
      · rw [hf] at h
        simp at h
      · rw [hf] at h
        simp only [if_true, List.mem_singleton] at h
        exact congrArg Prod.fst h

/-- C12: the output of `getChildren(container, level)` consists, up to the order
that the sort gives it, of exactly one row of kind folder per entry of `subDirs`,
referencing that sub-directory, plus exactly one row of kind files referencing
the container itself if and only if `firstFileId` is set; every row has the
given level, and the length is the number of sub-directories plus one if
`firstFileId` is set. -/
theorem getChildren_rows (lib : Library) (hsort : SortPerm lib) (currentSort : SortInfo)
    (cont : NodePtr) (level : Nat) :
    List.Perm ((getChildren lib currentSort cont level).map (fun r => (r.level, r.node, r.type)))
        (cont.cont.subDirs.map (fun subDir => (level, NodePtr.dir subDir, NodeType.folder))
          ++ (if cont.cont.firstFileId.isSome then [(level, cont, NodeType.files)] else []))
      ∧ (getChildren lib currentSort cont level).length
        = cont.cont.subDirs.length + (if cont.cont.firstFileId.isSome then 1 else 0)
      ∧ ∀ r ∈ getChildren lib currentSort cont level, r.level = level :=
  getChildren_shape lib hsort currentSort cont level

theorem getChildren_rows_witness :
    SortPerm (referenceLibrary exampleCmp)
      ∧ List.Perm
          ((getChildren (referenceLibrary exampleCmp) byNameAscending
              (NodePtr.root (keptRoot leftName includeAll exampleRoot)) 0).map
            (fun r => (r.level, r.node, r.type)))
          ((NodePtr.root (keptRoot leftName includeAll exampleRoot)).cont.subDirs.map
              (fun subDir => (0, NodePtr.dir subDir, NodeType.folder))
            ++ (if (NodePtr.root (keptRoot leftName includeAll exampleRoot)).cont.firstFileId.isSome
                then [(0, NodePtr.root (keptRoot leftName includeAll exampleRoot), NodeType.files)]
                else []))
      ∧ (getChildren (referenceLibrary exampleCmp) byNameAscending
            (NodePtr.root (keptRoot leftName includeAll exampleRoot)) 0).length
        = (NodePtr.root (keptRoot leftName includeAll exampleRoot)).cont.subDirs.length
          + (if (NodePtr.root (keptRoot leftName includeAll exampleRoot)).cont.firstFileId.isSome
              then 1 else 0)
      ∧ ∀ r ∈ getChildren (referenceLibrary exampleCmp) byNameAscending
            (NodePtr.root (keptRoot leftName includeAll exampleRoot)) 0, r.level = 0 :=
  ⟨referenceLibrary_sortPerm exampleCmp,
    getChildren_rows (referenceLibrary exampleCmp) (referenceLibrary_sortPerm exampleCmp)
      byNameAscending (NodePtr.root (keptRoot leftName includeAll exampleRoot)) 0⟩

/-! ## Theorems: the percentages of one sibling group -/

theorem percentWorkList_fst (start : Nat) (ws : List Nat) :
    (percentWorkList start ws).map Prod.fst = ws := by
  induction ws generalizing start with
  | nil => rfl
  | cons w ws ih => simp [percentWorkList, ih]

theorem percentWorkList_snd (start : Nat) (ws : List Nat) :
    (percentWorkList start ws).map Prod.snd = List.range' start ws.length := by
  induction ws generalizing start with
  | nil => rfl
  | cons w ws ih => simp [percentWorkList, ih, List.range'_succ]

theorem percentWorkList_length (start : Nat) (ws : List Nat) :
    (percentWorkList start ws).length = ws.length := by
  have h := congrArg List.length (percentWorkList_fst start ws)
  simpa using h

theorem percentSum_percentWorkList (start : Nat) (ws : List Nat) (mem : Store) :
    percentSum (percentWorkList start ws) mem = ((List.range' start ws.length).map mem).sum := by
  unfold percentSum
  rw [← percentWorkList_snd start ws, List.map_map]
  rfl

/-- The sum of the percentages of the rows after `calcPercentage` is the sum over
the slots of the work list. -/
theorem assignPercentages_sum (lib : Library) (output : List TreeLine) (weights : List Nat)
    (hlen : weights.length = output.length) :
    ((assignPercentages lib output weights).map (fun r => r.percent)).sum
      = percentSum (percentWorkList 0 weights)
          (calcPercentage lib.nthElement (percentWorkList 0 weights) (percentStore output)).2 := by
  unfold assignPercentages
  rw [storePercent_percent, percentSum_percentWorkList, hlen]

/-- Where no `uint64_t` operation of `calcPercentage` wraps around, the
percentages of the rows of `getChildren` sum to exactly 100. -/
theorem getChildren_percent_sum_of_no_wrap (lib : Library)
    (hnth : NthElementPerm lib.nthElement) (hsort : SortPerm lib) (currentSort : SortInfo)
    (cont : NodePtr) (level : Nat)
    (hlen : (childWeights cont).length < 2 ^ 31)
    (hw : ∀ w ∈ childWeights cont, w * 100 < 2 ^ 64)
    (hsum : (childWeights cont).sum < 2 ^ 64)
    (hpos : 0 < (childWeights cont).sum) :
    ((getChildren lib currentSort cont level).map (fun r => r.percent)).sum = 100 := by
  rw [List.Perm.sum_eq (List.Perm.map _ (getChildren_perm lib hsort currentSort cont level)),
    assignPercentages_sum lib _ _ (childWeights_length cont level)]
  apply calcPercentage_sum_of_no_wrap lib.nthElement hnth
  · rw [percentWorkList_snd]
    exact List.nodup_range' _ _
  · intro h
    have h2 := congrArg List.length h
    rw [percentWorkList_length] at h2
    have h3 : childWeights cont = [] := List.length_eq_zero.mp h2
    rw [h3] at hpos
    simp at hpos
  · rw [percentWorkList_length]
    exact hlen
  · intro pair hp
    apply hw
    rw [← percentWorkList_fst 0 (childWeights cont)]
    exact List.mem_map_of_mem Prod.fst hp
  · rw [percentWorkList_fst]
    exact hsum
  · rw [percentWorkList_fst]
    exact hpos

/-- Where the sibling weights are all zero, every row of `getChildren` has
percentage 0. -/
theorem getChildren_percent_of_zero_weights (lib : Library) (hsort : SortPerm lib)
    (currentSort : SortInfo) (cont : NodePtr) (level : Nat)
    (hzero : (childWeights cont).sum = 0) :
    ∀ r ∈ getChildren lib currentSort cont level, r.percent = 0 := by
  intro r hr
  have hr2 := (List.Perm.mem_iff (getChildren_perm lib hsort currentSort cont level)).mp hr
  have hmem : r.percent ∈ (assignPercentages lib (childRows cont level)
      (childWeights cont)).map (fun r => r.percent) := List.mem_map_of_mem _ hr2
  unfold assignPercentages at hmem
  rw [storePercent_percent] at hmem
  obtain ⟨slot, hslot, hval⟩ := List.mem_map.mp hmem
  rw [← hval]
  have ht : accumulateTotal (percentWorkList 0 (childWeights cont)) = 0 := by
    rw [accumulateTotal_eq, percentWorkList_fst, hzero]
    rfl
  rw [calcPercentage_of_total_zero _ _ _ ht]
  have hin : slot ∈ (percentWorkList 0 (childWeights cont)).map Prod.snd := by
    rw [percentWorkList_snd, childWeights_length cont level]
    exact hslot
  rw [if_pos hin]

/-- C13 (failing input): in the comparison of one root pair with one folder that
holds one file of `2 ^ 63` bytes, with everything included, the only sibling
weight below the root is `2 ^ 63`, which is not zero, and the only row of
`getChildren` has percentage 1: the percentages sum to 1, not to 100. -/
theorem getChildren_percent_wraps :
    (updateViewForest leftName hugeFileCmp includeAll).map
        (fun root =>
          (childWeights (NodePtr.root root),
            (getChildren (referenceLibrary hugeFileCmp) byNameAscending (NodePtr.root root) 0).map
              (fun r => (r.type, lineBytes r, r.percent))))
      = [([2 ^ 63], [(NodeType.folder, 2 ^ 63, 1)])] := by
  decide

/-- The example of the specification: below a root with the folders `src` (files
of 100 and 300 bytes) and `docs` (one file of 600 bytes) the rows are `docs` with
600 bytes and 60 percent, then `src` with 400 bytes and 40 percent, under the
sort by name, ascending. -/
theorem getChildren_share_example :
    (updateViewForest leftName shareCmp includeAll).map
        (fun root =>
          (getChildren (referenceLibrary shareCmp) byNameAscending (NodePtr.root root) 1).map
            (fun r => ((resolveFolder (referenceLibrary shareCmp) r.node.objId).map
              FolderPair.itemName, r.type, lineBytes r, r.percent)))
      = [[(some "docs", NodeType.folder, 600, 60), (some "src", NodeType.folder, 400, 40)]] := by
  decide

/-! ## Theorems: top-level rows, expanding and reducing -/

theorem restoreLoop_of_not_restored (lib : Library) (currentSort : SortInfo)
    (expanded : List HierAlias) (h : ∀ line, isRestored lib expanded line = false)
    (fuel row : Nat) (flatTree : List TreeLine) :
    restoreLoop lib currentSort expanded fuel row flatTree = flatTree := by
  induction fuel generalizing row with
  | zero => rfl
  | succ fuel ih =>
    unfold restoreLoop
    cases hrow : flatTree[row]? with
    | none => rfl
    | some line =>
      simp only [h line, Bool.false_eq_true, if_false]
      exact ih (row + 1)

theorem isRestored_nil (lib : Library) (line : TreeLine) : isRestored lib [] line = false := by
  unfold isRestored
  cases getHierAlias lib line <;> simp

theorem percentStore_of_zero (output : List TreeLine) (h : ∀ r ∈ output, r.percent = 0) :
    percentStore output = fun _ => 0 := by
  funext slot
  unfold percentStore
  cases hs : output[slot]? with
  | none => rfl
  | some line => exact h line (List.getElem?_mem hs)

theorem percentWorkList_eq_zip (start : Nat) (ws : List Nat) :
    percentWorkList start ws = ws.zip (List.range' start ws.length) := by
  induction ws generalizing start with
  | nil => rfl
  | cons w ws ih => simp [percentWorkList, ih, List.range'_succ]

theorem storePercent_map_root (mem : Store) (start : Nat) (view : List RootNodeImpl) :
    storePercent mem start (view.map (fun root => rootRow root 0))
      = List.zipWith rootRow view ((List.range' start view.length).map mem) := by
  induction view generalizing start with
  | nil => rfl
  | cons r rs ih =>
    simp only [List.map_cons, List.length_cons, List.range'_succ, List.zipWith_cons_cons,
      storePercent]
    rw [ih]
    rfl

theorem applySubView_flatTree_of_none (lib : Library) (tv : TreeView)
    (newView : List RootNodeImpl) (hnone : expandedNodes lib tv.flatTree = []) :
    (applySubView lib tv newView).flatTree
      = defaultFlatTree lib tv.folderCmp tv.currentSort newView := by
  simp only [applySubView, hnone]
  exact restoreLoop_of_not_restored lib tv.currentSort [] (isRestored_nil lib) _ _ _

/-- C14: top-level seeding in `applySubView` when nothing was expanded before. If
the comparison has exactly one root pair, the flat rows are exactly `getChildren`
of the first root node of the new forest at level 0, or empty if the forest is
empty, and no row has kind root. Otherwise the flat rows are, up to the order
that the sort gives them, exactly one row of kind root at level 0 per root node
of the new forest, each with the percentage that `calcPercentage` computes for
its slot from the work list of the roots' `bytesGross`. -/
theorem top_level_seeding (lib : Library) (hsort : SortPerm lib) (tv : TreeView)
    (newView : List RootNodeImpl) (hnone : expandedNodes lib tv.flatTree = []) :
    (tv.folderCmp.length = 1 →
        (applySubView lib tv newView).flatTree
            = (match newView with
              | [] => []
              | root :: _ => getChildren lib tv.currentSort (NodePtr.root root) 0)
          ∧ ∀ r ∈ (applySubView lib tv newView).flatTree, r.type ≠ NodeType.root)
      ∧ (tv.folderCmp.length ≠ 1 →
          List.Perm (applySubView lib tv newView).flatTree
            (List.zipWith rootRow newView
              ((List.range newView.length).map
                (calcPercentage lib.nthElement
                  ((newView.map (fun root => root.bytesGross)).zip (List.range newView.length))
                  (fun _ => 0)).2))) := by
  rw [applySubView_flatTree_of_none lib tv newView hnone]
  constructor
  · intro hone
    unfold defaultFlatTree
    rw [if_pos hone]
    refine ⟨rfl, ?_⟩
    intro r hr
    cases newView with
    | nil => simp at hr
    | cons root rest =>
      simp only [] at hr
      have hshape := (getChildren_shape lib hsort tv.currentSort (NodePtr.root root) 0).1
      have hm : (r.level, r.node, r.type)
          ∈ (getChildren lib tv.currentSort (NodePtr.root root) 0).map
              (fun r => (r.level, r.node, r.type)) := List.mem_map.mpr ⟨r, hr, rfl⟩
      have hm2 := (List.Perm.mem_iff hshape).mp hm
      intro hroot
      rcases List.mem_append.mp hm2 with h | h
      · obtain ⟨d, _, hd2⟩ := List.mem_map.mp h
        have := congrArg (fun t => t.2.2) hd2
        simp only [hroot] at this
        exact NodeType.noConfusion this
      · split at h
        · simp only [List.mem_singleton] at h
          have := congrArg (fun t => t.2.2) h
          simp only [hroot] at this
          exact NodeType.noConfusion this
        · simp at h
  · intro hmany
    unfold defaultFlatTree
    rw [if_neg hmany]
    have hzero : percentStore (newView.map (fun root => rootRow root 0)) = fun _ => 0 := by
      apply percentStore_of_zero
      intro r hr
      obtain ⟨root, _, rfl⟩ := List.mem_map.mp hr
      rfl
    have hrows : assignPercentages lib (newView.map (fun root => rootRow root 0))
        (newView.map (fun root => root.bytesGross))
        = List.zipWith rootRow newView
            ((List.range newView.length).map
              (calcPercentage lib.nthElement
                ((newView.map (fun root => root.bytesGross)).zip (List.range newView.length))
                (fun _ => 0)).2) := by
      unfold assignPercentages
      rw [storePercent_map_root, hzero, percentWorkList_eq_zip, List.length_map,
        List.range_eq_range']
    simp only []
    rw [← hrows]
    cases tv.currentSort.ascending <;> exact sortSingleLevel_perm lib hsort _ _ _

theorem top_level_seeding_witness :
    SortPerm (referenceLibrary shareCmp)
      ∧ expandedNodes (referenceLibrary shareCmp) (initialView shareCmp byNameAscending).flatTree = []
      ∧ ((initialView shareCmp byNameAscending).folderCmp.length = 1 →
          (applySubView (referenceLibrary shareCmp) (initialView shareCmp byNameAscending)
              (updateViewForest leftName shareCmp includeAll)).flatTree
            = (match updateViewForest leftName shareCmp includeAll with
              | [] => []
              | root :: _ =>
                  getChildren (referenceLibrary shareCmp)
                    (initialView shareCmp byNameAscending).currentSort (NodePtr.root root) 0)
          ∧ ∀ r ∈ (applySubView (referenceLibrary shareCmp) (initialView shareCmp byNameAscending)
              (updateViewForest leftName shareCmp includeAll)).flatTree, r.type ≠ NodeType.root)
      ∧ ((initialView shareCmp byNameAscending).folderCmp.length ≠ 1 →
          List.Perm
            (applySubView (referenceLibrary shareCmp) (initialView shareCmp byNameAscending)
              (updateViewForest leftName shareCmp includeAll)).flatTree
            (List.zipWith rootRow (updateViewForest leftName shareCmp includeAll)
              ((List.range (updateViewForest leftName shareCmp includeAll).length).map
                (calcPercentage (referenceLibrary shareCmp).nthElement
                  (((updateViewForest leftName shareCmp includeAll).map
                      (fun root => root.bytesGross)).zip
                    (List.range (updateViewForest leftName shareCmp includeAll).length))
                  (fun _ => 0)).2))) :=
  ⟨referenceLibrary_sortPerm shareCmp, rfl,
    top_level_seeding (referenceLibrary shareCmp) (referenceLibrary_sortPerm shareCmp)
      (initialView shareCmp byNameAscending) (updateViewForest leftName shareCmp includeAll) rfl⟩

theorem removeDeeper_done (parentLevel : Nat) (l : List TreeLine) :
    removeDeeper parentLevel true l = l := by
  induction l with
  | nil => rfl
  | cons x xs ih => simp [removeDeeper, ih]

theorem removeDeeper_eq_dropWhile (parentLevel : Nat) (l : List TreeLine) :
    removeDeeper parentLevel false l
      = l.dropWhile (fun line => decide (line.level > parentLevel)) := by
  induction l with
  | nil => rfl
  | cons x xs ih =>
    by_cases h : x.level > parentLevel
    · simp [removeDeeper, h, ih, List.dropWhile_cons]
    · simp [removeDeeper, h, removeDeeper_done, List.dropWhile_cons]

/-- What `getStatus` returning `STATUS_REDUCED` says about the row: it exists, it
is no files row, its node has a files bucket or sub-directories, and the next
row, if any, is not deeper. -/
theorem getStatus_reduced (tv : TreeView) (row : Nat) (h : getStatus tv row = .reduced) :
    ∃ line, tv.flatTree[row]? = some line
      ∧ line.type ≠ NodeType.files
      ∧ (line.node.cont.firstFileId.isSome = true ∨ line.node.cont.subDirs ≠ [])
      ∧ ∀ next, tv.flatTree[row + 1]? = some next → next.level ≤ line.level := by
  unfold getStatus at h
  cases hrow : tv.flatTree[row]? with
  | none => simp [hrow] at h
  | some line =>
    refine ⟨line, rfl, ?_⟩
    simp only [hrow] at h
    cases hnext : tv.flatTree[row + 1]? with
    | none =>
      simp only [hnext, Bool.false_eq_true, if_false] at h
      cases ht : line.type <;> simp only [ht] at h
      · refine ⟨by simp, ?_, by simp⟩
        by_contra hc
        rw [not_or] at hc
        have h1 : line.node.cont.firstFileId.isSome = false := by simpa using hc.1
        have h2 : line.node.cont.subDirs = [] := by simpa using hc.2
        simp [h1, h2] at h
      · refine ⟨by simp, ?_, by simp⟩
        by_contra hc
        rw [not_or] at hc
        have h1 : line.node.cont.firstFileId.isSome = false := by simpa using hc.1
        have h2 : line.node.cont.subDirs = [] := by simpa using hc.2
        simp [h1, h2] at h
      · exact absurd h (by decide)
    | some next =>
      simp only [hnext] at h
      by_cases hlv : next.level > line.level
      · simp [hlv] at h
      · simp only [hlv, decide_False, Bool.false_eq_true, if_false] at h
        have hle : ∀ next2, some next = some next2 → next2.level ≤ line.level := by
          intro next2 e
          cases e
          omega
        cases ht : line.type <;> simp only [ht] at h
        · refine ⟨by simp, ?_, hle⟩
          by_contra hc
          rw [not_or] at hc
          have h1 : line.node.cont.firstFileId.isSome = false := by simpa using hc.1
          have h2 : line.node.cont.subDirs = [] := by simpa using hc.2
          simp [h1, h2] at h
        · refine ⟨by simp, ?_, hle⟩
          by_contra hc
          rw [not_or] at hc
          have h1 : line.node.cont.firstFileId.isSome = false := by simpa using hc.1
          have h2 : line.node.cont.subDirs = [] := by simpa using hc.2
          simp [h1, h2] at h
        · exact absurd h (by decide)

/-- The effect of `expandNode` on a row with status `STATUS_REDUCED`. -/
theorem expandNode_of_reduced (lib : Library) (tv : TreeView) (row : Nat) (line : TreeLine)
    (h : getStatus tv row = .reduced) (hrow : tv.flatTree[row]? = some line) :
    expandNode lib tv row
      = { tv with
          flatTree := tv.flatTree.take (row + 1)
            ++ getChildren lib tv.currentSort line.node (line.level + 1)
            ++ tv.flatTree.drop (row + 1) } := by
  obtain ⟨line2, hrow2, htype, _, _⟩ := getStatus_reduced tv row h
  have e : line2 = line := Option.some.inj (hrow2.symm.trans hrow)
  subst e
  unfold expandNode
  rw [if_neg (by rw [h]; simp)]
  simp only [hrow]

/-- C15: `expandNode(row)` on a row whose status is `STATUS_REDUCED`: the new
flat rows are the old rows up to and including `row`, followed by
`getChildren(node of row, level of row + 1)`, followed by the old rows after
`row`, unchanged and in the same order; nothing else of the view changes. -/
theorem expandNode_splices_children (lib : Library) (tv : TreeView) (row : Nat)
    (h : getStatus tv row = .reduced) :
    ∃ line, tv.flatTree[row]? = some line
      ∧ (expandNode lib tv row).flatTree
        = tv.flatTree.take (row + 1)
            ++ getChildren lib tv.currentSort line.node (line.level + 1)
            ++ tv.flatTree.drop (row + 1)
      ∧ (expandNode lib tv row).folderCmpView = tv.folderCmpView
      ∧ (expandNode lib tv row).currentSort = tv.currentSort
      ∧ (expandNode lib tv row).folderCmp = tv.folderCmp := by
  obtain ⟨line, hrow, _⟩ := getStatus_reduced tv row h
  refine ⟨line, hrow, ?_⟩
  rw [expandNode_of_reduced lib tv row line h hrow]
  exact ⟨rfl, rfl, rfl, rfl⟩

/-- C16: `expandNode(row)` is a no-op when the status of the row is not
`STATUS_REDUCED`, in particular when the row is out of range or is a files row:
the view, and with it the flat-row list, is left unchanged. -/
theorem expandNode_noop (lib : Library) (tv : TreeView) (row : Nat)
    (h : getStatus tv row ≠ .reduced ∨ tv.flatTree.length ≤ row
      ∨ ∃ line, tv.flatTree[row]? = some line ∧ line.type = NodeType.files) :
    expandNode lib tv row = tv := by
  have hs : getStatus tv row ≠ .reduced := by
    rcases h with h | h | ⟨line, hrow, hfiles⟩
    · exact h
    · intro hred
      obtain ⟨line, hrow, _⟩ := getStatus_reduced tv row hred
      rw [List.getElem?_eq_none h] at hrow
      exact Option.noConfusion hrow
    · intro hred
      obtain ⟨line2, hrow2, htype, _⟩ := getStatus_reduced tv row hred
      have e : line2 = line := Option.some.inj (hrow2.symm.trans hrow)
      exact htype (e ▸ hfiles)
  unfold expandNode
  rw [if_pos hs]

/-- C17: `reduceNode(row)`. For an in-range row the result is the old rows up to
and including `row` followed by the old rows behind `row` without their longest
leading run of rows whose level is strictly greater than the level of `row`; the
old list is these three parts in sequence, so the rows from the first later row
with a level not greater onward are unchanged. An out-of-range row leaves the
view unchanged. -/
theorem reduceNode_removes_deeper_run (tv : TreeView) (row : Nat) :
    (∀ line, tv.flatTree[row]? = some line →
        (reduceNode tv row).flatTree
            = tv.flatTree.take (row + 1)
              ++ (tv.flatTree.drop (row + 1)).dropWhile (fun r => decide (r.level > line.level))
          ∧ tv.flatTree
            = tv.flatTree.take (row + 1)
              ++ (tv.flatTree.drop (row + 1)).takeWhile (fun r => decide (r.level > line.level))
              ++ (tv.flatTree.drop (row + 1)).dropWhile (fun r => decide (r.level > line.level))
          ∧ (∀ r ∈ (tv.flatTree.drop (row + 1)).takeWhile
                (fun r => decide (r.level > line.level)), r.level > line.level)
          ∧ ∀ r, ((tv.flatTree.drop (row + 1)).dropWhile
                (fun r => decide (r.level > line.level))).head? = some r → r.level ≤ line.level)
      ∧ (tv.flatTree.length ≤ row → reduceNode tv row = tv) := by
  constructor
  · intro line hrow
    refine ⟨?_, ?_, ?_, ?_⟩
    · unfold reduceNode
      simp only [hrow]
      rw [removeDeeper_eq_dropWhile]
    · rw [List.append_assoc, List.takeWhile_append_dropWhile, List.take_append_drop]
    · intro r hr
      have := List.mem_takeWhile_imp hr
      simpa using this
    · intro r hr
      have := List.head?_dropWhile_not (fun r : TreeLine => decide (r.level > line.level))
        (tv.flatTree.drop (row + 1))
      rw [hr] at this
      simp only [Option.mem_def] at this
      have h2 := this
      simp at h2
      omega
  · intro hlen
    unfold reduceNode
    rw [List.getElem?_eq_none hlen]

theorem length_take_succ {α : Type} (l : List α) (row : Nat) (h : row < l.length) :
    (l.take (row + 1)).length = row + 1 := by
  rw [List.length_take]
  omega

theorem splice_getElem {α : Type} (l x : List α) (row : Nat) (h : row < l.length) :
    (l.take (row + 1) ++ x ++ l.drop (row + 1))[row]? = l[row]? := by
  rw [List.append_assoc, List.getElem?_append_left (by rw [length_take_succ l row h]; omega),
    List.getElem?_take_of_lt (by omega)]

theorem splice_take {α : Type} (l x : List α) (row : Nat) (h : row < l.length) :
    (l.take (row + 1) ++ x ++ l.drop (row + 1)).take (row + 1) = l.take (row + 1) := by
  rw [List.append_assoc]
  exact List.take_left' (length_take_succ l row h)

theorem splice_drop {α : Type} (l x : List α) (row : Nat) (h : row < l.length) :
    (l.take (row + 1) ++ x ++ l.drop (row + 1)).drop (row + 1) = x ++ l.drop (row + 1) := by
  rw [List.append_assoc]
  exact List.drop_left' (length_take_succ l row h)

theorem lt_length_of_getElem? {α : Type} (l : List α) (row : Nat) (a : α)
    (h : l[row]? = some a) : row < l.length := by
  obtain ⟨hlt, _⟩ := List.getElem?_eq_some.mp h
  exact hlt

theorem dropWhile_eq_self_of_head {α : Type} (p : α → Bool) (l : List α)
    (h : ∀ a, l.head? = some a → p a = false) : l.dropWhile p = l := by
  cases l with
  | nil => rfl
  | cons a as =>
    have := h a rfl
    simp [List.dropWhile_cons, this]

/-- C18: expansion round-trip. For every view and every row whose status is
`STATUS_REDUCED`, `expandNode(row)` followed by `reduceNode(row)` gives back the
view before the expand, so the flat-row list is equal by content (level,
percent, node and kind of every row) to the list before. -/
theorem expand_then_reduce (lib : Library) (hsort : SortPerm lib) (tv : TreeView) (row : Nat)
    (h : getStatus tv row = .reduced) :
    reduceNode (expandNode lib tv row) row = tv := by
  obtain ⟨line, hrow, _, _, hnext⟩ := getStatus_reduced tv row h
  have hlt := lt_length_of_getElem? tv.flatTree row line hrow
  rw [expandNode_of_reduced lib tv row line h hrow]
  unfold reduceNode
  simp only [splice_getElem tv.flatTree _ row hlt, hrow, splice_take tv.flatTree _ row hlt,
    splice_drop tv.flatTree _ row hlt, removeDeeper_eq_dropWhile]
  have hchildren : ∀ a ∈ getChildren lib tv.currentSort line.node (line.level + 1),
      (fun r : TreeLine => decide (r.level > line.level)) a = true := by
    intro a ha
    have := (getChildren_shape lib hsort tv.currentSort line.node (line.level + 1)).2.2 a ha
    simp only [decide_eq_true_eq]
    omega
  rw [List.dropWhile_append_of_pos hchildren]
  have hrest : (tv.flatTree.drop (row + 1)).dropWhile
      (fun r : TreeLine => decide (r.level > line.level)) = tv.flatTree.drop (row + 1) := by
    apply dropWhile_eq_self_of_head
    intro a ha
    rw [List.head?_drop] at ha
    have := hnext a ha
    simp only [decide_eq_false_iff_not]
    omega
  rw [hrest, List.take_append_drop]

/-! ## Theorems: the restore loop of `applySubView` -/

theorem FlatOf.append {children : TreeLine → List TreeLine} {opens : TreeLine → Bool → Prop}
    {a o1 b o2 : List TreeLine} (h1 : FlatOf children opens a o1)
    (h2 : FlatOf children opens b o2) : FlatOf children opens (a ++ b) (o1 ++ o2) := by
  induction h1 with
  | nil => exact h2
  | closed hop _ ih => exact FlatOf.closed hop ih
  | opened hop hbelow _ _ ih2 =>
    rw [List.cons_append, List.cons_append, List.append_assoc]
    exact FlatOf.opened hop hbelow ih2

theorem FlatOf.split {children : TreeLine → List TreeLine} {opens : TreeLine → Bool → Prop}
    (a : List TreeLine) {b out : List TreeLine} (h : FlatOf children opens (a ++ b) out) :
    ∃ o1 o2, out = o1 ++ o2 ∧ FlatOf children opens a o1 ∧ FlatOf children opens b o2 := by
  induction a generalizing out with
  | nil => exact ⟨[], out, rfl, FlatOf.nil, h⟩
  | cons x xs ih =>
    rw [List.cons_append] at h
    cases h with
    | closed hop hrest =>
      obtain ⟨o1, o2, rfl, h1, h2⟩ := ih hrest
      exact ⟨x :: o1, o2, rfl, FlatOf.closed hop h1, h2⟩
    | opened hop hbelow hrest =>
      obtain ⟨o1, o2, rfl, h1, h2⟩ := ih hrest
      refine ⟨x :: (_ ++ o1), o2, ?_, FlatOf.opened hop hbelow h1, h2⟩
      simp [List.append_assoc]

theorem rowBound_dir (d : DirNodeImpl) :
    d.rowBound = 2 + rowBoundOfList d.toContainer.subDirs := by
  cases d
  simp [DirNodeImpl.rowBound, DirNodeImpl.toContainer]

theorem rowBoundOfList_eq (ds : List DirNodeImpl) :
    rowBoundOfList ds = (ds.map (fun d => 2 + rowBoundOfList d.toContainer.subDirs)).sum := by
  induction ds with
  | nil => rfl
  | cons d ds ih => rw [rowBoundOfList, rowBound_dir, ih]; simp

theorem rowBound_eq_shapeBound (line : TreeLine) :
    line.rowBound = shapeBound (line.level, line.node, line.type) := by
  unfold TreeLine.rowBound shapeBound
  cases line.type <;> rfl

theorem restoreFuel_eq (rows : List TreeLine) :
    restoreFuel rows = ((rows.map (fun r => (r.level, r.node, r.type))).map shapeBound).sum := by
  induction rows with
  | nil => rfl
  | cons r rs ih =>
    simp only [restoreFuel, List.map_cons, List.sum_cons] at ih ⊢
    rw [ih, rowBound_eq_shapeBound]

theorem restoreFuel_append (a b : List TreeLine) :
    restoreFuel (a ++ b) = restoreFuel a + restoreFuel b := by
  simp [restoreFuel]

theorem rowBound_pos (line : TreeLine) : 0 < line.rowBound := by
  unfold TreeLine.rowBound
  cases line.type <;> simp

theorem restoreFuel_eq_zero (rows : List TreeLine) (h : restoreFuel rows = 0) : rows = [] := by
  cases rows with
  | nil => rfl
  | cons x xs =>
    have := rowBound_pos x
    simp only [restoreFuel, List.map_cons, List.sum_cons] at h
    omega

/-- The children of a row that is no files row need less fuel than the row. -/
theorem restoreFuel_getChildren (lib : Library) (hsort : SortPerm lib) (currentSort : SortInfo)
    (line : TreeLine) (level : Nat) (htype : line.type ≠ NodeType.files) :
    restoreFuel (getChildren lib currentSort line.node level) < line.rowBound := by
  have hshape := (getChildren_shape lib hsort currentSort line.node level).1
  rw [restoreFuel_eq, List.Perm.sum_eq (List.Perm.map shapeBound hshape)]
  have hb : line.rowBound = 2 + rowBoundOfList line.node.cont.subDirs := by
    unfold TreeLine.rowBound
    cases ht : line.type
    · rfl
    · rfl
    · exact absurd ht htype
  rw [hb, rowBoundOfList_eq, List.map_append, List.sum_append, List.map_map]
  have e : (shapeBound ∘ fun subDir : DirNodeImpl => (level, NodePtr.dir subDir, NodeType.folder))
      = fun d => 2 + rowBoundOfList d.toContainer.subDirs := by
    funext d
    rfl
  rw [e]
  cases line.node.cont.firstFileId.isSome
  · simp
  · simp [shapeBound]
    omega

theorem isRestored_type (lib : Library) (expanded : List HierAlias) (line : TreeLine)
    (h : isRestored lib expanded line = true) : line.type ≠ NodeType.files := by
  intro hf
  unfold isRestored getHierAlias at h
  rw [hf] at h
  simp at h

/-- The restore loop, started behind the finished rows `done` with enough fuel
for the remaining rows `todo`, leaves `done` alone and lays out `todo`: every
restored row is followed by the layout of its children. -/
theorem restoreLoop_flat (lib : Library) (hsort : SortPerm lib) (currentSort : SortInfo)
    (expanded : List HierAlias) :
    ∀ (fuel : Nat) (done todo : List TreeLine), restoreFuel todo ≤ fuel →
      ∃ out, restoreLoop lib currentSort expanded fuel done.length (done ++ todo) = done ++ out
        ∧ FlatOf (childrenOf lib currentSort) (fun l b => isRestored lib expanded l = b)
            todo out := by
  intro fuel
  induction fuel with
  | zero =>
    intro done todo hfuel
    have hnil := restoreFuel_eq_zero todo (by omega)
    subst hnil
    exact ⟨[], rfl, FlatOf.nil⟩
  | succ fuel ih =>
    intro done todo hfuel
    cases todo with
    | nil =>
      refine ⟨[], ?_, FlatOf.nil⟩
      unfold restoreLoop
      rw [List.getElem?_eq_none (by simp)]
    | cons line rest =>
      have hget : (done ++ line :: rest)[done.length]? = some line := by
        rw [List.getElem?_append_right (Nat.le_refl _)]
        simp
      have htake : (done ++ line :: rest).take (done.length + 1) = done ++ [line] := by
        have : done ++ line :: rest = (done ++ [line]) ++ rest := by simp
        rw [this]
        exact List.take_left' (by simp)
      have hdrop : (done ++ line :: rest).drop (done.length + 1) = rest := by
        have : done ++ line :: rest = (done ++ [line]) ++ rest := by simp
        rw [this]
        exact List.drop_left' (by simp)
      have hfuel2 : line.rowBound + restoreFuel rest ≤ fuel + 1 := by
        simpa [restoreFuel] using hfuel
      unfold restoreLoop
      simp only [hget]
      cases hres : isRestored lib expanded line
      · simp only [Bool.false_eq_true, if_false]
        have hpos := rowBound_pos line
        obtain ⟨out, hout, hflat⟩ := ih (done ++ [line]) rest (by omega)
        refine ⟨line :: out, ?_, FlatOf.closed hres hflat⟩
        have hlen : (done ++ [line]).length = done.length + 1 := by simp
        rw [hlen] at hout
        have e : done ++ line :: rest = (done ++ [line]) ++ rest := by simp
        rw [e, hout]
        simp
      · simp only [if_true]
        rw [htake, hdrop]
        have hlt := restoreFuel_getChildren lib hsort currentSort line (line.level + 1)
          (isRestored_type lib expanded line hres)
        have hfuel3 : restoreFuel (getChildren lib currentSort line.node (line.level + 1) ++ rest)
            ≤ fuel := by
          rw [restoreFuel_append]
          omega
        obtain ⟨out, hout, hflat⟩ := ih (done ++ [line])
          (getChildren lib currentSort line.node (line.level + 1) ++ rest) hfuel3
        obtain ⟨below, rows, rfl, hbelow, hrows⟩ := FlatOf.split _ hflat
        refine ⟨line :: (below ++ rows), ?_, FlatOf.opened hres hbelow hrows⟩
        have hlen : (done ++ [line]).length = done.length + 1 := by simp
        rw [hlen] at hout
        have e : done ++ [line] ++ getChildren lib currentSort line.node (line.level + 1) ++ rest
            = (done ++ [line])
              ++ (getChildren lib currentSort line.node (line.level + 1) ++ rest) := by simp
        rw [e, hout]
        simp

/-- The flat rows after `applySubView` are the layout of the top-level rows in
which exactly the rows restored from the previous expansion status are open. -/
theorem applySubView_flat (lib : Library) (hsort : SortPerm lib) (tv : TreeView)
    (newView : List RootNodeImpl) :
    FlatOf (childrenOf lib tv.currentSort)
      (fun l b => isRestored lib (expandedNodes lib tv.flatTree) l = b)
      (defaultFlatTree lib tv.folderCmp tv.currentSort newView)
      (applySubView lib tv newView).flatTree := by
  obtain ⟨out, hout, hflat⟩ := restoreLoop_flat lib hsort tv.currentSort
    (expandedNodes lib tv.flatTree)
    (restoreFuel (defaultFlatTree lib tv.folderCmp tv.currentSort newView)) []
    (defaultFlatTree lib tv.folderCmp tv.currentSort newView) (Nat.le_refl _)
  simp only [List.length_nil, List.nil_append] at hout
  simp only [applySubView]
  rw [hout]
  exact hflat

/-! ### Which rows of a layout are followed by a deeper row -/

theorem followedByDeeper_zero (x : TreeLine) (l : List TreeLine) :
    followedByDeeper (x :: l) 0 ↔ ∃ next, l.head? = some next ∧ x.level < next.level := by
  unfold followedByDeeper
  constructor
  · rintro ⟨line, next, h0, h1, hlt⟩
    simp only [List.getElem?_cons_zero, Option.some.injEq] at h0
    subst h0
    refine ⟨next, ?_, hlt⟩
    rw [List.head?_eq_getElem?]
    simpa using h1
  · rintro ⟨next, hh, hlt⟩
    refine ⟨x, next, by simp, ?_, hlt⟩
    rw [List.head?_eq_getElem?] at hh
    simpa using hh

theorem followedByDeeper_append (pre l : List TreeLine) (k : Nat) :
    followedByDeeper (pre ++ l) (pre.length + k) ↔ followedByDeeper l k := by
  unfold followedByDeeper
  have h1 : ∀ j, (pre ++ l)[pre.length + j]? = l[j]? := by
    intro j
    rw [List.getElem?_append_right (by omega)]
    congr 1
    omega
  rw [h1 k, Nat.add_assoc, h1 (k + 1)]

theorem followedByDeeper_succ (x : TreeLine) (l : List TreeLine) (k : Nat) :
    followedByDeeper (x :: l) (k + 1) ↔ followedByDeeper l k := by
  have := followedByDeeper_append [x] l k
  simp only [List.singleton_append, List.length_singleton] at this
  rw [Nat.add_comm 1 k] at this
  exact this

theorem FlatOf.eq_nil_of_nil {children : TreeLine → List TreeLine}
    {opens : TreeLine → Bool → Prop} {rows : List TreeLine}
    (h : FlatOf children opens [] rows) : rows = [] := by
  cases h
  rfl

theorem FlatOf.nil_of_eq_nil {children : TreeLine → List TreeLine}
    {opens : TreeLine → Bool → Prop} {siblings : List TreeLine}
    (h : FlatOf children opens siblings []) : siblings = [] := by
  cases h
  rfl

theorem FlatOf.head {children : TreeLine → List TreeLine} {opens : TreeLine → Bool → Prop}
    {s : TreeLine} {siblings rows : List TreeLine}
    (h : FlatOf children opens (s :: siblings) rows) : rows.head? = some s := by
  cases h <;> rfl

/-- The first row behind a layout of siblings of level `L`, continued by rows whose
first is not deeper than `L`, is not deeper than `L`. -/
theorem FlatOf.head_level {children : TreeLine → List TreeLine}
    {opens : TreeLine → Bool → Prop} {siblings rows : List TreeLine}
    (h : FlatOf children opens siblings rows) (L : Nat) (tail : List TreeLine)
    (hlevel : ∀ s ∈ siblings, s.level = L)
    (htail : ∀ t, tail.head? = some t → t.level ≤ L) :
    ∀ t, (rows ++ tail).head? = some t → t.level ≤ L := by
  intro t ht
  cases siblings with
  | nil =>
    rw [FlatOf.eq_nil_of_nil h] at ht
    exact htail t ht
  | cons s rest =>
    have hh := FlatOf.head h
    cases rows with
    | nil => simp at hh
    | cons r rs =>
      simp only [List.head?_cons, Option.some.injEq] at hh
      simp only [List.cons_append, List.head?_cons, Option.some.injEq] at ht
      rw [← ht, hh, hlevel s (List.mem_cons_self _ _)]

theorem childrenOf_level (lib : Library) (hsort : SortPerm lib) (currentSort : SortInfo)
    (line : TreeLine) : ∀ c ∈ childrenOf lib currentSort line, c.level = line.level + 1 :=
  (getChildren_shape lib hsort currentSort line.node (line.level + 1)).2.2

/-- In a layout of siblings of one level, a row is followed by a deeper row
exactly when it is open and has children. -/
theorem FlatOf.status (lib : Library) (hsort : SortPerm lib) (currentSort : SortInfo)
    {opens : TreeLine → Bool → Prop} {siblings rows : List TreeLine}
    (h : FlatOf (childrenOf lib currentSort) opens siblings rows) :
    ∀ (L : Nat) (tail : List TreeLine), (∀ s ∈ siblings, s.level = L) →
      (∀ t, tail.head? = some t → t.level ≤ L) →
      ∀ (i : Nat) (line : TreeLine), rows[i]? = some line →
        (followedByDeeper (rows ++ tail) i →
            opens line true ∧ childrenOf lib currentSort line ≠ [])
          ∧ (¬ followedByDeeper (rows ++ tail) i →
            opens line false ∨ childrenOf lib currentSort line = []) := by
  induction h with
  | nil =>
    intro L tail _ _ i line hi
    simp at hi
  | @closed line0 sibs rows0 hop hrest ih =>
    intro L tail hlevel htail i line hi
    have hlevel2 : ∀ s ∈ sibs, s.level = L := fun s hs => hlevel s (List.mem_cons_of_mem _ hs)
    cases i with
    | zero =>
      simp only [List.getElem?_cons_zero, Option.some.injEq] at hi
      subst hi
      have hnot : ¬ followedByDeeper (line0 :: rows0 ++ tail) 0 := by
        rw [List.cons_append, followedByDeeper_zero]
        rintro ⟨next, hn, hlt⟩
        have := FlatOf.head_level hrest L tail hlevel2 htail next hn
        have := hlevel line0 (List.mem_cons_self _ _)
        omega
      exact ⟨fun hd => absurd hd hnot, fun _ => Or.inl hop⟩
    | succ j =>
      simp only [List.getElem?_cons_succ] at hi
      rw [List.cons_append, followedByDeeper_succ]
      exact ih L tail hlevel2 htail j line hi
  | @opened line0 sibs below rows0 hop hbelow hrest ihb ihr =>
    intro L tail hlevel htail i line hi
    have hlevel2 : ∀ s ∈ sibs, s.level = L := fun s hs => hlevel s (List.mem_cons_of_mem _ hs)
    have hL0 : line0.level = L := hlevel line0 (List.mem_cons_self _ _)
    have hchild : ∀ c ∈ childrenOf lib currentSort line0, c.level = L + 1 := by
      intro c hc
      rw [childrenOf_level lib hsort currentSort line0 c hc, hL0]
    have hrestHead := FlatOf.head_level hrest L tail hlevel2 htail
    cases i with
    | zero =>
      simp only [List.getElem?_cons_zero, Option.some.injEq] at hi
      subst hi
      rw [List.cons_append, followedByDeeper_zero]
      cases hch : childrenOf lib currentSort line0 with
      | nil =>
        rw [hch] at hbelow
        have hb := FlatOf.eq_nil_of_nil hbelow
        subst hb
        refine ⟨?_, fun _ => Or.inr rfl⟩
        rintro ⟨next, hn, hlt⟩
        have := hrestHead next (by simpa using hn)
        omega
      | cons c cs =>
        refine ⟨fun _ => ⟨hop, by simp⟩, ?_⟩
        intro hnot
        exfalso
        apply hnot
        rw [hch] at hbelow
        have hh := FlatOf.head hbelow
        cases below with
        | nil => simp at hh
        | cons b bs =>
          simp only [List.head?_cons, Option.some.injEq] at hh
          refine ⟨b, by simp, ?_⟩
          rw [hh, hchild c (by rw [hch]; exact List.mem_cons_self _ _)]
          omega
    | succ j =>
      simp only [List.getElem?_cons_succ] at hi
      rw [List.cons_append, followedByDeeper_succ, List.append_assoc]
      by_cases hj : j < below.length
      · rw [List.getElem?_append_left hj] at hi
        have htail2 : ∀ t, (rows0 ++ tail).head? = some t → t.level ≤ L + 1 := by
          intro t ht
          have := hrestHead t ht
          omega
        exact ihb (L + 1) (rows0 ++ tail) hchild htail2 j line hi
      · have hj2 : below.length ≤ j := by omega
        rw [List.getElem?_append_right hj2] at hi
        have e : j = below.length + (j - below.length) := by omega
        rw [e, followedByDeeper_append]
        exact ihr L tail hlevel2 htail (j - below.length) line hi

theorem getStatus_expanded_iff (tv : TreeView) (row : Nat) :
    getStatus tv row = .expanded ↔ followedByDeeper tv.flatTree row := by
  unfold getStatus followedByDeeper
  cases hrow : tv.flatTree[row]? with
  | none => simp
  | some line =>
    cases hnext : tv.flatTree[row + 1]? with
    | none =>
      simp only [Bool.false_eq_true, if_false]
      constructor
      · intro h
        exfalso
        cases ht : line.type <;> simp only [ht] at h
        · split at h <;> exact NodeStatus.noConfusion h
        · split at h <;> exact NodeStatus.noConfusion h
        · exact NodeStatus.noConfusion h
      · rintro ⟨_, next, _, h1, _⟩
        exact Option.noConfusion h1
    | some next =>
      by_cases hlv : next.level > line.level
      · simp only [hlv, decide_True, if_true, true_iff]
        exact ⟨line, next, rfl, rfl, hlv⟩
      · simp only [hlv, decide_False, Bool.false_eq_true, if_false]
        constructor
        · intro h
          exfalso
          cases ht : line.type <;> simp only [ht] at h
          · split at h <;> exact NodeStatus.noConfusion h
          · split at h <;> exact NodeStatus.noConfusion h
          · exact NodeStatus.noConfusion h
        · rintro ⟨l2, n2, h0, h1, hlt⟩
          cases h0
          cases h1
          exact absurd hlt hlv

theorem followedByDeeper_two (x y : TreeLine) (rest : List TreeLine) :
    followedByDeeper (x :: y :: rest) 0 ↔ x.level < y.level := by
  rw [followedByDeeper_zero]
  constructor
  · rintro ⟨next, hn, hlt⟩
    simp only [List.head?_cons, Option.some.injEq] at hn
    rw [hn]
    exact hlt
  · intro h
    exact ⟨y, rfl, h⟩

/-- The set `expandedNodes` holds exactly the identities of the rows that are
followed by a deeper row. -/
theorem mem_expandedNodes (lib : Library) (hierObj : HierAlias) :
    ∀ flatTree : List TreeLine,
      hierObj ∈ expandedNodes lib flatTree
        ↔ ∃ row line, flatTree[row]? = some line ∧ followedByDeeper flatTree row
            ∧ getHierAlias lib line = some hierObj
  | [] => by
    simp [expandedNodes]
  | [x] => by
    simp only [expandedNodes, List.not_mem_nil, false_iff]
    rintro ⟨row, line, _, ⟨_, next, _, h1, _⟩, _⟩
    simp at h1
  | x :: y :: rest => by
    have ih := mem_expandedNodes lib hierObj (y :: rest)
    rw [expandedNodes, List.mem_append, ih]
    constructor
    · rintro (h | ⟨row, line, hrow, hd, ha⟩)
      · by_cases hlt : x.level < y.level
        · rw [if_pos hlt] at h
          refine ⟨0, x, rfl, (followedByDeeper_two x y rest).mpr hlt, ?_⟩
          cases hx : getHierAlias lib x with
          | none => rw [hx] at h; simp at h
          | some a =>
            rw [hx] at h
            simp only [Option.toList_some, List.mem_singleton] at h
            rw [h]
        · rw [if_neg hlt] at h
          simp at h
      · exact ⟨row + 1, line, by simpa using hrow,
          (followedByDeeper_succ x (y :: rest) row).mpr hd, ha⟩
    · rintro ⟨row, line, hrow, hd, ha⟩
      cases row with
      | zero =>
        left
        simp only [List.getElem?_cons_zero, Option.some.injEq] at hrow
        subst hrow
        rw [if_pos ((followedByDeeper_two x y rest).mp hd), ha]
        simp
      | succ j =>
        right
        exact ⟨j, line, by simpa using hrow,
          (followedByDeeper_succ x (y :: rest) j).mp hd, ha⟩

theorem isRestored_iff (lib : Library) (expanded : List HierAlias) (line : TreeLine) :
    isRestored lib expanded line = true
      ↔ ∃ hierObj, getHierAlias lib line = some hierObj ∧ hierObj ∈ expanded := by
  unfold isRestored
  cases getHierAlias lib line with
  | none => simp
  | some a => simp

theorem childrenOf_ne_nil_iff (lib : Library) (hsort : SortPerm lib) (currentSort : SortInfo)
    (line : TreeLine) :
    childrenOf lib currentSort line ≠ []
      ↔ (line.node.cont.subDirs ≠ [] ∨ line.node.cont.firstFileId.isSome = true) := by
  have hlen := (getChildren_shape lib hsort currentSort line.node (line.level + 1)).2.1
  unfold childrenOf
  rw [← List.length_pos, hlen]
  cases hs : line.node.cont.subDirs with
  | nil => cases hf : line.node.cont.firstFileId.isSome <;> simp
  | cons d ds => simp

theorem defaultFlatTree_perm (lib : Library) (hsort : SortPerm lib)
    (folderCmp : List BaseFolderPair) (currentSort : SortInfo) (view : List RootNodeImpl)
    (hmany : folderCmp.length ≠ 1) :
    List.Perm (defaultFlatTree lib folderCmp currentSort view)
      (assignPercentages lib (view.map (fun root => rootRow root 0))
        (view.map (fun root => root.bytesGross))) := by
  unfold defaultFlatTree
  rw [if_neg hmany]
  simp only []
  cases currentSort.ascending <;> exact sortSingleLevel_perm lib hsort _ _ _

theorem defaultFlatTree_single (lib : Library) (folderCmp : List BaseFolderPair)
    (currentSort : SortInfo) (root : RootNodeImpl) (rest : List RootNodeImpl)
    (hone : folderCmp.length = 1) :
    defaultFlatTree lib folderCmp currentSort (root :: rest)
      = getChildren lib currentSort (NodePtr.root root) 0 := by
  unfold defaultFlatTree
  rw [if_pos hone]

theorem defaultFlatTree_empty (lib : Library) (folderCmp : List BaseFolderPair)
    (currentSort : SortInfo) (hone : folderCmp.length = 1) :
    defaultFlatTree lib folderCmp currentSort [] = [] := by
  unfold defaultFlatTree
  rw [if_pos hone]

theorem defaultFlatTree_level (lib : Library) (hsort : SortPerm lib)
    (folderCmp : List BaseFolderPair) (currentSort : SortInfo) (view : List RootNodeImpl) :
    ∀ r ∈ defaultFlatTree lib folderCmp currentSort view, r.level = 0 := by
  intro r hr
  by_cases hone : folderCmp.length = 1
  · cases view with
    | nil =>
      rw [defaultFlatTree_empty lib folderCmp currentSort hone] at hr
      simp at hr
    | cons root rest =>
      rw [defaultFlatTree_single lib folderCmp currentSort root rest hone] at hr
      exact (getChildren_shape lib hsort currentSort (NodePtr.root root) 0).2.2 r hr
  · have hr2 := (List.Perm.mem_iff
      (defaultFlatTree_perm lib hsort folderCmp currentSort view hone)).mp hr
    have hm : (r.level, r.node, r.type)
        ∈ (assignPercentages lib (view.map (fun root => rootRow root 0))
            (view.map (fun root => root.bytesGross))).map
          (fun r => (r.level, r.node, r.type)) := List.mem_map.mpr ⟨r, hr2, rfl⟩
    unfold assignPercentages at hm
    rw [storePercent_shape, List.map_map] at hm
    obtain ⟨root, _, hroot⟩ := List.mem_map.mp hm
    exact (congrArg Prod.fst hroot).symm

theorem shareView_row_zero_reduced : getStatus shareView 0 = .reduced := by
  decide

theorem expandNode_splices_children_witness :
    getStatus shareView 0 = .reduced
      ∧ ∃ line, shareView.flatTree[0]? = some line
          ∧ (expandNode (referenceLibrary shareCmp) shareView 0).flatTree
            = shareView.flatTree.take (0 + 1)
                ++ getChildren (referenceLibrary shareCmp) shareView.currentSort line.node
                    (line.level + 1)
                ++ shareView.flatTree.drop (0 + 1)
          ∧ (expandNode (referenceLibrary shareCmp) shareView 0).folderCmpView
            = shareView.folderCmpView
          ∧ (expandNode (referenceLibrary shareCmp) shareView 0).currentSort
            = shareView.currentSort
          ∧ (expandNode (referenceLibrary shareCmp) shareView 0).folderCmp
            = shareView.folderCmp :=
  ⟨shareView_row_zero_reduced,
    expandNode_splices_children (referenceLibrary shareCmp) shareView 0
      shareView_row_zero_reduced⟩

theorem expandNode_noop_witness :
    (getStatus shareView 5 ≠ .reduced ∨ shareView.flatTree.length ≤ 5
        ∨ ∃ line, shareView.flatTree[5]? = some line ∧ line.type = NodeType.files)
      ∧ expandNode (referenceLibrary shareCmp) shareView 5 = shareView :=
  ⟨Or.inr (Or.inl (by decide)),
    expandNode_noop (referenceLibrary shareCmp) shareView 5 (Or.inr (Or.inl (by decide)))⟩

theorem expand_then_reduce_witness :
    SortPerm (referenceLibrary shareCmp)
      ∧ getStatus shareView 0 = .reduced
      ∧ reduceNode (expandNode (referenceLibrary shareCmp) shareView 0) 0 = shareView :=
  ⟨referenceLibrary_sortPerm shareCmp, shareView_row_zero_reduced,
    expand_then_reduce (referenceLibrary shareCmp) (referenceLibrary_sortPerm shareCmp)
      shareView 0 shareView_row_zero_reduced⟩

/-- The rows of the example view before and after expanding its only row, and
after rebuilding it with the same forest: the expansion is restored. -/
theorem shareView_expansion_example :
    shareView.flatTree.map (fun r => (r.level, r.type, r.percent)) = [(0, NodeType.root, 100)]
      ∧ (expandNode (referenceLibrary shareCmp) shareView 0).flatTree.map
          (fun r => (r.level, r.type, r.percent))
        = [(0, NodeType.root, 100), (1, NodeType.folder, 60), (1, NodeType.folder, 40)]
      ∧ (setSortDirection (referenceLibrary shareCmp)
            (expandNode (referenceLibrary shareCmp) shareView 0) ColumnTypeTree.bytes true).flatTree.map
          (fun r => (r.level, r.type, r.percent))
        = [(0, NodeType.root, 100), (1, NodeType.folder, 40), (1, NodeType.folder, 60)] := by
  decide

/-! ## Theorems: the layout of the flat rows in every reachable view -/

theorem FlatOf.mono {children : TreeLine → List TreeLine} {o1 o2 : TreeLine → Bool → Prop}
    (hmono : ∀ l b, o1 l b → o2 l b) {siblings rows : List TreeLine}
    (h : FlatOf children o1 siblings rows) : FlatOf children o2 siblings rows := by
  induction h with
  | nil => exact FlatOf.nil
  | closed hop _ ih => exact FlatOf.closed (hmono _ _ hop) ih
  | opened hop _ _ ihb ihr => exact FlatOf.opened (hmono _ _ hop) ihb ihr

theorem FlatOf.all_closed {children : TreeLine → List TreeLine}
    {opens : TreeLine → Bool → Prop} (hclosed : ∀ l, opens l false) (l : List TreeLine) :
    FlatOf children opens l l := by
  induction l with
  | nil => exact FlatOf.nil
  | cons x xs ih => exact FlatOf.closed (hclosed x) ih

theorem mayOpen_false (line : TreeLine) : mayOpen line false := by
  intro h
  exact Bool.noConfusion h

/-- Every row of a layout is at least as deep as the shallowest sibling. -/
theorem FlatOf.level_ge (lib : Library) (hsort : SortPerm lib) (currentSort : SortInfo)
    {opens : TreeLine → Bool → Prop} {siblings rows : List TreeLine}
    (h : FlatOf (childrenOf lib currentSort) opens siblings rows) :
    ∀ L, (∀ s ∈ siblings, L ≤ s.level) → ∀ r ∈ rows, L ≤ r.level := by
  induction h with
  | nil =>
    intro L _ r hr
    simp at hr
  | @closed line0 sibs rows0 _ _ ih =>
    intro L hL r hr
    rcases List.mem_cons.mp hr with rfl | hr
    · exact hL _ (List.mem_cons_self _ _)
    · exact ih L (fun s hs => hL s (List.mem_cons_of_mem _ hs)) r hr
  | @opened line0 sibs below rows0 _ _ _ ihb ihr =>
    intro L hL r hr
    have h0 := hL line0 (List.mem_cons_self _ _)
    rcases List.mem_cons.mp hr with rfl | hr
    · exact h0
    · rcases List.mem_append.mp hr with hr | hr
      · apply ihb L _ r hr
        intro c hc
        rw [childrenOf_level lib hsort currentSort line0 c hc]
        omega
      · exact ihr L (fun s hs => hL s (List.mem_cons_of_mem _ hs)) r hr

/-- Expanding a row that is not followed by a deeper row keeps a layout a layout:
the row becomes open, its children are closed. -/
theorem FlatOf.expand (lib : Library) (hsort : SortPerm lib) (currentSort : SortInfo)
    {opens : TreeLine → Bool → Prop} (hclosed : ∀ l, opens l false)
    {siblings rows : List TreeLine}
    (h : FlatOf (childrenOf lib currentSort) opens siblings rows) :
    ∀ (L : Nat) (tail : List TreeLine), (∀ s ∈ siblings, s.level = L) →
      (∀ t, tail.head? = some t → t.level ≤ L) →
      ∀ (i : Nat) (line : TreeLine), rows[i]? = some line →
        ¬ followedByDeeper (rows ++ tail) i → opens line true →
          FlatOf (childrenOf lib currentSort) opens siblings
            (rows.take (i + 1) ++ childrenOf lib currentSort line ++ rows.drop (i + 1)) := by
  induction h with
  | nil =>
    intro L tail _ _ i line hi
    simp at hi
  | @closed line0 sibs rows0 hop hrest ih =>
    intro L tail hlevel htail i line hi hnot hopen
    have hlevel2 : ∀ s ∈ sibs, s.level = L := fun s hs => hlevel s (List.mem_cons_of_mem _ hs)
    cases i with
    | zero =>
      simp only [List.getElem?_cons_zero, Option.some.injEq] at hi
      subst hi
      have e : (line0 :: rows0).take (0 + 1) ++ childrenOf lib currentSort line0
          ++ (line0 :: rows0).drop (0 + 1)
          = line0 :: (childrenOf lib currentSort line0 ++ rows0) := by simp
      rw [e]
      exact FlatOf.opened hopen (FlatOf.all_closed hclosed _) hrest
    | succ j =>
      simp only [List.getElem?_cons_succ] at hi
      rw [List.cons_append, followedByDeeper_succ] at hnot
      have e : (line0 :: rows0).take (j + 1 + 1) ++ childrenOf lib currentSort line
          ++ (line0 :: rows0).drop (j + 1 + 1)
          = line0 :: (rows0.take (j + 1) ++ childrenOf lib currentSort line
              ++ rows0.drop (j + 1)) := by simp
      rw [e]
      exact FlatOf.closed hop (ih L tail hlevel2 htail j line hi hnot hopen)
  | @opened line0 sibs below rows0 hop hbelow hrest ihb ihr =>
    intro L tail hlevel htail i line hi hnot hopen
    have hlevel2 : ∀ s ∈ sibs, s.level = L := fun s hs => hlevel s (List.mem_cons_of_mem _ hs)
    have hL0 : line0.level = L := hlevel line0 (List.mem_cons_self _ _)
    have hchild : ∀ c ∈ childrenOf lib currentSort line0, c.level = L + 1 := by
      intro c hc
      rw [childrenOf_level lib hsort currentSort line0 c hc, hL0]
    have hrestHead := FlatOf.head_level hrest L tail hlevel2 htail
    cases i with
    | zero =>
      simp only [List.getElem?_cons_zero, Option.some.injEq] at hi
      subst hi
      have hnil : childrenOf lib currentSort line0 = [] := by
        by_contra hne
        apply hnot
        rw [List.cons_append, followedByDeeper_zero]
        cases hch : childrenOf lib currentSort line0 with
        | nil => exact absurd hch hne
        | cons c cs =>
          rw [hch] at hbelow
          have hh := FlatOf.head hbelow
          cases below with
          | nil => simp at hh
          | cons b bs =>
            simp only [List.head?_cons, Option.some.injEq] at hh
            refine ⟨b, by simp, ?_⟩
            rw [hh, hchild c (by rw [hch]; exact List.mem_cons_self _ _)]
            omega
      have e : (line0 :: (below ++ rows0)).take (0 + 1) ++ childrenOf lib currentSort line0
          ++ (line0 :: (below ++ rows0)).drop (0 + 1) = line0 :: (below ++ rows0) := by
        rw [hnil]
        simp
      rw [e]
      exact FlatOf.opened hop hbelow hrest
    | succ j =>
      simp only [List.getElem?_cons_succ] at hi
      rw [List.cons_append, followedByDeeper_succ, List.append_assoc] at hnot
      by_cases hj : j < below.length
      · rw [List.getElem?_append_left hj] at hi
        have htail2 : ∀ t, (rows0 ++ tail).head? = some t → t.level ≤ L + 1 := by
          intro t ht
          have := hrestHead t ht
          omega
        have hb := ihb (L + 1) (rows0 ++ tail) hchild htail2 j line hi hnot hopen
        have e : (line0 :: (below ++ rows0)).take (j + 1 + 1) ++ childrenOf lib currentSort line
            ++ (line0 :: (below ++ rows0)).drop (j + 1 + 1)
            = line0 :: ((below.take (j + 1) ++ childrenOf lib currentSort line
                ++ below.drop (j + 1)) ++ rows0) := by
          simp only [List.take_succ_cons, List.drop_succ_cons, List.cons_append]
          rw [List.take_append_of_le_length (by omega),
            List.drop_append_of_le_length (by omega)]
          simp [List.append_assoc]
        rw [e]
        exact FlatOf.opened hop hb hrest
      · have hj2 : below.length ≤ j := by omega
        rw [List.getElem?_append_right hj2] at hi
        have ej : j = below.length + (j - below.length) := by omega
        rw [ej, followedByDeeper_append] at hnot
        have hr := ihr L tail hlevel2 htail (j - below.length) line hi hnot hopen
        have e : (line0 :: (below ++ rows0)).take (j + 1 + 1) ++ childrenOf lib currentSort line
            ++ (line0 :: (below ++ rows0)).drop (j + 1 + 1)
            = line0 :: (below ++ (rows0.take (j - below.length + 1)
                ++ childrenOf lib currentSort line ++ rows0.drop (j - below.length + 1))) := by
          simp only [List.take_succ_cons, List.drop_succ_cons, List.cons_append]
          have e1 : j + 1 = below.length + (j - below.length + 1) := by omega
          rw [e1, List.take_append, List.drop_append]
          simp [List.append_assoc]
        rw [e]
        exact FlatOf.opened hop hbelow hr

theorem dropWhile_append_of_all {α : Type} (p : α → Bool) (a b : List α)
    (h : ∀ x ∈ a, p x = true) : (a ++ b).dropWhile p = b.dropWhile p := by
  induction a with
  | nil => rfl
  | cons x xs ih =>
    have hx := h x (List.mem_cons_self _ _)
    simp only [List.cons_append, List.dropWhile_cons, hx, if_true]
    exact ih (fun y hy => h y (List.mem_cons_of_mem _ hy))

/-- Reducing a row keeps a layout a layout: the row becomes closed, the rows of
its children go. -/
theorem FlatOf.reduce (lib : Library) (hsort : SortPerm lib) (currentSort : SortInfo)
    {opens : TreeLine → Bool → Prop} (hclosed : ∀ l, opens l false)
    {siblings rows : List TreeLine}
    (h : FlatOf (childrenOf lib currentSort) opens siblings rows) :
    ∀ (L : Nat) (tail : List TreeLine), (∀ s ∈ siblings, s.level = L) →
      (∀ t, tail.head? = some t → t.level ≤ L) →
      ∀ (i : Nat) (line : TreeLine), rows[i]? = some line →
        ∃ rows2, FlatOf (childrenOf lib currentSort) opens siblings rows2
          ∧ (rows ++ tail).take (i + 1)
              ++ ((rows ++ tail).drop (i + 1)).dropWhile (fun r => decide (r.level > line.level))
            = rows2 ++ tail := by
  induction h with
  | nil =>
    intro L tail _ _ i line hi
    simp at hi
  | @closed line0 sibs rows0 hop hrest ih =>
    intro L tail hlevel htail i line hi
    have hlevel2 : ∀ s ∈ sibs, s.level = L := fun s hs => hlevel s (List.mem_cons_of_mem _ hs)
    have hL0 : line0.level = L := hlevel line0 (List.mem_cons_self _ _)
    have hrestHead := FlatOf.head_level hrest L tail hlevel2 htail
    cases i with
    | zero =>
      simp only [List.getElem?_cons_zero, Option.some.injEq] at hi
      subst hi
      refine ⟨line0 :: rows0, FlatOf.closed hop hrest, ?_⟩
      simp only [List.cons_append, Nat.zero_add, List.take_succ_cons, List.take_zero,
        List.drop_succ_cons, List.drop_zero, List.nil_append]
      rw [dropWhile_eq_self_of_head]
      intro a ha
      have := hrestHead a ha
      simp only [decide_eq_false_iff_not, not_lt, ge_iff_le, gt_iff_lt]
      omega
    | succ j =>
      simp only [List.getElem?_cons_succ] at hi
      obtain ⟨rows2, hflat, heq⟩ := ih L tail hlevel2 htail j line hi
      refine ⟨line0 :: rows2, FlatOf.closed hop hflat, ?_⟩
      simp only [List.cons_append, List.take_succ_cons, List.drop_succ_cons]
      rw [heq]
  | @opened line0 sibs below rows0 hop hbelow hrest ihb ihr =>
    intro L tail hlevel htail i line hi
    have hlevel2 : ∀ s ∈ sibs, s.level = L := fun s hs => hlevel s (List.mem_cons_of_mem _ hs)
    have hL0 : line0.level = L := hlevel line0 (List.mem_cons_self _ _)
    have hchild : ∀ c ∈ childrenOf lib currentSort line0, c.level = L + 1 := by
      intro c hc
      rw [childrenOf_level lib hsort currentSort line0 c hc, hL0]
    have hrestHead := FlatOf.head_level hrest L tail hlevel2 htail
    cases i with
    | zero =>
      simp only [List.getElem?_cons_zero, Option.some.injEq] at hi
      subst hi
      refine ⟨line0 :: rows0, FlatOf.closed (hclosed line0) hrest, ?_⟩
      simp only [List.cons_append, Nat.zero_add, List.take_succ_cons, List.take_zero,
        List.drop_succ_cons, List.drop_zero, List.nil_append, List.append_assoc]
      rw [dropWhile_append_of_all, dropWhile_eq_self_of_head]
      · intro a ha
        have := hrestHead a ha
        simp only [decide_eq_false_iff_not, not_lt, ge_iff_le, gt_iff_lt]
        omega
      · intro x hx
        have := FlatOf.level_ge lib hsort currentSort hbelow (L + 1)
          (fun c hc => Nat.le_of_eq (hchild c hc).symm) x hx
        simp only [decide_eq_true_eq, gt_iff_lt]
        omega
    | succ j =>
      simp only [List.getElem?_cons_succ] at hi
      by_cases hj : j < below.length
      · rw [List.getElem?_append_left hj] at hi
        have htail2 : ∀ t, (rows0 ++ tail).head? = some t → t.level ≤ L + 1 := by
          intro t ht
          have := hrestHead t ht
          omega
        obtain ⟨below2, hflat, heq⟩ := ihb (L + 1) (rows0 ++ tail) hchild htail2 j line hi
        refine ⟨line0 :: (below2 ++ rows0), FlatOf.opened hop hflat hrest, ?_⟩
        simp only [List.cons_append, List.take_succ_cons, List.drop_succ_cons,
          List.append_assoc]
        rw [heq]
      · have hj2 : below.length ≤ j := by omega
        rw [List.getElem?_append_right hj2] at hi
        obtain ⟨rows2, hflat, heq⟩ := ihr L tail hlevel2 htail (j - below.length) line hi
        refine ⟨line0 :: (below ++ rows2), FlatOf.opened hop hbelow hflat, ?_⟩
        simp only [List.cons_append, List.take_succ_cons, List.drop_succ_cons,
          List.append_assoc]
        have e1 : j + 1 = below.length + (j - below.length + 1) := by omega
        rw [e1, List.take_append, List.drop_append, List.append_assoc, heq]

theorem isRestored_mayOpen (lib : Library) (expanded : List HierAlias) (l : TreeLine)
    (b : Bool) (hb : isRestored lib expanded l = b) : mayOpen l b := by
  intro hbt
  exact isRestored_type lib expanded l (hb.trans hbt)

theorem defaultFlatTree_nil (lib : Library) (hsort : SortPerm lib)
    (folderCmp : List BaseFolderPair) (currentSort : SortInfo) :
    defaultFlatTree lib folderCmp currentSort [] = [] := by
  by_cases hone : folderCmp.length = 1
  · exact defaultFlatTree_empty lib folderCmp currentSort hone
  · have hp := defaultFlatTree_perm lib hsort folderCmp currentSort [] hone
    have hlen := List.Perm.length_eq hp
    unfold assignPercentages at hlen
    rw [storePercent_length] at hlen
    exact List.length_eq_zero.mp (by simpa using hlen)

/-- In every reachable view the root pairs are the ones the constructor kept, the
forest is empty or the one `updateView` built from them, and the flat rows are a
layout of the top-level rows in which files rows are closed. -/
theorem Reachable.layout (lib : Library) (hsort : SortPerm lib) (isNullPath : String → Bool)
    (folderCmp : List BaseFolderPair) {tv : TreeView}
    (h : Reachable lib isNullPath folderCmp tv) :
    tv.folderCmp
        = folderCmp.filter
            (fun baseObj => !(isNullPath baseObj.leftPath && isNullPath baseObj.rightPath))
      ∧ (tv.folderCmpView = []
          ∨ ∃ pred, tv.folderCmpView
              = updateViewForest lib.getShortDisplayNameForFolderPair tv.folderCmp pred)
      ∧ FlatOf (childrenOf lib tv.currentSort) mayOpen
          (defaultFlatTree lib tv.folderCmp tv.currentSort tv.folderCmpView) tv.flatTree := by
  induction h with
  | constructed currentSort =>
    refine ⟨rfl, Or.inl rfl, ?_⟩
    simp only [TreeView.construct, initialView]
    rw [defaultFlatTree_nil lib hsort]
    exact FlatOf.nil
  | @afterUpdateView tv pred _ ih =>
    obtain ⟨h1, _, _⟩ := ih
    refine ⟨h1, Or.inr ⟨pred, rfl⟩, ?_⟩
    have hflat := applySubView_flat lib hsort { tv with lastViewFilterPred := pred }
      (updateViewForest lib.getShortDisplayNameForFolderPair tv.folderCmp pred)
    exact FlatOf.mono (isRestored_mayOpen lib _) hflat
  | @afterSetSortDirection tv colType ascending _ ih =>
    obtain ⟨h1, h2, _⟩ := ih
    refine ⟨h1, h2, ?_⟩
    have hflat := applySubView_flat lib hsort
      { tv with currentSort := { sortCol := colType, ascending := ascending } } tv.folderCmpView
    exact FlatOf.mono (isRestored_mayOpen lib _) hflat
  | @afterExpandNode tv row _ ih =>
    obtain ⟨h1, h2, h3⟩ := ih
    by_cases hst : getStatus tv row = .reduced
    · obtain ⟨line, hrow, htype, _, _⟩ := getStatus_reduced tv row hst
      rw [expandNode_of_reduced lib tv row line hst hrow]
      refine ⟨h1, h2, ?_⟩
      have hnot : ¬ followedByDeeper (tv.flatTree ++ []) row := by
        rw [List.append_nil, ← getStatus_expanded_iff, hst]
        intro hc
        exact NodeStatus.noConfusion hc
      exact FlatOf.expand lib hsort tv.currentSort mayOpen_false h3 0 []
        (defaultFlatTree_level lib hsort tv.folderCmp tv.currentSort tv.folderCmpView)
        (by intro t ht; simp at ht) row line hrow hnot (fun _ => htype)
    · have e : expandNode lib tv row = tv := by
        unfold expandNode
        rw [if_pos hst]
      rw [e]
      exact ⟨h1, h2, h3⟩
  | @afterReduceNode tv row _ ih =>
    obtain ⟨h1, h2, h3⟩ := ih
    cases hrow : tv.flatTree[row]? with
    | none =>
      have e : reduceNode tv row = tv := by
        unfold reduceNode
        rw [hrow]
      rw [e]
      exact ⟨h1, h2, h3⟩
    | some line =>
      have e : reduceNode tv row
          = { tv with
              flatTree := tv.flatTree.take (row + 1)
                ++ removeDeeper line.level false (tv.flatTree.drop (row + 1)) } := by
        unfold reduceNode
        rw [hrow]
      rw [e]
      refine ⟨h1, h2, ?_⟩
      obtain ⟨rows2, hflat, heq⟩ := FlatOf.reduce lib hsort tv.currentSort mayOpen_false h3 0 []
        (defaultFlatTree_level lib hsort tv.folderCmp tv.currentSort tv.folderCmpView)
        (by intro t ht; simp at ht) row line hrow
      simp only [List.append_nil] at heq
      simp only [removeDeeper_eq_dropWhile]
      rw [heq]
      exact hflat

/-- Two layouts with the same open rows, of sibling lists that are rearrangements
of each other, with children that are rearrangements of each other, are
rearrangements of each other. -/
theorem FlatOf.perm_of_perm {c1 c2 : TreeLine → List TreeLine} (f : TreeLine → Bool)
    (hc : ∀ l, List.Perm (c1 l) (c2 l)) {s1 r1 : List TreeLine}
    (h1 : FlatOf c1 (fun l b => f l = b) s1 r1) :
    ∀ s2 r2, List.Perm s1 s2 → FlatOf c2 (fun l b => f l = b) s2 r2 → List.Perm r1 r2 := by
  induction h1 with
  | nil =>
    intro s2 r2 hp h2
    have e : s2 = [] := List.Perm.eq_nil hp.symm
    subst e
    rw [FlatOf.eq_nil_of_nil h2]
  | @closed line sibs rows0 hop hrest ih =>
    intro s2 r2 hp h2
    have hmem : line ∈ s2 := (List.Perm.mem_iff hp).mp (List.mem_cons_self _ _)
    obtain ⟨a, b, rfl⟩ := List.append_of_mem hmem
    obtain ⟨o1, o2, rfl, ha, hb⟩ := FlatOf.split a h2
    have hsibs : List.Perm sibs (a ++ b) := (hp.trans List.perm_middle).cons_inv
    cases hb with
    | closed hop2 hrest2 =>
      have := ih (a ++ b) _ hsibs (FlatOf.append ha hrest2)
      exact (List.Perm.cons line this).trans List.perm_middle.symm
    | opened hop2 hbelow2 hrest2 =>
      simp only at hop hop2
      rw [hop] at hop2
      exact Bool.noConfusion hop2
  | @opened line sibs below rows0 hop hbelow hrest ihb ihr =>
    intro s2 r2 hp h2
    have hmem : line ∈ s2 := (List.Perm.mem_iff hp).mp (List.mem_cons_self _ _)
    obtain ⟨a, b, rfl⟩ := List.append_of_mem hmem
    obtain ⟨o1, o2, rfl, ha, hb⟩ := FlatOf.split a h2
    have hsibs : List.Perm sibs (a ++ b) := (hp.trans List.perm_middle).cons_inv
    cases hb with
    | closed hop2 hrest2 =>
      simp only at hop hop2
      rw [hop] at hop2
      exact Bool.noConfusion hop2
    | @opened _ _ below2 rows2 hop2 hbelow2 hrest2 =>
      have hbl := ihb _ _ (hc line) hbelow2
      have hrs := ihr (a ++ b) _ hsibs (FlatOf.append ha hrest2)
      have h3 : List.Perm (below ++ rows0) (o1 ++ (below2 ++ rows2)) :=
        (List.Perm.append hbl hrs).trans (List.perm_append_comm_assoc _ _ _)
      exact (List.Perm.cons line h3).trans List.perm_middle.symm

theorem filterMap_nodup_index {α β : Type} (f : α → Option β) :
    ∀ (l : List α), (l.filterMap f).Nodup →
      ∀ (i j : Nat) (x y : α) (b : β), l[i]? = some x → l[j]? = some y →
        f x = some b → f y = some b → i = j := by
  intro l
  induction l with
  | nil =>
    intro _ i j x y b hi
    simp at hi
  | cons a as ih =>
    intro hnd i j x y b hi hj hx hy
    have hnd2 : (as.filterMap f).Nodup := by
      cases hfa : f a with
      | none =>
        rw [List.filterMap_cons_none hfa] at hnd
        exact hnd
      | some c =>
        rw [List.filterMap_cons_some hfa] at hnd
        exact (List.nodup_cons.mp hnd).2
    have hcross : ∀ (k : Nat) (z : α), f a = some b → as[k]? = some z → f z = some b → False := by
      intro k z hfa hk hz
      rw [List.filterMap_cons_some hfa] at hnd
      apply (List.nodup_cons.mp hnd).1
      exact List.mem_filterMap.mpr ⟨z, List.getElem?_mem hk, hz⟩
    cases i with
    | zero =>
      cases j with
      | zero => rfl
      | succ j =>
        simp only [List.getElem?_cons_zero, Option.some.injEq] at hi
        simp only [List.getElem?_cons_succ] at hj
        subst hi
        exact absurd (hcross j y hx hj hy) id
    | succ i =>
      cases j with
      | zero =>
        simp only [List.getElem?_cons_zero, Option.some.injEq] at hj
        simp only [List.getElem?_cons_succ] at hi
        subst hj
        exact absurd (hcross i x hy hi hx) id
      | succ j =>
        simp only [List.getElem?_cons_succ] at hi hj
        rw [ih hnd2 i j x y b hi hj hx hy]

/-- In a flat list whose rows have distinct identities and whose open rows all have
an identity, a layout is the layout in which exactly the rows restored from the
identities of its own open rows are open. -/
theorem FlatOf.by_identity (lib : Library) (hsort : SortPerm lib) (currentSort : SortInfo)
    (flat : List TreeLine) (hnodup : (flat.filterMap (getHierAlias lib)).Nodup)
    (hres : ∀ row line, flat[row]? = some line → followedByDeeper flat row →
      (getHierAlias lib line).isSome = true)
    {opens : TreeLine → Bool → Prop} {siblings rows : List TreeLine}
    (h : FlatOf (childrenOf lib currentSort) opens siblings rows) :
    ∀ (L : Nat) (pre tail : List TreeLine), flat = pre ++ (rows ++ tail) →
      (∀ s ∈ siblings, s.level = L) → (∀ t, tail.head? = some t → t.level ≤ L) →
      FlatOf (childrenOf lib currentSort)
        (fun l b => isRestored lib (expandedNodes lib flat) l = b) siblings rows := by
  have hkey : ∀ (pre rest : List TreeLine) (line : TreeLine), flat = pre ++ (line :: rest) →
      isRestored lib (expandedNodes lib flat) line = true → followedByDeeper (line :: rest) 0 := by
    intro pre rest line hflat hr
    obtain ⟨a, ha, hmem⟩ := (isRestored_iff lib _ line).mp hr
    obtain ⟨r, l2, hr2, hdeep, hal⟩ := (mem_expandedNodes lib a flat).mp hmem
    have hat : flat[pre.length]? = some line := by
      rw [hflat, List.getElem?_append_right (Nat.le_refl _)]
      simp
    have e := filterMap_nodup_index (getHierAlias lib) flat hnodup r pre.length l2 line a
      hr2 hat hal ha
    rw [e, hflat] at hdeep
    exact (followedByDeeper_append pre (line :: rest) 0).mp hdeep
  have hkey2 : ∀ (pre rest : List TreeLine) (line : TreeLine), flat = pre ++ (line :: rest) →
      followedByDeeper (line :: rest) 0 →
      isRestored lib (expandedNodes lib flat) line = true := by
    intro pre rest line hflat hdeep
    have hat : flat[pre.length]? = some line := by
      rw [hflat, List.getElem?_append_right (Nat.le_refl _)]
      simp
    have hdeep2 : followedByDeeper flat pre.length := by
      rw [hflat]
      exact (followedByDeeper_append pre (line :: rest) 0).mpr hdeep
    have hsome := hres pre.length line hat hdeep2
    obtain ⟨a, ha⟩ := Option.isSome_iff_exists.mp hsome
    exact (isRestored_iff lib _ line).mpr
      ⟨a, ha, (mem_expandedNodes lib a flat).mpr ⟨pre.length, line, hat, hdeep2, ha⟩⟩
  induction h with
  | nil =>
    intro _ _ _ _ _ _
    exact FlatOf.nil
  | @closed line sibs rows0 hop hrest ih =>
    intro L pre tail hflat hlevel htail
    have hlevel2 : ∀ s ∈ sibs, s.level = L := fun s hs => hlevel s (List.mem_cons_of_mem _ hs)
    have hL0 : line.level = L := hlevel line (List.mem_cons_self _ _)
    have hrestHead := FlatOf.head_level hrest L tail hlevel2 htail
    have hclosed : isRestored lib (expandedNodes lib flat) line = false := by
      cases hb : isRestored lib (expandedNodes lib flat) line with
      | false => rfl
      | true =>
        exfalso
        have hdeep := hkey pre (rows0 ++ tail) line (by rw [hflat]; rfl) hb
        obtain ⟨next, hn, hlt⟩ := (followedByDeeper_zero _ _).mp hdeep
        have := hrestHead next hn
        omega
    refine FlatOf.closed hclosed (ih L (pre ++ [line]) tail ?_ hlevel2 htail)
    rw [hflat]
    simp
  | @opened line sibs below rows0 hop hbelow hrest ihb ihr =>
    intro L pre tail hflat hlevel htail
    have hlevel2 : ∀ s ∈ sibs, s.level = L := fun s hs => hlevel s (List.mem_cons_of_mem _ hs)
    have hL0 : line.level = L := hlevel line (List.mem_cons_self _ _)
    have hchild : ∀ c ∈ childrenOf lib currentSort line, c.level = L + 1 := by
      intro c hc
      rw [childrenOf_level lib hsort currentSort line c hc, hL0]
    have hrestHead := FlatOf.head_level hrest L tail hlevel2 htail
    have htail2 : ∀ t, (rows0 ++ tail).head? = some t → t.level ≤ L + 1 := by
      intro t ht
      have := hrestHead t ht
      omega
    have hb1 := ihb (L + 1) (pre ++ [line]) (rows0 ++ tail)
      (by rw [hflat]; simp) hchild htail2
    have hr1 := ihr L (pre ++ line :: below) tail (by rw [hflat]; simp) hlevel2 htail
    cases hb : isRestored lib (expandedNodes lib flat) line with
    | true => exact FlatOf.opened hb hb1 hr1
    | false =>
      have hnil : below = [] := by
        cases hbl : below with
        | nil => rfl
        | cons b0 bs =>
          exfalso
          rw [hbl] at hbelow hflat
          have hmem : b0 ∈ childrenOf lib currentSort line := by
            cases hch : childrenOf lib currentSort line with
            | nil =>
              rw [hch] at hbelow
              have := FlatOf.eq_nil_of_nil hbelow
              simp at this
            | cons c cs =>
              rw [hch] at hbelow
              have hh := FlatOf.head hbelow
              simp only [List.head?_cons, Option.some.injEq] at hh
              rw [hh]
              exact List.mem_cons_self _ _
          have hdeep : followedByDeeper (line :: (b0 :: bs ++ rows0 ++ tail)) 0 := by
            rw [followedByDeeper_zero]
            refine ⟨b0, by simp, ?_⟩
            rw [hchild b0 hmem]
            omega
          have := hkey2 pre (b0 :: bs ++ rows0 ++ tail) line (by rw [hflat]; simp) hdeep
          rw [hb] at this
          exact Bool.noConfusion this
      subst hnil
      exact FlatOf.closed hb hr1

theorem childrenOf_sort_perm (lib : Library) (hsort : SortPerm lib) (s1 s2 : SortInfo)
    (line : TreeLine) : List.Perm (childrenOf lib s1 line) (childrenOf lib s2 line) :=
  (getChildren_perm lib hsort s1 line.node (line.level + 1)).trans
    (getChildren_perm lib hsort s2 line.node (line.level + 1)).symm

theorem defaultFlatTree_sort_perm (lib : Library) (hsort : SortPerm lib)
    (folderCmp : List BaseFolderPair) (s1 s2 : SortInfo) (view : List RootNodeImpl) :
    List.Perm (defaultFlatTree lib folderCmp s1 view) (defaultFlatTree lib folderCmp s2 view) := by
  by_cases hone : folderCmp.length = 1
  · cases view with
    | nil =>
      rw [defaultFlatTree_empty lib folderCmp s1 hone, defaultFlatTree_empty lib folderCmp s2 hone]
    | cons root rest =>
      rw [defaultFlatTree_single lib folderCmp s1 root rest hone,
        defaultFlatTree_single lib folderCmp s2 root rest hone]
      exact (getChildren_perm lib hsort s1 _ 0).trans (getChildren_perm lib hsort s2 _ 0).symm
  · exact (defaultFlatTree_perm lib hsort folderCmp s1 view hone).trans
      (defaultFlatTree_perm lib hsort folderCmp s2 view hone).symm

/-- A view whose flat rows are a layout, have distinct identities, and have an
identity wherever they are open, keeps its rows and its expanded identities under
`setSortDirection`. -/
theorem setSortDirection_of_layout (lib : Library) (hsort : SortPerm lib) (tv : TreeView)
    (colType : ColumnTypeTree) (ascending : Bool) {opens : TreeLine → Bool → Prop}
    (hlayout : FlatOf (childrenOf lib tv.currentSort) opens
      (defaultFlatTree lib tv.folderCmp tv.currentSort tv.folderCmpView) tv.flatTree)
    (hnodup : (tv.flatTree.filterMap (getHierAlias lib)).Nodup)
    (hres : ∀ row line, tv.flatTree[row]? = some line → followedByDeeper tv.flatTree row →
      (getHierAlias lib line).isSome = true) :
    List.Perm (setSortDirection lib tv colType ascending).flatTree tv.flatTree
      ∧ ∀ a, a ∈ expandedNodes lib (setSortDirection lib tv colType ascending).flatTree
          ↔ a ∈ expandedNodes lib tv.flatTree := by
  have hlevel1 := defaultFlatTree_level lib hsort tv.folderCmp tv.currentSort tv.folderCmpView
  have hold := FlatOf.by_identity lib hsort tv.currentSort tv.flatTree hnodup hres hlayout 0 [] []
    (by simp) hlevel1 (by intro t ht; simp at ht)
  have hnew := applySubView_flat lib hsort
    { tv with currentSort := { sortCol := colType, ascending := ascending } } tv.folderCmpView
  have hlevel2 := defaultFlatTree_level lib hsort tv.folderCmp
    { sortCol := colType, ascending := ascending } tv.folderCmpView
  have hperm : List.Perm (setSortDirection lib tv colType ascending).flatTree tv.flatTree :=
    FlatOf.perm_of_perm (isRestored lib (expandedNodes lib tv.flatTree))
      (fun l => childrenOf_sort_perm lib hsort _ _ l) hnew _ _
      (defaultFlatTree_sort_perm lib hsort tv.folderCmp _ _ tv.folderCmpView) hold
  refine ⟨hperm, ?_⟩
  intro a
  constructor
  · intro ha
    obtain ⟨r, line, hr, hdeep, hal⟩ := (mem_expandedNodes lib a _).mp ha
    have hst := (FlatOf.status lib hsort _ hnew 0 [] hlevel2 (by intro t ht; simp at ht)
      r line hr).1 (by rw [List.append_nil]; exact hdeep)
    obtain ⟨a2, ha2, hmem⟩ := (isRestored_iff lib _ line).mp hst.1
    have e : a2 = a := Option.some.inj (ha2.symm.trans hal)
    rw [← e]
    exact hmem
  · intro ha
    obtain ⟨r, line, hr, hdeep, hal⟩ := (mem_expandedNodes lib a _).mp ha
    have hst := (FlatOf.status lib hsort _ hold 0 [] hlevel1 (by intro t ht; simp at ht)
      r line hr).1 (by rw [List.append_nil]; exact hdeep)
    have hkids := (childrenOf_ne_nil_iff lib hsort tv.currentSort line).mp hst.2
    have hmem : line ∈ (setSortDirection lib tv colType ascending).flatTree :=
      (List.Perm.mem_iff hperm).mpr (List.getElem?_mem hr)
    obtain ⟨r2, hr2⟩ := List.getElem?_of_mem hmem
    refine (mem_expandedNodes lib a _).mpr ⟨r2, line, hr2, ?_, hal⟩
    by_contra hnot
    have hst2 := (FlatOf.status lib hsort _ hnew 0 [] hlevel2 (by intro t ht; simp at ht)
      r2 line hr2).2 (by rw [List.append_nil]; exact hnot)
    rcases hst2 with h | h
    · have hr3 : isRestored lib (expandedNodes lib tv.flatTree) line = true :=
        (isRestored_iff lib _ line).mpr ⟨a, hal, ha⟩
      simp only at h
      rw [hr3] at h
      exact Bool.noConfusion h
    · exact (childrenOf_ne_nil_iff lib hsort _ line).mpr hkids h

/-! ## Theorems: the identities of the rows of a reachable view -/

theorem allNodes_filterMap {β : Type} (f : DirNodeImpl → Option β) (ds : List DirNodeImpl) :
    (allNodes ds).filterMap f
      = ds.flatMap (fun d => (f d).toList ++ (allNodes d.toContainer.subDirs).filterMap f) := by
  induction ds with
  | nil => simp [allNodes]
  | cons d ds ih =>
    rw [allNodes_cons, List.flatMap_cons, ← ih, List.cons_append, List.filterMap_cons]
    cases hf : f d <;> simp

theorem aliasPotential_congr (lib : Library) (l1 l2 : TreeLine) (hnode : l1.node = l2.node)
    (htype : l1.type = l2.type) : aliasPotential lib l1 = aliasPotential lib l2 := by
  unfold aliasPotential aliasesUnder getHierAlias
  rw [hnode, htype]

theorem flatMap_aliasPotential (lib : Library) (rows : List TreeLine) :
    rows.flatMap (aliasPotential lib)
      = (rows.map (fun r => (r.level, r.node, r.type))).flatMap
          (fun t => aliasPotential lib { level := t.1, percent := 0, node := t.2.1, type := t.2.2 }) := by
  rw [List.flatMap_map]
  congr 1

theorem aliasPotential_folder (lib : Library) (level : Nat) (percent : Int) (d : DirNodeImpl) :
    aliasPotential lib { level := level, percent := percent, node := NodePtr.dir d, type := NodeType.folder }
      = (folderAlias lib d).toList ++ (allNodes d.toContainer.subDirs).filterMap (folderAlias lib) := by
  unfold aliasPotential aliasesUnder getHierAlias folderAlias
  simp [NodePtr.objId, NodePtr.cont]

theorem aliasPotential_files (lib : Library) (level : Nat) (percent : Int) (node : NodePtr) :
    aliasPotential lib { level := level, percent := percent, node := node, type := NodeType.files }
      = [] := by
  unfold aliasPotential aliasesUnder getHierAlias
  simp

/-- The identities that the rows of `getChildren` and the rows below them can
have are the identities of all nodes below the container. -/
theorem getChildren_aliasPotential (lib : Library) (hsort : SortPerm lib)
    (currentSort : SortInfo) (cont : NodePtr) (level : Nat) :
    List.Perm ((getChildren lib currentSort cont level).flatMap (aliasPotential lib))
      ((allNodes cont.cont.subDirs).filterMap (folderAlias lib)) := by
  have hshape := (getChildren_shape lib hsort currentSort cont level).1
  rw [flatMap_aliasPotential]
  refine (List.Perm.flatMap_right _ hshape).trans ?_
  rw [List.flatMap_append, List.flatMap_map, allNodes_filterMap]
  have e1 : (if cont.cont.firstFileId.isSome = true then [(level, cont, NodeType.files)]
      else []).flatMap
        (fun t => aliasPotential lib { level := t.1, percent := 0, node := t.2.1, type := t.2.2 })
      = [] := by
    split
    · simp [aliasPotential_files]
    · rfl
  rw [e1, List.append_nil]
  have e2 : ∀ d : DirNodeImpl,
      aliasPotential lib { level := level, percent := 0, node := NodePtr.dir d, type := NodeType.folder }
        = (folderAlias lib d).toList
          ++ (allNodes d.toContainer.subDirs).filterMap (folderAlias lib) :=
    fun d => aliasPotential_folder lib level 0 d
  simp only [e2]
  exact List.Perm.refl _

/-- The identities of the rows of a layout are among the identities that its
siblings and the rows below them can have, each as often at most. -/
theorem FlatOf.aliases_subperm (lib : Library) (hsort : SortPerm lib) (currentSort : SortInfo)
    {siblings rows : List TreeLine}
    (h : FlatOf (childrenOf lib currentSort) mayOpen siblings rows) :
    List.Subperm (rows.filterMap (getHierAlias lib)) (siblings.flatMap (aliasPotential lib)) := by
  have hhead : ∀ line : TreeLine, [line].filterMap (getHierAlias lib)
      = (getHierAlias lib line).toList := by
    intro line
    cases hg : getHierAlias lib line <;> simp [List.filterMap_cons, hg]
  induction h with
  | nil => exact List.Subperm.refl _
  | @closed line sibs rows0 hop hrest ih =>
    have e1 : (line :: rows0).filterMap (getHierAlias lib)
        = (getHierAlias lib line).toList ++ rows0.filterMap (getHierAlias lib) := by
      rw [← hhead, ← List.filterMap_append]
      rfl
    rw [e1, List.flatMap_cons]
    unfold aliasPotential
    rw [List.append_assoc]
    refine (List.subperm_append_left _).mpr ?_
    exact ih.trans (List.sublist_append_right _ _).subperm
  | @opened line sibs below rows0 hop hbelow hrest ihb ihr =>
    have e1 : (line :: (below ++ rows0)).filterMap (getHierAlias lib)
        = (getHierAlias lib line).toList
          ++ (below.filterMap (getHierAlias lib) ++ rows0.filterMap (getHierAlias lib)) := by
      rw [← hhead, ← List.filterMap_append, ← List.filterMap_append]
      rfl
    rw [e1, List.flatMap_cons]
    have htype : line.type ≠ NodeType.files := hop rfl
    have hunder : List.Perm ((childrenOf lib currentSort line).flatMap (aliasPotential lib))
        (aliasesUnder lib line) := by
      unfold aliasesUnder
      rw [if_neg htype]
      exact getChildren_aliasPotential lib hsort currentSort line.node (line.level + 1)
    have hb2 : List.Subperm (below.filterMap (getHierAlias lib)) (aliasesUnder lib line) :=
      ihb.trans hunder.subperm
    unfold aliasPotential
    rw [List.append_assoc]
    refine (List.subperm_append_left _).mpr ?_
    exact ((List.subperm_append_right _).mpr hb2).trans ((List.subperm_append_left _).mpr ihr)

theorem aliasPotential_root (lib : Library) (root : RootNodeImpl) (percent : Int) :
    aliasPotential lib (rootRow root percent)
      = (root.baseFolder.map (fun baseObj => HierAlias.base baseObj.id)).toList
        ++ (allNodes root.subDirs).filterMap (folderAlias lib) := by
  unfold aliasPotential aliasesUnder getHierAlias rootRow
  simp [NodePtr.baseFolder, NodePtr.cont]

/-- The identities that the top-level rows and the rows below them can have are
among the identities that the forest can show. -/
theorem defaultFlatTree_aliases (lib : Library) (hsort : SortPerm lib)
    (folderCmp : List BaseFolderPair) (currentSort : SortInfo) (view : List RootNodeImpl) :
    List.Subperm ((defaultFlatTree lib folderCmp currentSort view).flatMap (aliasPotential lib))
      (forestAliases lib view) := by
  by_cases hone : folderCmp.length = 1
  · cases view with
    | nil =>
      rw [defaultFlatTree_empty lib folderCmp currentSort hone]
      exact List.nil_subperm
    | cons root rest =>
      rw [defaultFlatTree_single lib folderCmp currentSort root rest hone]
      refine (getChildren_aliasPotential lib hsort currentSort (NodePtr.root root) 0).subperm.trans ?_
      unfold forestAliases
      rw [List.flatMap_cons]
      exact ((List.sublist_append_right _ _).trans (List.sublist_append_left _ _)).subperm
  · have hp := defaultFlatTree_perm lib hsort folderCmp currentSort view hone
    refine (List.Perm.flatMap_right (aliasPotential lib) hp).subperm.trans ?_
    rw [flatMap_aliasPotential]
    unfold assignPercentages
    rw [storePercent_shape, ← flatMap_aliasPotential, List.flatMap_map]
    unfold forestAliases
    simp only [aliasPotential_root]
    exact List.Subperm.refl _

/-- The identities of the nodes of an extracted container are identities of the
folders of the hierarchy object, in their order. -/
theorem extract_nodes_sublist (pred : Predicate) :
    ∀ hier : ContainerObject,
      List.Sublist ((allNodes (extractVisibleSubtree hier {} pred).subDirs).map DirNodeImpl.objId)
        ((allFolders hier.subFolders).map (fun folder => some folder.id)) := by
  apply ContainerObject.hier_induction
  intro hier ih
  rw [extractVisibleSubtree_subDirs]
  have key : ∀ l : List FolderPair,
      (∀ s ∈ l, List.Sublist
        ((allNodes (extractVisibleSubtree s.hier {} pred).subDirs).map DirNodeImpl.objId)
        ((allFolders s.hier.subFolders).map (fun folder => some folder.id))) →
      List.Sublist
        ((allNodes ((l.filter (fun f => !dropRule pred f)).map (keptNode pred))).map
          DirNodeImpl.objId)
        ((allFolders l).map (fun folder => some folder.id)) := by
    intro l
    induction l with
    | nil =>
      intro _
      simp [allNodes, allFolders]
    | cons s l ihl =>
      intro hl
      have hrest := ihl (fun x hx => hl x (List.mem_cons_of_mem _ hx))
      have hs := hl s (List.mem_cons_self _ _)
      rw [allFolders_cons]
      by_cases hd : dropRule pred s = true
      · rw [List.filter_cons_of_neg (by simp [hd])]
        simp only [List.cons_append, List.map_cons, List.map_append]
        exact (hrest.trans (List.sublist_append_right _ _)).trans (List.sublist_cons_self _ _)
      · rw [List.filter_cons_of_pos (by simp [hd]), List.map_cons, allNodes_cons,
          keptNode_subDirs]
        simp only [List.cons_append, List.map_cons, List.map_append, keptNode_objId]
        exact List.Sublist.cons₂ _ (List.Sublist.append hs hrest)
  exact key hier.subFolders ih

theorem filterMap_eq_map_of {α β : Type} (f : α → Option β) (g : α → β) (l : List α)
    (h : ∀ x ∈ l, f x = some (g x)) : l.filterMap f = l.map g := by
  induction l with
  | nil => rfl
  | cons x xs ih =>
    rw [List.filterMap_cons_some (h x (List.mem_cons_self _ _)), List.map_cons,
      ih (fun y hy => h y (List.mem_cons_of_mem _ hy))]

theorem folderAlias_of_resolves (lib : Library) (folder : FolderPair)
    (h : (resolveFolder lib (some folder.id)).map FolderPair.id = some folder.id) :
    (resolveFolder lib (some folder.id)).map (fun f => HierAlias.folder f.id)
      = some (HierAlias.folder folder.id) := by
  cases hr : resolveFolder lib (some folder.id) with
  | none =>
    rw [hr] at h
    simp at h
  | some f2 =>
    rw [hr] at h
    simp only [Option.map_some', Option.some.injEq] at h
    simp [h]

/-- The identities that the rows below an extracted container can have are
identities of the folders of the hierarchy object, in their order. -/
theorem kept_aliases_sublist (lib : Library) (pred : Predicate) (hier : ContainerObject)
    (hret : ∀ folder ∈ allFolders hier.subFolders,
      (resolveFolder lib (some folder.id)).map FolderPair.id = some folder.id) :
    List.Sublist
      ((allNodes (extractVisibleSubtree hier {} pred).subDirs).filterMap (folderAlias lib))
      ((allFolders hier.subFolders).map (fun folder => HierAlias.folder folder.id)) := by
  have e : (allNodes (extractVisibleSubtree hier {} pred).subDirs).filterMap (folderAlias lib)
      = ((allNodes (extractVisibleSubtree hier {} pred).subDirs).map DirNodeImpl.objId).filterMap
          (fun objId => (resolveFolder lib objId).map (fun f => HierAlias.folder f.id)) := by
    rw [List.filterMap_map]
    rfl
  rw [e]
  have h1 := List.Sublist.filterMap
    (fun objId => (resolveFolder lib objId).map (fun f => HierAlias.folder f.id))
    (extract_nodes_sublist pred hier)
  have e2 : ((allFolders hier.subFolders).map (fun folder => some folder.id)).filterMap
        (fun objId => (resolveFolder lib objId).map (fun f => HierAlias.folder f.id))
      = (allFolders hier.subFolders).map (fun folder => HierAlias.folder folder.id) := by
    rw [List.filterMap_map]
    exact filterMap_eq_map_of _ _ _
      (fun folder hf => folderAlias_of_resolves lib folder (hret folder hf))
  rw [e2] at h1
  exact h1

/-- The identities that a forest built by `updateView` can show are identities of
the root pairs and folders of the comparison, in their order. -/
theorem forestAliases_sublist (lib : Library) (g : String → String → String)
    (pred : Predicate) {sub folderCmp : List BaseFolderPair} (hsub : List.Sublist sub folderCmp)
    (hret : ∀ b ∈ folderCmp, ∀ folder ∈ allFolders b.hier.subFolders,
      (resolveFolder lib (some folder.id)).map FolderPair.id = some folder.id) :
    List.Sublist (forestAliases lib (sub.map (keptRoot g pred))) (comparisonAliases folderCmp) := by
  induction hsub with
  | slnil => exact List.Sublist.refl _
  | @cons l1 l2 a _ ih =>
    have h1 := ih (fun b hb => hret b (List.mem_cons_of_mem _ hb))
    unfold comparisonAliases
    rw [List.flatMap_cons]
    exact h1.trans (List.sublist_append_right _ _)
  | @cons₂ l1 l2 a _ ih =>
    have h1 := ih (fun b hb => hret b (List.mem_cons_of_mem _ hb))
    have h2 := kept_aliases_sublist lib pred a.hier (hret a (List.mem_cons_self _ _))
    unfold forestAliases comparisonAliases
    rw [List.map_cons, List.flatMap_cons, List.flatMap_cons, keptRoot_subDirs]
    refine List.Sublist.append ?_ h1
    have e : ((keptRoot g pred a).baseFolder.map (fun baseObj => HierAlias.base baseObj.id)).toList
        = [HierAlias.base a.id] := rfl
    rw [e]
    exact List.Sublist.cons₂ _ h2

theorem allFolders_append (l1 l2 : List FolderPair) :
    allFolders (l1 ++ l2) = allFolders l1 ++ allFolders l2 := by
  rw [allFolders_eq_flatMap (l1 ++ l2), List.flatMap_append, ← allFolders_eq_flatMap,
    ← allFolders_eq_flatMap]

theorem comparisonAliases_perm (folderCmp : List BaseFolderPair) :
    List.Perm (comparisonAliases folderCmp)
      (folderCmp.map (fun b => HierAlias.base b.id)
        ++ (forestFolders folderCmp).map (fun folder => HierAlias.folder folder.id)) := by
  induction folderCmp with
  | nil => simp [comparisonAliases, forestFolders, allFolders]
  | cons b bs ih =>
    have e1 : comparisonAliases (b :: bs)
        = HierAlias.base b.id
          :: ((allFolders b.hier.subFolders).map (fun folder => HierAlias.folder folder.id)
            ++ comparisonAliases bs) := by
      unfold comparisonAliases
      rw [List.flatMap_cons]
      rfl
    have e2 : forestFolders (b :: bs) = allFolders b.hier.subFolders ++ forestFolders bs := by
      unfold forestFolders
      rw [List.flatMap_cons, allFolders_append]
    rw [e1, e2, List.map_cons, List.map_append, List.cons_append]
    refine List.Perm.cons _ ?_
    exact (List.Perm.append_left _ ih).trans (List.perm_append_comm_assoc _ _ _)

/-- The identities of the root pairs and folders of a comparison are distinct if
the root pairs have distinct identities and the folders have. -/
theorem comparisonAliases_nodup (folderCmp : List BaseFolderPair)
    (hbase : (folderCmp.map (fun b => b.id)).Nodup)
    (hfolder : ((forestFolders folderCmp).map FolderPair.id).Nodup) :
    (comparisonAliases folderCmp).Nodup := by
  rw [(comparisonAliases_perm folderCmp).nodup_iff]
  apply List.Nodup.append
  · have := List.Nodup.map (fun a b h => HierAlias.base.inj h) hbase
    rwa [List.map_map] at this
  · have := List.Nodup.map (fun a b h => HierAlias.folder.inj h) hfolder
    rwa [List.map_map] at this
  · intro a h1 h2
    obtain ⟨b, _, hb⟩ := List.mem_map.mp h1
    obtain ⟨f, _, hf⟩ := List.mem_map.mp h2
    rw [← hb] at hf
    exact HierAlias.noConfusion hf

/-- The rows of `getChildren` for a container all of whose nodes have an identity
have an identity each, and so have the nodes below them. -/
theorem getChildren_resolves (lib : Library) (hsort : SortPerm lib) (currentSort : SortInfo)
    (cont : NodePtr) (level : Nat)
    (hnodes : ∀ d ∈ allNodes cont.cont.subDirs, (folderAlias lib d).isSome = true) :
    ∀ c ∈ getChildren lib currentSort cont level, rowResolves lib c := by
  intro c hc htype
  have hshape := (getChildren_shape lib hsort currentSort cont level).1
  have hm : (c.level, c.node, c.type)
      ∈ (getChildren lib currentSort cont level).map (fun r => (r.level, r.node, r.type)) :=
    List.mem_map.mpr ⟨c, hc, rfl⟩
  rcases List.mem_append.mp ((List.Perm.mem_iff hshape).mp hm) with h | h
  · obtain ⟨d, hd, hdc⟩ := List.mem_map.mp h
    have hnode : c.node = NodePtr.dir d := (congrArg (fun t => t.2.1) hdc).symm
    have hty : c.type = NodeType.folder := (congrArg (fun t => t.2.2) hdc).symm
    constructor
    · have e : getHierAlias lib c = folderAlias lib d := by
        unfold getHierAlias folderAlias
        rw [hty, hnode]
        rfl
      rw [e]
      exact hnodes d ((mem_allNodes _ _).mpr ⟨d, hd, Or.inl rfl⟩)
    · intro d2 hd2
      rw [hnode] at hd2
      exact hnodes d2 ((mem_allNodes _ _).mpr ⟨d, hd, Or.inr hd2⟩)
  · exfalso
    split at h
    · simp only [List.mem_singleton] at h
      exact htype (congrArg (fun t => t.2.2) h)
    · simp at h

theorem FlatOf.resolves (lib : Library) (hsort : SortPerm lib) (currentSort : SortInfo)
    {siblings rows : List TreeLine}
    (h : FlatOf (childrenOf lib currentSort) mayOpen siblings rows) :
    (∀ s ∈ siblings, rowResolves lib s) → ∀ r ∈ rows, rowResolves lib r := by
  induction h with
  | nil =>
    intro _ r hr
    simp at hr
  | @closed line sibs rows0 hop hrest ih =>
    intro hs r hr
    rcases List.mem_cons.mp hr with rfl | hr
    · exact hs _ (List.mem_cons_self _ _)
    · exact ih (fun s h => hs s (List.mem_cons_of_mem _ h)) r hr
  | @opened line sibs below rows0 hop hbelow hrest ihb ihr =>
    intro hs r hr
    rcases List.mem_cons.mp hr with rfl | hr
    · exact hs _ (List.mem_cons_self _ _)
    · rcases List.mem_append.mp hr with hr | hr
      · have hline := hs line (List.mem_cons_self _ _) (hop rfl)
        exact ihb (getChildren_resolves lib hsort currentSort line.node (line.level + 1) hline.2)
          r hr
      · exact ihr (fun s h => hs s (List.mem_cons_of_mem _ h)) r hr

theorem defaultFlatTree_resolves (lib : Library) (hsort : SortPerm lib)
    (folderCmp : List BaseFolderPair) (currentSort : SortInfo) (view : List RootNodeImpl)
    (hview : ∀ root ∈ view, root.baseFolder.isSome = true
      ∧ ∀ d ∈ allNodes root.subDirs, (folderAlias lib d).isSome = true) :
    ∀ s ∈ defaultFlatTree lib folderCmp currentSort view, rowResolves lib s := by
  intro s hs
  by_cases hone : folderCmp.length = 1
  · cases view with
    | nil =>
      rw [defaultFlatTree_empty lib folderCmp currentSort hone] at hs
      simp at hs
    | cons root rest =>
      rw [defaultFlatTree_single lib folderCmp currentSort root rest hone] at hs
      exact getChildren_resolves lib hsort currentSort (NodePtr.root root) 0
        (hview root (List.mem_cons_self _ _)).2 s hs
  · have hp := defaultFlatTree_perm lib hsort folderCmp currentSort view hone
    have hm : (s.level, s.node, s.type)
        ∈ (assignPercentages lib (view.map (fun root => rootRow root 0))
            (view.map (fun root => root.bytesGross))).map (fun r => (r.level, r.node, r.type)) :=
      List.mem_map.mpr ⟨s, (List.Perm.mem_iff hp).mp hs, rfl⟩
    unfold assignPercentages at hm
    rw [storePercent_shape, List.map_map] at hm
    obtain ⟨root, hroot, hrs⟩ := List.mem_map.mp hm
    have hnode : s.node = NodePtr.root root := (congrArg (fun t => t.2.1) hrs).symm
    have hty : s.type = NodeType.root := (congrArg (fun t => t.2.2) hrs).symm
    intro _
    constructor
    · unfold getHierAlias
      rw [hty, hnode]
      have := (hview root hroot).1
      obtain ⟨b, hb⟩ := Option.isSome_iff_exists.mp this
      simp [NodePtr.baseFolder, hb]
    · intro d hd
      rw [hnode] at hd
      exact (hview root hroot).2 d hd

theorem updateViewForest_resolves (lib : Library) (g : String → String → String)
    (pred : Predicate) (folderCmp : List BaseFolderPair)
    (hret : ∀ folder ∈ forestFolders folderCmp,
      (resolveFolder lib (some folder.id)).map FolderPair.id = some folder.id) :
    ∀ root ∈ updateViewForest g folderCmp pred, root.baseFolder.isSome = true
      ∧ ∀ d ∈ allNodes root.subDirs, (folderAlias lib d).isSome = true := by
  intro root hroot
  obtain ⟨b, hb, _, rfl⟩ := (mem_updateViewForest g folderCmp pred root).mp hroot
  refine ⟨rfl, ?_⟩
  intro d hd
  rw [keptRoot_subDirs] at hd
  obtain ⟨folder, hf, _, rfl⟩ := node_origin pred b.hier d hd
  have hmem : folder ∈ forestFolders folderCmp :=
    (mem_forestFolders folderCmp folder).mpr ⟨b, hb, hf⟩
  unfold folderAlias
  rw [keptNode_objId, folderAlias_of_resolves lib folder (hret folder hmem)]
  rfl

/-- In every reachable view on a comparison whose root pairs and folders have
distinct identities that the registry resolves, the rows have distinct identities
and every row that is no files row has one. -/
theorem Reachable.identities (lib : Library) (hsort : SortPerm lib)
    (isNullPath : String → Bool) (folderCmp : List BaseFolderPair)
    (hbase : (folderCmp.map (fun b => b.id)).Nodup)
    (hfolder : ((forestFolders folderCmp).map FolderPair.id).Nodup)
    (hretrieve : ∀ folder ∈ forestFolders folderCmp,
      (resolveFolder lib (some folder.id)).map FolderPair.id = some folder.id)
    {tv : TreeView} (h : Reachable lib isNullPath folderCmp tv) :
    (tv.flatTree.filterMap (getHierAlias lib)).Nodup
      ∧ ∀ r ∈ tv.flatTree, rowResolves lib r := by
  obtain ⟨hcmp, hview, hflat⟩ := Reachable.layout lib hsort isNullPath folderCmp h
  have hkept : ∀ b ∈ tv.folderCmp, b ∈ folderCmp := by
    intro b hb
    rw [hcmp] at hb
    exact (List.mem_filter.mp hb).1
  have hret2 : ∀ folder ∈ forestFolders tv.folderCmp,
      (resolveFolder lib (some folder.id)).map FolderPair.id = some folder.id := by
    intro folder hf
    obtain ⟨b, hb, hfb⟩ := (mem_forestFolders _ _).mp hf
    exact hretrieve folder ((mem_forestFolders _ _).mpr ⟨b, hkept b hb, hfb⟩)
  have hforest : List.Sublist (forestAliases lib tv.folderCmpView) (comparisonAliases folderCmp) := by
    rcases hview with hnil | ⟨pred, hpred⟩
    · rw [hnil]
      exact List.nil_sublist _
    · rw [hpred, updateViewForest_eq]
      refine forestAliases_sublist lib _ pred ?_ ?_
      · rw [hcmp]
        exact (List.filter_sublist _).trans (List.filter_sublist _)
      · intro b hb folder hf
        exact hretrieve folder ((mem_forestFolders _ _).mpr ⟨b, hb, hf⟩)
  have hres : ∀ root ∈ tv.folderCmpView, root.baseFolder.isSome = true
      ∧ ∀ d ∈ allNodes root.subDirs, (folderAlias lib d).isSome = true := by
    rcases hview with hnil | ⟨pred, hpred⟩
    · rw [hnil]
      intro root hroot
      simp at hroot
    · rw [hpred]
      exact updateViewForest_resolves lib _ pred tv.folderCmp hret2
  constructor
  · have hsub := ((FlatOf.aliases_subperm lib hsort tv.currentSort hflat).trans
      (defaultFlatTree_aliases lib hsort tv.folderCmp tv.currentSort tv.folderCmpView)).trans
      hforest.subperm
    obtain ⟨l, hl, hls⟩ := hsub
    exact (List.Perm.nodup_iff hl).mp
      (List.Nodup.sublist hls (comparisonAliases_nodup folderCmp hbase hfolder))
  · exact FlatOf.resolves lib hsort tv.currentSort hflat
      (defaultFlatTree_resolves lib hsort tv.folderCmp tv.currentSort tv.folderCmpView hres)

/-! ## Theorems: sorting keeps the expansion -/

/-- C19: sort-preserves-expansion. Take a comparison whose root pairs have
distinct identities and whose folders have distinct identities, and a registry
that resolves the identity of every folder of the comparison to a folder pair of
that identity (the contracts of `getId` and `FileSystemObject::retrieve`), and a
sort that only rearranges. Then for every view reachable from the constructor by
`updateView`, `setSortDirection`, `expandNode` and `reduceNode`, and for every
column and direction, after `setSortDirection` the logical identities (root-pair
identity or folder identity) of the rows with status `STATUS_EXPANDED` are exactly
the identities of the rows with status `STATUS_EXPANDED` before the call, and the
rows give the same multiset of (identity, kind, level). -/
theorem sort_preserves_expansion (lib : Library) (hsort : SortPerm lib)
    (isNullPath : String → Bool) (folderCmp : List BaseFolderPair)
    (hbase : (folderCmp.map (fun b => b.id)).Nodup)
    (hfolder : ((forestFolders folderCmp).map FolderPair.id).Nodup)
    (hretrieve : ∀ folder ∈ forestFolders folderCmp,
      (resolveFolder lib (some folder.id)).map FolderPair.id = some folder.id)
    (tv : TreeView) (hreach : Reachable lib isNullPath folderCmp tv)
    (colType : ColumnTypeTree) (ascending : Bool) :
    (∀ hierObj,
        (∃ row line, (setSortDirection lib tv colType ascending).flatTree[row]? = some line
            ∧ getStatus (setSortDirection lib tv colType ascending) row = .expanded
            ∧ getHierAlias lib line = some hierObj)
          ↔ (∃ row line, tv.flatTree[row]? = some line
              ∧ getStatus tv row = .expanded
              ∧ getHierAlias lib line = some hierObj))
      ∧ List.Perm
          ((setSortDirection lib tv colType ascending).flatTree.map
            (fun r => (getHierAlias lib r, r.type, r.level)))
          (tv.flatTree.map (fun r => (getHierAlias lib r, r.type, r.level))) := by
  obtain ⟨_, _, hflat⟩ := Reachable.layout lib hsort isNullPath folderCmp hreach
  obtain ⟨hnodup, hrows⟩ := Reachable.identities lib hsort isNullPath folderCmp hbase hfolder
    hretrieve hreach
  have hres : ∀ row line, tv.flatTree[row]? = some line → followedByDeeper tv.flatTree row →
      (getHierAlias lib line).isSome = true := by
    intro row line hrow hdeep
    have hst := (FlatOf.status lib hsort tv.currentSort hflat 0 []
      (defaultFlatTree_level lib hsort tv.folderCmp tv.currentSort tv.folderCmpView)
      (by intro t ht; simp at ht) row line hrow).1 (by rw [List.append_nil]; exact hdeep)
    exact (hrows line (List.getElem?_mem hrow) (hst.1 rfl)).1
  obtain ⟨hperm, hset⟩ := setSortDirection_of_layout lib hsort tv colType ascending hflat
    hnodup hres
  refine ⟨?_, List.Perm.map _ hperm⟩
  intro hierObj
  have hmem : ∀ view : TreeView,
      (∃ row line, view.flatTree[row]? = some line ∧ getStatus view row = .expanded
          ∧ getHierAlias lib line = some hierObj)
        ↔ hierObj ∈ expandedNodes lib view.flatTree := by
    intro view
    rw [mem_expandedNodes]
    constructor
    · rintro ⟨r, l, h1, h2, h3⟩
      exact ⟨r, l, h1, (getStatus_expanded_iff view r).mp h2, h3⟩
    · rintro ⟨r, l, h1, h2, h3⟩
      exact ⟨r, l, h1, (getStatus_expanded_iff view r).mpr h2, h3⟩
  rw [hmem, hmem]
  exact hset hierObj

theorem sort_preserves_expansion_witness :
    SortPerm (referenceLibrary shareCmp)
      ∧ (shareCmp.map (fun b => b.id)).Nodup
      ∧ ((forestFolders shareCmp).map FolderPair.id).Nodup
      ∧ (∀ folder ∈ forestFolders shareCmp,
          (resolveFolder (referenceLibrary shareCmp) (some folder.id)).map FolderPair.id
            = some folder.id)
      ∧ Reachable (referenceLibrary shareCmp) (fun _ => false) shareCmp
          (expandNode (referenceLibrary shareCmp)
            (updateView (referenceLibrary shareCmp)
              (TreeView.construct (fun _ => false) shareCmp byNameAscending) includeAll) 0)
      ∧ ((∀ hierObj,
            (∃ row line,
                (setSortDirection (referenceLibrary shareCmp)
                  (expandNode (referenceLibrary shareCmp)
                    (updateView (referenceLibrary shareCmp)
                      (TreeView.construct (fun _ => false) shareCmp byNameAscending) includeAll) 0)
                  ColumnTypeTree.bytes false).flatTree[row]? = some line
                ∧ getStatus
                    (setSortDirection (referenceLibrary shareCmp)
                      (expandNode (referenceLibrary shareCmp)
                        (updateView (referenceLibrary shareCmp)
                          (TreeView.construct (fun _ => false) shareCmp byNameAscending)
                          includeAll) 0)
                      ColumnTypeTree.bytes false) row = .expanded
                ∧ getHierAlias (referenceLibrary shareCmp) line = some hierObj)
              ↔ (∃ row line,
                  (expandNode (referenceLibrary shareCmp)
                    (updateView (referenceLibrary shareCmp)
                      (TreeView.construct (fun _ => false) shareCmp byNameAscending) includeAll)
                    0).flatTree[row]? = some line
                  ∧ getStatus
                      (expandNode (referenceLibrary shareCmp)
                        (updateView (referenceLibrary shareCmp)
                          (TreeView.construct (fun _ => false) shareCmp byNameAscending)
                          includeAll) 0) row = .expanded
                  ∧ getHierAlias (referenceLibrary shareCmp) line = some hierObj))
          ∧ List.Perm
              ((setSortDirection (referenceLibrary shareCmp)
                (expandNode (referenceLibrary shareCmp)
                  (updateView (referenceLibrary shareCmp)
                    (TreeView.construct (fun _ => false) shareCmp byNameAscending) includeAll) 0)
                ColumnTypeTree.bytes false).flatTree.map
                (fun r => (getHierAlias (referenceLibrary shareCmp) r, r.type, r.level)))
              ((expandNode (referenceLibrary shareCmp)
                (updateView (referenceLibrary shareCmp)
                  (TreeView.construct (fun _ => false) shareCmp byNameAscending) includeAll)
                0).flatTree.map
                (fun r => (getHierAlias (referenceLibrary shareCmp) r, r.type, r.level)))) :=
  ⟨referenceLibrary_sortPerm shareCmp, by decide, by decide, by decide,
    Reachable.afterExpandNode 0
      (Reachable.afterUpdateView includeAll (Reachable.constructed byNameAscending)),
    sort_preserves_expansion (referenceLibrary shareCmp) (referenceLibrary_sortPerm shareCmp)
      (fun _ => false) shareCmp (by decide) (by decide) (by decide) _
      (Reachable.afterExpandNode 0
        (Reachable.afterUpdateView includeAll (Reachable.constructed byNameAscending)))
      ColumnTypeTree.bytes false⟩

/-- The rows of the view of `shareCmp` with the first row expanded, sorted by
bytes in descending order: the expanded root pair keeps its two folders behind
it. -/
theorem sort_expansion_example :
    ((setSortDirection (referenceLibrary shareCmp)
        (expandNode (referenceLibrary shareCmp)
          (updateView (referenceLibrary shareCmp)
            (TreeView.construct (fun _ => false) shareCmp byNameAscending) includeAll) 0)
        ColumnTypeTree.bytes false).flatTree.map
        (fun r => (getHierAlias (referenceLibrary shareCmp) r, r.type, r.level)))
      = [(some (HierAlias.base 200), NodeType.root, 0),
         (some (HierAlias.folder 22), NodeType.folder, 1),
         (some (HierAlias.folder 21), NodeType.folder, 1)] := by
  decide

/-! ## Theorems: `getParent` -/

/-- The backward scan of `getParent` from `n`: it ends with `-1` if no row before
`n` is shallower than `level`, and with the last such row otherwise. -/
theorem getParentLoop_spec (flatTree : List TreeLine) (level : Nat) :
    ∀ n, n ≤ flatTree.length →
      (getParentLoop flatTree level n = -1
          ∧ ∀ p lp, p < n → flatTree[p]? = some lp → level ≤ lp.level)
        ∨ ∃ (p : Nat) (lp : TreeLine), getParentLoop flatTree level n = (p : Int) ∧ p < n
            ∧ flatTree[p]? = some lp ∧ lp.level < level
            ∧ ∀ q lq, p < q → q < n → flatTree[q]? = some lq → level ≤ lq.level := by
  intro n
  induction n with
  | zero =>
    intro _
    left
    refine ⟨rfl, ?_⟩
    intro p lp hp
    omega
  | succ n ih =>
    intro hn
    have hlt : n < flatTree.length := by omega
    obtain ⟨line, hline⟩ : ∃ line, flatTree[n]? = some line :=
      ⟨flatTree[n], List.getElem?_eq_getElem hlt⟩
    by_cases hlv : line.level < level
    · right
      refine ⟨n, line, ?_, by omega, hline, hlv, ?_⟩
      · simp only [getParentLoop, hline, if_pos hlv]
      · intro q lq h1 h2
        omega
    · have e : getParentLoop flatTree level (n + 1) = getParentLoop flatTree level n := by
        simp only [getParentLoop, hline, if_neg hlv]
      rw [e]
      rcases ih (by omega) with ⟨h1, h2⟩ | ⟨p, lp, h1, h2, h3, h4, h5⟩
      · left
        refine ⟨h1, ?_⟩
        intro p lp hp hlp
        by_cases hpn : p = n
        · subst hpn
          have : lp = line := Option.some.inj (hlp.symm.trans hline)
          rw [this]
          omega
        · exact h2 p lp (by omega) hlp
      · right
        refine ⟨p, lp, h1, by omega, h3, h4, ?_⟩
        intro q lq hq1 hq2 hlq
        by_cases hqn : q = n
        · subst hqn
          have : lq = line := Option.some.inj (hlq.symm.trans hline)
          rw [this]
          omega
        · exact h5 q lq hq1 (by omega) hlq

/-- C21: `getParent(row)`. For an in-range row the result is the index `p` exactly
if `p` is the largest index below `row` whose level is strictly less than the
level of `row` (so every row strictly between has a level not less than that of
`row`); the result is `-1` exactly if there is no row before `row` with a
strictly smaller level, in particular if `row` has level 0; it is `-1` or an
index; and it is `-1` if `row` is out of range. -/
theorem getParent_largest_shallower (tv : TreeView) (row : Nat) :
    (∀ line, tv.flatTree[row]? = some line →
        (∀ p : Nat, getParent tv row = (p : Int)
            ↔ p < row ∧ (∃ lp, tv.flatTree[p]? = some lp ∧ lp.level < line.level)
              ∧ ∀ q lq, p < q → q < row → tv.flatTree[q]? = some lq →
                  line.level ≤ lq.level)
          ∧ (getParent tv row = -1
            ↔ ∀ p lp, p < row → tv.flatTree[p]? = some lp → line.level ≤ lp.level)
          ∧ (getParent tv row = -1 ∨ ∃ p : Nat, getParent tv row = (p : Int))
          ∧ (line.level = 0 → getParent tv row = -1))
      ∧ (tv.flatTree.length ≤ row → getParent tv row = -1) := by
  constructor
  · intro line hline
    have hrow : row < tv.flatTree.length := by
      by_contra hc
      rw [List.getElem?_eq_none (by omega)] at hline
      exact Option.noConfusion hline
    have e : getParent tv row = getParentLoop tv.flatTree line.level row := by
      simp only [getParent, hline]
    have hspec := getParentLoop_spec tv.flatTree line.level row (by omega)
    rw [e]
    have hnone : getParentLoop tv.flatTree line.level row = -1
        ↔ ∀ p lp, p < row → tv.flatTree[p]? = some lp → line.level ≤ lp.level := by
      constructor
      · intro h
        rcases hspec with ⟨_, h2⟩ | ⟨p, lp, h1, _⟩
        · exact h2
        · rw [h] at h1
          omega
      · intro h
        rcases hspec with ⟨h1, _⟩ | ⟨p, lp, _, h2, h3, h4, _⟩
        · exact h1
        · have := h p lp h2 h3
          omega
    refine ⟨?_, hnone, ?_, ?_⟩
    · intro p
      constructor
      · intro h
        rcases hspec with ⟨h1, _⟩ | ⟨p0, lp, h1, h2, h3, h4, h5⟩
        · rw [h1] at h
          omega
        · have hp : p0 = p := by
            rw [h1] at h
            exact_mod_cast h
          subst hp
          exact ⟨h2, ⟨lp, h3, h4⟩, h5⟩
      · rintro ⟨hp, ⟨lp, hlp, hlv⟩, hbetween⟩
        rcases hspec with ⟨_, h2⟩ | ⟨p0, lp0, h1, h2, h3, h4, h5⟩
        · have := h2 p lp hp hlp
          omega
        · rw [h1]
          have hp : p0 = p := by
            rcases Nat.lt_trichotomy p0 p with hlt | heq | hgt
            · have := h5 p lp hlt hp hlp
              omega
            · exact heq
            · have := hbetween p0 lp0 hgt h2 h3
              omega
          rw [hp]
    · rcases hspec with ⟨h1, _⟩ | ⟨p0, _, h1, _⟩
      · exact Or.inl h1
      · exact Or.inr ⟨p0, h1⟩
    · intro h0
      apply hnone.mpr
      intro p lp _ _
      omega
  · intro hlen
    simp only [getParent, List.getElem?_eq_none hlen]

theorem getParent_share_example :
    getParent (expandNode (referenceLibrary shareCmp) shareView 0) 2 = 0
      ∧ getParent (expandNode (referenceLibrary shareCmp) shareView 0) 0 = -1
      ∧ getParent (expandNode (referenceLibrary shareCmp) shareView 0) 7 = -1 := by
  decide

/-! ## Theorems: files rows -/

/-- C22: files rows are never expanded. In every view reachable from the
constructor through `updateView`, `setSortDirection`, `expandNode` and
`reduceNode` (with a sort that only rearranges), `getStatus` of every row of kind
files is `STATUS_EMPTY`, and the row behind a files row never has a greater
level. -/
theorem files_rows_never_expanded (lib : Library) (hsort : SortPerm lib)
    (isNullPath : String → Bool) (folderCmp : List BaseFolderPair) (tv : TreeView)
    (hreach : Reachable lib isNullPath folderCmp tv) :
    ∀ row line, tv.flatTree[row]? = some line → line.type = NodeType.files →
      getStatus tv row = NodeStatus.empty
        ∧ ∀ next, tv.flatTree[row + 1]? = some next → next.level ≤ line.level := by
  intro row line hrow htype
  obtain ⟨_, _, hflat⟩ := Reachable.layout lib hsort isNullPath folderCmp hreach
  have hnd : ¬ followedByDeeper tv.flatTree row := by
    intro hdeep
    have hst := (FlatOf.status lib hsort tv.currentSort hflat 0 []
      (defaultFlatTree_level lib hsort tv.folderCmp tv.currentSort tv.folderCmpView)
      (by intro t ht; simp at ht) row line hrow).1 (by rw [List.append_nil]; exact hdeep)
    exact hst.1 rfl htype
  constructor
  · cases hst : getStatus tv row with
    | expanded => exact absurd ((getStatus_expanded_iff tv row).mp hst) hnd
    | reduced =>
      obtain ⟨line2, hrow2, htype2, _, _⟩ := getStatus_reduced tv row hst
      have e : line2 = line := Option.some.inj (hrow2.symm.trans hrow)
      rw [e] at htype2
      exact absurd htype htype2
    | empty => rfl
  · intro next hnext
    by_contra hc
    exact hnd ⟨line, next, hrow, hnext, by omega⟩

theorem files_rows_never_expanded_witness :
    SortPerm (referenceLibrary exampleCmp)
      ∧ Reachable (referenceLibrary exampleCmp) (fun _ => false) exampleCmp exampleView
      ∧ ∀ row line, exampleView.flatTree[row]? = some line → line.type = NodeType.files →
          getStatus exampleView row = NodeStatus.empty
            ∧ ∀ next, exampleView.flatTree[row + 1]? = some next → next.level ≤ line.level :=
  ⟨referenceLibrary_sortPerm exampleCmp,
    Reachable.afterExpandNode 1
      (Reachable.afterExpandNode 0
        (Reachable.afterUpdateView includeAll (Reachable.constructed byNameAscending))),
    files_rows_never_expanded (referenceLibrary exampleCmp) (referenceLibrary_sortPerm exampleCmp)
      (fun _ => false) exampleCmp exampleView
      (Reachable.afterExpandNode 1
        (Reachable.afterExpandNode 0
          (Reachable.afterUpdateView includeAll (Reachable.constructed byNameAscending))))⟩

/-- The rows of the example view: the root row, the row of `docs` with its folder
row `img` and its files row, then the two other folders; the files row has status
`STATUS_EMPTY`. -/
theorem exampleView_rows :
    exampleView.flatTree.map (fun r => (r.level, r.type))
        = [(0, NodeType.root), (1, NodeType.folder), (2, NodeType.folder), (2, NodeType.files),
           (1, NodeType.folder), (1, NodeType.folder)]
      ∧ getStatus exampleView 3 = NodeStatus.empty
      ∧ getStatus exampleView 1 = NodeStatus.expanded := by
  decide

/-! ## Theorems: strict weak orderings and the sort contract -/

theorem StrictWeakOrder.asymm {α : Type} {comp : α → α → Bool} (h : StrictWeakOrder comp)
    (a b : α) (hab : comp a b = true) : comp b a = false := by
  cases hba : comp b a with
  | false => rfl
  | true =>
    have := h.2.1 a b a hab hba
    rw [h.1 a] at this
    exact Bool.noConfusion this

theorem StrictWeakOrder.negTrans {α : Type} {comp : α → α → Bool} (h : StrictWeakOrder comp)
    (a b c : α) (hab : comp a b = false) (hbc : comp b c = false) : comp a c = false := by
  cases hac : comp a c with
  | false => rfl
  | true =>
    exfalso
    cases hba : comp b a with
    | true =>
      have := h.2.1 b a c hba hac
      rw [hbc] at this
      exact Bool.noConfusion this
    | false =>
      cases hcb : comp c b with
      | true =>
        have := h.2.1 a c b hac hcb
        rw [hab] at this
        exact Bool.noConfusion this
      | false =>
        have := (h.2.2 a b c hab hba hbc hcb).1
        rw [hac] at this
        exact Bool.noConfusion this

/-- A comparison read through a function is a strict weak ordering if the
comparison is. -/
theorem StrictWeakOrder.comap {α β : Type} {comp : β → β → Bool} (h : StrictWeakOrder comp)
    (g : α → β) : StrictWeakOrder (fun a b => comp (g a) (g b)) :=
  ⟨fun a => h.1 (g a), fun a b c => h.2.1 (g a) (g b) (g c),
    fun a b c => h.2.2 (g a) (g b) (g c)⟩

/-- The comparison with its arguments swapped is a strict weak ordering if the
comparison is. -/
theorem StrictWeakOrder.swap {α : Type} {comp : α → α → Bool} (h : StrictWeakOrder comp) :
    StrictWeakOrder (fun a b => comp b a) :=
  ⟨fun a => h.1 a, fun a b c hab hbc => h.2.1 c b a hbc hab,
    fun a b c hab hba hbc hcb => (h.2.2 a b c hba hab hcb hbc).symm⟩

theorem makeSortDirection_swo {α : Type} {less : α → α → Bool} (h : StrictWeakOrder less)
    (ascending : Bool) : StrictWeakOrder (makeSortDirection less ascending) := by
  cases ascending with
  | true => exact h
  | false => exact h.swap

/-- The comparison of a key in a linear order is a strict weak ordering. -/
theorem keyLess_swo {α κ : Type} [LinearOrder κ] (key : α → κ) :
    StrictWeakOrder (fun a b => decide (key a < key b)) := by
  refine ⟨?_, ?_, ?_⟩
  · intro a
    simp
  · intro a b c hab hbc
    simp only [decide_eq_true_eq] at hab hbc ⊢
    exact lt_trans hab hbc
  · intro a b c hab hba hbc hcb
    simp only [decide_eq_false_iff_not, not_lt] at hab hba hbc hcb ⊢
    exact ⟨le_trans hbc hab, le_trans hba hcb⟩

/-- A comparison by group first and, inside the groups below `bound`, by a strict
weak ordering of a key, is a strict weak ordering. -/
theorem rankThenKey_swo {α κ : Type} (rank : α → Nat) (key : α → κ) (bound : Nat)
    {less : κ → κ → Bool} (h : StrictWeakOrder less) :
    StrictWeakOrder (fun a b =>
      decide (rank a < rank b)
        || (decide (rank a = rank b) && decide (rank a < bound) && less (key a) (key b))) := by
  refine ⟨?_, ?_, ?_⟩
  · intro a
    simp [h.1]
  · intro a b c hab hbc
    simp only [Bool.or_eq_true, Bool.and_eq_true, decide_eq_true_eq] at hab hbc ⊢
    rcases hab with hab | ⟨⟨hab1, hab2⟩, hab3⟩
    · rcases hbc with hbc | ⟨⟨hbc1, _⟩, _⟩
      · exact Or.inl (by omega)
      · exact Or.inl (by omega)
    · rcases hbc with hbc | ⟨⟨hbc1, hbc2⟩, hbc3⟩
      · exact Or.inl (by omega)
      · exact Or.inr ⟨⟨by omega, hab2⟩, h.2.1 _ _ _ hab3 hbc3⟩
  · intro a b c hab hba hbc hcb
    simp only [Bool.or_eq_false_iff, Bool.and_eq_false_iff, decide_eq_false_iff_not, not_lt]
      at hab hba hbc hcb ⊢
    have e1 : rank a = rank b := by omega
    have e2 : rank b = rank c := by omega
    by_cases hb : rank a < bound
    · have k1 : less (key a) (key b) = false := by
        rcases hab.2 with (h1 | h1) | h1
        · exact absurd e1 h1
        · exact absurd hb (by omega)
        · exact h1
      have k2 : less (key b) (key a) = false := by
        rcases hba.2 with (h1 | h1) | h1
        · exact absurd e1.symm h1
        · exact absurd hb (by omega)
        · exact h1
      have k3 : less (key b) (key c) = false := by
        rcases hbc.2 with (h1 | h1) | h1
        · exact absurd e2 h1
        · exact absurd hb (by omega)
        · exact h1
      have k4 : less (key c) (key b) = false := by
        rcases hcb.2 with (h1 | h1) | h1
        · exact absurd e2.symm h1
        · exact absurd hb (by omega)
        · exact h1
      have k := h.2.2 _ _ _ k1 k2 k3 k4
      exact ⟨⟨by omega, Or.inr k.1⟩, ⟨by omega, Or.inr k.2⟩⟩
    · exact ⟨⟨by omega, Or.inl (Or.inr (by omega))⟩, ⟨by omega, Or.inl (Or.inr (by omega))⟩⟩

/-- `LessShortName` compares by group first and by name inside the groups of root
rows and of resolved folder rows. -/
theorem lessShortName_eq (lib : Library) (ascending : Bool) (lhs rhs : TreeLine) :
    lessShortName lib ascending lhs rhs
      = (decide (nameRank lib lhs < nameRank lib rhs)
          || (decide (nameRank lib lhs = nameRank lib rhs) && decide (nameRank lib lhs < 2)
              && makeSortDirection lib.lessNaturalSort ascending (nameKey lib lhs)
                  (nameKey lib rhs))) := by
  unfold lessShortName nameRank nameKey
  cases hl : lhs.type <;> cases hr : rhs.type <;>
    cases hrl : resolveFolder lib lhs.node.objId <;>
    cases hrr : resolveFolder lib rhs.node.objId <;>
    simp [NodeType.toNat]

/-- `LessShortName` is a strict weak ordering in both directions if the natural
name comparison is one, whether or not the folder identities resolve. -/
theorem lessShortName_swo (lib : Library) (hname : StrictWeakOrder lib.lessNaturalSort)
    (ascending : Bool) : StrictWeakOrder (lessShortName lib ascending) := by
  have h := rankThenKey_swo (nameRank lib) (nameKey lib) 2
    (makeSortDirection_swo hname ascending)
  have e : lessShortName lib ascending
      = fun a b => decide (nameRank lib a < nameRank lib b)
          || (decide (nameRank lib a = nameRank lib b) && decide (nameRank lib a < 2)
              && makeSortDirection lib.lessNaturalSort ascending (nameKey lib a)
                  (nameKey lib b)) := by
    funext a b
    exact lessShortName_eq lib ascending a b
  rw [e]
  exact h

/-- Insertion into a list that is ordered by a strict weak ordering keeps it
ordered and adds exactly the inserted element. -/
theorem insertion_pairwise {α : Type} {comp : α → α → Bool} (hswo : StrictWeakOrder comp)
    (ins : α → List α → List α) (h0 : ∀ x, ins x [] = [x])
    (h1 : ∀ x y ys, ins x (y :: ys) = if comp y x = true then y :: ins x ys else x :: y :: ys) :
    ∀ (l : List α) (x : α), List.Pairwise (fun a b => comp b a = false) l →
      List.Pairwise (fun a b => comp b a = false) (ins x l)
        ∧ ∀ z ∈ ins x l, z = x ∨ z ∈ l := by
  intro l x
  induction l with
  | nil =>
    intro _
    rw [h0]
    exact ⟨List.pairwise_singleton _ _, fun z hz => Or.inl (List.mem_singleton.mp hz)⟩
  | cons y ys ih =>
    intro hp
    obtain ⟨hy, hys⟩ := List.pairwise_cons.mp hp
    obtain ⟨ih1, ih2⟩ := ih hys
    rw [h1]
    by_cases hc : comp y x = true
    · rw [if_pos hc]
      constructor
      · refine List.pairwise_cons.mpr ⟨?_, ih1⟩
        intro z hz
        rcases ih2 z hz with rfl | hz
        · exact hswo.asymm _ _ hc
        · exact hy z hz
      · intro z hz
        rcases List.mem_cons.mp hz with rfl | hz
        · exact Or.inr (List.mem_cons_self _ _)
        · rcases ih2 z hz with h | h
          · exact Or.inl h
          · exact Or.inr (List.mem_cons_of_mem _ h)
    · rw [if_neg hc]
      have hc2 : comp y x = false := by simpa using hc
      constructor
      · refine List.pairwise_cons.mpr ⟨?_, hp⟩
        intro z hz
        rcases List.mem_cons.mp hz with rfl | hz
        · exact hc2
        · exact hswo.negTrans _ _ _ (hy z hz) hc2
      · intro z hz
        rcases List.mem_cons.mp hz with rfl | hz
        · exact Or.inl rfl
        · exact Or.inr hz

theorem sortByInsertion_pairwise {comp : TreeLine → TreeLine → Bool}
    (hswo : StrictWeakOrder comp) (items : List TreeLine) :
    List.Pairwise (fun a b => comp b a = false) (sortByInsertion comp items) := by
  unfold sortByInsertion
  induction items with
  | nil => exact List.Pairwise.nil
  | cons x xs ih =>
    rw [List.foldr_cons]
    exact (insertion_pairwise hswo (insertLine comp) (fun _ => rfl)
      (fun x y ys => by simp [insertLine]) _ x ih).1

theorem referenceLibrary_sortSorted (folderCmp : List BaseFolderPair) :
    SortSorted (referenceLibrary folderCmp) :=
  fun _ items hswo => sortByInsertion_pairwise hswo items

theorem nthElementBySort_pairwise {comp : Nat × Slot → Nat × Slot → Bool}
    (hswo : StrictWeakOrder comp) (n : Nat) (workList : WorkList) :
    List.Pairwise (fun a b => comp b a = false) (nthElementBySort comp n workList) := by
  unfold nthElementBySort
  induction workList with
  | nil => exact List.Pairwise.nil
  | cons x xs ih =>
    rw [List.foldr_cons]
    exact (insertion_pairwise hswo (orderedInsert comp) (fun _ => rfl)
      (fun x y ys => by simp [orderedInsert]) _ x ih).1

/-- In a list ordered by a comparison, no element is ordered before an element at
a smaller or equal position. -/
theorem pairwise_index {α : Type} {comp : α → α → Bool} (hirr : ∀ a, comp a a = false)
    (l : List α) (hp : List.Pairwise (fun a b => comp b a = false) l) (i j : Nat) (x y : α)
    (hij : i ≤ j) (hi : l[i]? = some x) (hj : l[j]? = some y) : comp y x = false := by
  rcases Nat.lt_or_eq_of_le hij with hlt | heq
  · have hj2 : j < l.length := by
      by_contra hc
      rw [List.getElem?_eq_none (by omega)] at hj
      exact Option.noConfusion hj
    have hi2 : i < l.length := by omega
    have := List.pairwise_iff_getElem.mp hp i j hi2 hj2 hlt
    rw [List.getElem?_eq_getElem hi2] at hi
    rw [List.getElem?_eq_getElem hj2] at hj
    rw [Option.some.inj hi, Option.some.inj hj] at this
    exact this
  · subst heq
    have : x = y := Option.some.inj (hi.symm.trans hj)
    rw [this]
    exact hirr y

theorem nthElementBySort_partition : NthElementPartition nthElementBySort := by
  intro comp n workList hswo _ i j x y hin hnj hi hj
  exact pairwise_index hswo.1 _ (nthElementBySort_pairwise hswo n workList) i j x y
    (by omega) hi hj

theorem lexLess_irrefl : ∀ a : List Nat, lexLess a a = false
  | [] => rfl
  | x :: xs => by simp [lexLess, lexLess_irrefl xs]

theorem lexLess_trans : ∀ a b c : List Nat, lexLess a b = true → lexLess b c = true →
    lexLess a c = true
  | _, [], _, hab, _ => by simp [lexLess] at hab
  | _, _ :: _, [], _, hbc => by simp [lexLess] at hbc
  | [], _ :: _, _ :: _, _, _ => rfl
  | x :: xs, y :: ys, z :: zs, hab, hbc => by
    simp only [lexLess, Bool.or_eq_true, decide_eq_true_eq, Bool.and_eq_true, beq_iff_eq]
      at hab hbc ⊢
    rcases hab with hab | ⟨hab1, hab2⟩
    · rcases hbc with hbc | ⟨hbc1, _⟩
      · exact Or.inl (by omega)
      · exact Or.inl (by omega)
    · rcases hbc with hbc | ⟨hbc1, hbc2⟩
      · exact Or.inl (by omega)
      · exact Or.inr ⟨by omega, lexLess_trans xs ys zs hab2 hbc2⟩

theorem lexLess_eq_of_incomparable : ∀ a b : List Nat, lexLess a b = false →
    lexLess b a = false → a = b
  | [], [], _, _ => rfl
  | [], _ :: _, hab, _ => by simp [lexLess] at hab
  | _ :: _, [], _, hba => by simp [lexLess] at hba
  | x :: xs, y :: ys, hab, hba => by
    simp only [lexLess, Bool.or_eq_false_iff, decide_eq_false_iff_not, not_lt,
      Bool.and_eq_false_iff, beq_eq_false_iff_ne, ne_eq] at hab hba
    have e : x = y := by omega
    subst e
    have h1 : lexLess xs ys = false := by
      rcases hab.2 with h | h
      · exact absurd rfl h
      · exact h
    have h2 : lexLess ys xs = false := by
      rcases hba.2 with h | h
      · exact absurd rfl h
      · exact h
    rw [lexLess_eq_of_incomparable xs ys h1 h2]

theorem lexLess_swo : StrictWeakOrder lexLess := by
  refine ⟨lexLess_irrefl, lexLess_trans, ?_⟩
  intro a b c hab hba hbc hcb
  have e1 := lexLess_eq_of_incomparable a b hab hba
  have e2 := lexLess_eq_of_incomparable b c hbc hcb
  rw [e1, e2]
  exact ⟨lexLess_irrefl c, lexLess_irrefl c⟩

theorem referenceLibrary_lessNaturalSort_swo (folderCmp : List BaseFolderPair) :
    StrictWeakOrder (referenceLibrary folderCmp).lessNaturalSort :=
  lexLess_swo.comap (fun name : String => name.toList.map Char.toNat)

/-! ## Theorems: the order of a sorted sibling list -/

/-- A row that the comparison orders behind every other row is the last row of
the sorted list. -/
theorem sorted_last_of_all_before {α : Type} (comp : α → α → Bool) (out items : List α)
    (hperm : List.Perm out items)
    (hsorted : List.Pairwise (fun a b => comp b a = false) out) (f : α) (hf : f ∈ items)
    (hall : ∀ x ∈ items, x ≠ f → comp x f = true) : out.getLast? = some f := by
  have hfo : f ∈ out := (List.Perm.mem_iff hperm).mpr hf
  have hne : out ≠ [] := List.ne_nil_of_mem hfo
  rw [List.getLast?_eq_getLast _ hne]
  by_contra hc
  have hx : out.getLast hne ≠ f := fun e => hc (by rw [e])
  have hxi : out.getLast hne ∈ items := (List.Perm.mem_iff hperm).mp (List.getLast_mem hne)
  have hcomp := hall _ hxi hx
  have hsplit := List.dropLast_append_getLast hne
  rw [← hsplit] at hsorted hfo
  have hfi : f ∈ out.dropLast := by
    rcases List.mem_append.mp hfo with h | h
    · exact h
    · exact absurd (List.mem_singleton.mp h).symm hx
  have := (List.pairwise_append.mp hsorted).2.2 f hfi (out.getLast hne)
    (List.mem_singleton.mpr rfl)
  rw [hcomp] at this
  exact Bool.noConfusion this

/-- A row that the comparison orders before some other row is not the last row of
the sorted list. -/
theorem sorted_last_ne_of_before {α : Type} (comp : α → α → Bool) (hirr : ∀ a, comp a a = false)
    (out items : List α) (hperm : List.Perm out items)
    (hsorted : List.Pairwise (fun a b => comp b a = false) out) (f : α)
    (hex : ∃ x ∈ items, comp f x = true) : out.getLast? ≠ some f := by
  obtain ⟨x, hx, hfx⟩ := hex
  have hxo : x ∈ out := (List.Perm.mem_iff hperm).mpr hx
  have hne : out ≠ [] := List.ne_nil_of_mem hxo
  rw [List.getLast?_eq_getLast _ hne]
  intro hc
  have hlast : out.getLast hne = f := Option.some.inj hc
  have hsplit := List.dropLast_append_getLast hne
  rw [hlast] at hsplit
  rw [← hsplit] at hsorted hxo
  rcases List.mem_append.mp hxo with h | h
  · have := (List.pairwise_append.mp hsorted).2.2 x h f (List.mem_singleton.mpr rfl)
    rw [hfx] at this
    exact Bool.noConfusion this
  · rw [List.mem_singleton.mp h, hirr f] at hfx
    exact Bool.noConfusion hfx

theorem lessShortName_files_last (lib : Library) (ascending : Bool) (x f : TreeLine)
    (hx : x.type ≠ NodeType.files) (hf : f.type = NodeType.files) :
    lessShortName lib ascending x f = true := by
  unfold lessShortName
  rw [if_neg hx, if_pos hf]

theorem lessShortName_files_first (lib : Library) (ascending : Bool) (x f : TreeLine)
    (hf : f.type = NodeType.files) : lessShortName lib ascending f x = false := by
  unfold lessShortName
  rw [if_pos hf]

/-- C23: the name sort pins the files bucket. For a sort that rearranges and
orders by any strict weak ordering, and a natural name comparison that is a
strict weak ordering: in every sibling row list that contains one files row,
after `sortSingleLevel` with column name (`ColumnTypeTree::folder`), ascending or
descending, the files row is the last element. -/
theorem name_sort_pins_files (lib : Library) (hperm : SortPerm lib) (hsorted : SortSorted lib)
    (hname : StrictWeakOrder lib.lessNaturalSort) (ascending : Bool) (items : List TreeLine)
    (f : TreeLine) (hf : f ∈ items) (hfiles : f.type = NodeType.files)
    (hone : ∀ x ∈ items, x.type = NodeType.files → x = f) :
    (sortSingleLevel lib ascending items ColumnTypeTree.folder).getLast? = some f := by
  unfold sortSingleLevel
  simp only []
  apply sorted_last_of_all_before (lessShortName lib ascending) _ items (hperm _ items)
    (hsorted _ items (lessShortName_swo lib hname ascending)) f hf
  intro x hx hxf
  exact lessShortName_files_last lib ascending x f (fun h => hxf (hone x hx h)) hfiles

theorem name_sort_pins_files_witness :
    SortPerm (referenceLibrary exampleCmp)
      ∧ SortSorted (referenceLibrary exampleCmp)
      ∧ StrictWeakOrder (referenceLibrary exampleCmp).lessNaturalSort
      ∧ docsFilesRow ∈ [docsFilesRow, imgRow]
      ∧ docsFilesRow.type = NodeType.files
      ∧ (∀ x ∈ [docsFilesRow, imgRow], x.type = NodeType.files → x = docsFilesRow)
      ∧ (sortSingleLevel (referenceLibrary exampleCmp) false [docsFilesRow, imgRow]
          ColumnTypeTree.folder).getLast? = some docsFilesRow :=
  ⟨referenceLibrary_sortPerm exampleCmp, referenceLibrary_sortSorted exampleCmp,
    referenceLibrary_lessNaturalSort_swo exampleCmp, List.mem_cons_self _ _, rfl,
    (by
      intro x hx ht
      rcases List.mem_cons.mp hx with rfl | hx
      · rfl
      · rw [List.mem_singleton.mp hx] at ht
        exact NodeType.noConfusion ht),
    name_sort_pins_files (referenceLibrary exampleCmp) (referenceLibrary_sortPerm exampleCmp)
      (referenceLibrary_sortSorted exampleCmp) (referenceLibrary_lessNaturalSort_swo exampleCmp)
      false [docsFilesRow, imgRow] docsFilesRow (List.mem_cons_self _ _) rfl
      (by
        intro x hx ht
        rcases List.mem_cons.mp hx with rfl | hx
        · rfl
        · rw [List.mem_singleton.mp hx] at ht
          exact NodeType.noConfusion ht)⟩

/-- C24 (counterexample): the children of the folder `docs` of the example
comparison, sorted by bytes in descending order, have the files row (600 bytes)
first and the folder row of `img` (0 bytes) last. -/
theorem files_row_first_by_bytes_descending :
    (getChildren (referenceLibrary exampleCmp) byBytesDescending (NodePtr.dir docsNode) 2).map
        (fun r => (r.type, lineBytes r))
      = [(NodeType.files, 600), (NodeType.folder, 0)] := by
  decide

/-- C24: the place of the files row by sort column. For a sort that rearranges and
orders by any strict weak ordering, and a natural name comparison that is a
strict weak ordering: in every sibling row list that contains one files row, the
files row is the last element after sorting by name in either direction; after
sorting by item count or by bytes it is placed by its net value like every other
row, so it is not the last element whenever another row has a strictly greater
value (ascending) or a strictly smaller value (descending), and it is the last
element if every other row has a strictly smaller value (ascending) or a strictly
greater value (descending). -/
theorem files_row_place_by_column (lib : Library) (hperm : SortPerm lib)
    (hsorted : SortSorted lib) (hname : StrictWeakOrder lib.lessNaturalSort)
    (ascending : Bool) (items : List TreeLine) (f : TreeLine) (hf : f ∈ items)
    (hfiles : f.type = NodeType.files) (hone : ∀ x ∈ items, x.type = NodeType.files → x = f) :
    (sortSingleLevel lib ascending items ColumnTypeTree.folder).getLast? = some f
      ∧ ((∃ x ∈ items, if ascending then f.node.cont.itemCountNet < lineCount x
            else lineCount x < f.node.cont.itemCountNet) →
          (sortSingleLevel lib ascending items ColumnTypeTree.itemCount).getLast? ≠ some f)
      ∧ ((∃ x ∈ items, if ascending then f.node.cont.bytesNet < lineBytes x
            else lineBytes x < f.node.cont.bytesNet) →
          (sortSingleLevel lib ascending items ColumnTypeTree.bytes).getLast? ≠ some f)
      ∧ ((∀ x ∈ items, x ≠ f → if ascending then lineCount x < f.node.cont.itemCountNet
            else f.node.cont.itemCountNet < lineCount x) →
          (sortSingleLevel lib ascending items ColumnTypeTree.itemCount).getLast? = some f)
      ∧ ((∀ x ∈ items, x ≠ f → if ascending then lineBytes x < f.node.cont.bytesNet
            else f.node.cont.bytesNet < lineBytes x) →
          (sortSingleLevel lib ascending items ColumnTypeTree.bytes).getLast? = some f) := by
  have hcount : lineCount f = f.node.cont.itemCountNet := by
    unfold lineCount
    rw [hfiles]
  have hbytes : lineBytes f = f.node.cont.bytesNet := by
    unfold lineBytes
    rw [hfiles]
  have hswoC := makeSortDirection_swo (keyLess_swo lineCount) ascending
  have hswoB := makeSortDirection_swo (keyLess_swo lineBytes) ascending
  refine ⟨?_, ?_, ?_, ?_, ?_⟩
  · unfold sortSingleLevel
    simp only []
    apply sorted_last_of_all_before (lessShortName lib ascending) _ items (hperm _ items)
      (hsorted _ items (lessShortName_swo lib hname ascending)) f hf
    intro x hx hxf
    exact lessShortName_files_last lib ascending x f (fun h => hxf (hone x hx h)) hfiles
  · rintro ⟨x, hx, hlt⟩
    unfold sortSingleLevel
    simp only []
    apply sorted_last_ne_of_before _ hswoC.1 _ items (hperm _ items) (hsorted _ items hswoC) f
    refine ⟨x, hx, ?_⟩
    cases ascending with
    | true => simpa [makeSortDirection, hcount] using hlt
    | false => simpa [makeSortDirection, hcount] using hlt
  · rintro ⟨x, hx, hlt⟩
    unfold sortSingleLevel
    simp only []
    apply sorted_last_ne_of_before _ hswoB.1 _ items (hperm _ items) (hsorted _ items hswoB) f
    refine ⟨x, hx, ?_⟩
    cases ascending with
    | true => simpa [makeSortDirection, hbytes] using hlt
    | false => simpa [makeSortDirection, hbytes] using hlt
  · intro hall
    unfold sortSingleLevel
    simp only []
    apply sorted_last_of_all_before _ _ items (hperm _ items) (hsorted _ items hswoC) f hf
    intro x hx hxf
    have hlt := hall x hx hxf
    cases ascending with
    | true => simpa [makeSortDirection, hcount] using hlt
    | false => simpa [makeSortDirection, hcount] using hlt
  · intro hall
    unfold sortSingleLevel
    simp only []
    apply sorted_last_of_all_before _ _ items (hperm _ items) (hsorted _ items hswoB) f hf
    intro x hx hxf
    have hlt := hall x hx hxf
    cases ascending with
    | true => simpa [makeSortDirection, hbytes] using hlt
    | false => simpa [makeSortDirection, hbytes] using hlt

theorem files_row_place_by_column_witness :
    SortPerm (referenceLibrary exampleCmp)
      ∧ SortSorted (referenceLibrary exampleCmp)
      ∧ StrictWeakOrder (referenceLibrary exampleCmp).lessNaturalSort
      ∧ docsFilesRow ∈ [docsFilesRow, imgRow]
      ∧ docsFilesRow.type = NodeType.files
      ∧ (∀ x ∈ [docsFilesRow, imgRow], x.type = NodeType.files → x = docsFilesRow)
      ∧ ((sortSingleLevel (referenceLibrary exampleCmp) false [docsFilesRow, imgRow]
            ColumnTypeTree.folder).getLast? = some docsFilesRow
        ∧ ((∃ x ∈ [docsFilesRow, imgRow],
              if false then docsFilesRow.node.cont.itemCountNet < lineCount x
              else lineCount x < docsFilesRow.node.cont.itemCountNet) →
            (sortSingleLevel (referenceLibrary exampleCmp) false [docsFilesRow, imgRow]
              ColumnTypeTree.itemCount).getLast? ≠ some docsFilesRow)
        ∧ ((∃ x ∈ [docsFilesRow, imgRow],
              if false then docsFilesRow.node.cont.bytesNet < lineBytes x
              else lineBytes x < docsFilesRow.node.cont.bytesNet) →
            (sortSingleLevel (referenceLibrary exampleCmp) false [docsFilesRow, imgRow]
              ColumnTypeTree.bytes).getLast? ≠ some docsFilesRow)
        ∧ ((∀ x ∈ [docsFilesRow, imgRow], x ≠ docsFilesRow →
              if false then lineCount x < docsFilesRow.node.cont.itemCountNet
              else docsFilesRow.node.cont.itemCountNet < lineCount x) →
            (sortSingleLevel (referenceLibrary exampleCmp) false [docsFilesRow, imgRow]
              ColumnTypeTree.itemCount).getLast? = some docsFilesRow)
        ∧ ((∀ x ∈ [docsFilesRow, imgRow], x ≠ docsFilesRow →
              if false then lineBytes x < docsFilesRow.node.cont.bytesNet
              else docsFilesRow.node.cont.bytesNet < lineBytes x) →
            (sortSingleLevel (referenceLibrary exampleCmp) false [docsFilesRow, imgRow]
              ColumnTypeTree.bytes).getLast? = some docsFilesRow)) :=
  ⟨referenceLibrary_sortPerm exampleCmp, referenceLibrary_sortSorted exampleCmp,
    referenceLibrary_lessNaturalSort_swo exampleCmp, List.mem_cons_self _ _, rfl,
    (by
      intro x hx ht
      rcases List.mem_cons.mp hx with rfl | hx
      · rfl
      · rw [List.mem_singleton.mp hx] at ht
        exact NodeType.noConfusion ht),
    files_row_place_by_column (referenceLibrary exampleCmp)
      (referenceLibrary_sortPerm exampleCmp) (referenceLibrary_sortSorted exampleCmp)
      (referenceLibrary_lessNaturalSort_swo exampleCmp) false [docsFilesRow, imgRow]
      docsFilesRow (List.mem_cons_self _ _) rfl
      (by
        intro x hx ht
        rcases List.mem_cons.mp hx with rfl | hx
        · rfl
        · rw [List.mem_singleton.mp hx] at ht
          exact NodeType.noConfusion ht)⟩

/-! ## Theorems: folder rows whose identity does not resolve -/

/-- C25 (counterexample): with the registry of the example comparison, the folder
row `staleRow` does not resolve and the folder row of `img` does; in both sort
directions the name comparison does not order the unresolved row before the
resolved one, it orders the resolved row before the unresolved one. -/
theorem stale_row_is_not_ordered_first :
    (resolveFolder (referenceLibrary exampleCmp) staleRow.node.objId).isSome = false
      ∧ (resolveFolder (referenceLibrary exampleCmp) imgRow.node.objId).map FolderPair.id = some 4
      ∧ lessShortName (referenceLibrary exampleCmp) true staleRow imgRow = false
      ∧ lessShortName (referenceLibrary exampleCmp) false staleRow imgRow = false
      ∧ lessShortName (referenceLibrary exampleCmp) true imgRow staleRow = true
      ∧ lessShortName (referenceLibrary exampleCmp) false imgRow staleRow = true := by
  decide

/-- C25: name sort with stale identities. For every pair of folder rows of which
one has an identity that no longer resolves and the other has one that resolves,
the name comparison orders the resolved row before the unresolved one and never
the unresolved row before the resolved one, in both sort directions. -/
theorem resolved_before_unresolved (lib : Library) (ascending : Bool)
    (stale live : TreeLine) (hstale : stale.type = NodeType.folder)
    (hlive : live.type = NodeType.folder)
    (hnone : resolveFolder lib stale.node.objId = none)
    (hsome : (resolveFolder lib live.node.objId).isSome = true) :
    lessShortName lib ascending live stale = true
      ∧ lessShortName lib ascending stale live = false := by
  obtain ⟨folder, hfolder⟩ := Option.isSome_iff_exists.mp hsome
  unfold lessShortName
  simp [hstale, hlive, hnone, hfolder]

theorem resolved_before_unresolved_witness :
    staleRow.type = NodeType.folder
      ∧ imgRow.type = NodeType.folder
      ∧ resolveFolder (referenceLibrary exampleCmp) staleRow.node.objId = none
      ∧ (resolveFolder (referenceLibrary exampleCmp) imgRow.node.objId).isSome = true
      ∧ lessShortName (referenceLibrary exampleCmp) false imgRow staleRow = true
      ∧ lessShortName (referenceLibrary exampleCmp) false staleRow imgRow = false :=
  ⟨rfl, rfl, rfl, by decide,
    resolved_before_unresolved (referenceLibrary exampleCmp) false staleRow imgRow rfl rfl
      rfl (by decide)⟩

/-! ## Theorems: sorting by item count and by bytes -/

/-- C26: sort by item count and by bytes. For a sort that rearranges and orders
by any strict weak ordering, `sortSingleLevel` with column `itemCount` (with
column `bytes`) returns a permutation of the input rows, each row with its
level, percentage, node and kind, in which the key, `itemCountGross`
(`bytesGross`) for a root or folder row and `itemCountNet` (`bytesNet`) for a
files row, is non-decreasing along the list when ascending and non-increasing
when descending. -/
theorem sort_by_count_or_bytes (lib : Library) (hperm : SortPerm lib) (hsorted : SortSorted lib)
    (ascending : Bool) (items : List TreeLine) :
    List.Perm (sortSingleLevel lib ascending items ColumnTypeTree.itemCount) items
      ∧ List.Pairwise
          (fun a b => if ascending then lineCount a ≤ lineCount b else lineCount b ≤ lineCount a)
          (sortSingleLevel lib ascending items ColumnTypeTree.itemCount)
      ∧ List.Perm (sortSingleLevel lib ascending items ColumnTypeTree.bytes) items
      ∧ List.Pairwise
          (fun a b => if ascending then lineBytes a ≤ lineBytes b else lineBytes b ≤ lineBytes a)
          (sortSingleLevel lib ascending items ColumnTypeTree.bytes)
      ∧ (∀ line : TreeLine,
          lineCount line
              = (if line.type = NodeType.files then line.node.cont.itemCountNet
                 else line.node.cont.itemCountGross)
            ∧ lineBytes line
              = (if line.type = NodeType.files then line.node.cont.bytesNet
                 else line.node.cont.bytesGross)) := by
  have hswoC := makeSortDirection_swo (keyLess_swo lineCount) ascending
  have hswoB := makeSortDirection_swo (keyLess_swo lineBytes) ascending
  refine ⟨hperm _ items, ?_, hperm _ items, ?_, ?_⟩
  · have h := hsorted _ items hswoC
    unfold sortSingleLevel
    simp only []
    refine List.Pairwise.imp ?_ h
    intro a b hab
    cases ascending with
    | true => simpa [makeSortDirection] using hab
    | false => simpa [makeSortDirection] using hab
  · have h := hsorted _ items hswoB
    unfold sortSingleLevel
    simp only []
    refine List.Pairwise.imp ?_ h
    intro a b hab
    cases ascending with
    | true => simpa [makeSortDirection] using hab
    | false => simpa [makeSortDirection] using hab
  · intro line
    unfold lineCount lineBytes
    cases line.type <;> simp

theorem sort_by_count_or_bytes_witness :
    SortPerm (referenceLibrary exampleCmp)
      ∧ SortSorted (referenceLibrary exampleCmp)
      ∧ (List.Perm
          (sortSingleLevel (referenceLibrary exampleCmp) true [docsFilesRow, imgRow]
            ColumnTypeTree.itemCount) [docsFilesRow, imgRow]
        ∧ List.Pairwise
            (fun a b => if true then lineCount a ≤ lineCount b else lineCount b ≤ lineCount a)
            (sortSingleLevel (referenceLibrary exampleCmp) true [docsFilesRow, imgRow]
              ColumnTypeTree.itemCount)
        ∧ List.Perm
            (sortSingleLevel (referenceLibrary exampleCmp) true [docsFilesRow, imgRow]
              ColumnTypeTree.bytes) [docsFilesRow, imgRow]
        ∧ List.Pairwise
            (fun a b => if true then lineBytes a ≤ lineBytes b else lineBytes b ≤ lineBytes a)
            (sortSingleLevel (referenceLibrary exampleCmp) true [docsFilesRow, imgRow]
              ColumnTypeTree.bytes)
        ∧ (∀ line : TreeLine,
            lineCount line
                = (if line.type = NodeType.files then line.node.cont.itemCountNet
                   else line.node.cont.itemCountGross)
              ∧ lineBytes line
                = (if line.type = NodeType.files then line.node.cont.bytesNet
                   else line.node.cont.bytesGross))) :=
  ⟨referenceLibrary_sortPerm exampleCmp, referenceLibrary_sortSorted exampleCmp,
    sort_by_count_or_bytes (referenceLibrary exampleCmp) (referenceLibrary_sortPerm exampleCmp)
      (referenceLibrary_sortSorted exampleCmp) true [docsFilesRow, imgRow]⟩

/-- The children of `docs` sorted by bytes in ascending order: the folder row of
`img` (0 bytes), then the files row (600 bytes). -/
theorem sort_by_bytes_example :
    (sortSingleLevel (referenceLibrary exampleCmp) true [docsFilesRow, imgRow]
        ColumnTypeTree.bytes).map (fun r => (r.type, lineBytes r))
      = [(NodeType.folder, 0), (NodeType.files, 600)] := by
  decide

/-! ## Theorems: `getLine` -/

theorem foldl_push_filter {α β : Type} (p : α → Bool) (g : α → β) (l : List α) (init : List β) :
    l.foldl (fun acc x => if p x = true then acc ++ [g x] else acc) init
      = init ++ (l.filter p).map g := by
  induction l generalizing init with
  | nil => simp
  | cons x xs ih =>
    rw [List.foldl_cons, ih]
    cases hp : p x <;> simp [hp]

/-- The list that `getLine` collects: the direct files that satisfy the predicate,
in source order, then the direct symlinks that satisfy it, in source order. -/
theorem collectFilesAndLinks_eq (pred : Predicate) (parent : ContainerObject) :
    collectFilesAndLinks pred parent
      = (parent.subFiles.filter (fun file => pred (.file file))).map FileSystemObject.file
        ++ (parent.subLinks.filter (fun link => pred (.symlink link))).map
            FileSystemObject.symlink := by
  unfold collectFilesAndLinks
  simp only []
  rw [foldl_push_filter (fun link => pred (.symlink link)) FileSystemObject.symlink,
    foldl_push_filter (fun file => pred (.file file)) FileSystemObject.file]
  simp

/-- C27: `getLine` on a files row. When the row is a files row and the
`firstFileId` of its container resolves, the returned node is a `FilesNode` that
carries the percentage and the level of the row, the `bytesNet` and
`itemCountNet` of the container, and the list of exactly the direct files of the
parent of the resolved object that satisfy the current predicate, in source
order, followed by exactly its direct symlinks that satisfy it, in source
order. -/
theorem getLine_files_row (lib : Library) (parent : FileSystemObject → ContainerObject)
    (tv : TreeView) (row : Nat) (line : TreeLine) (firstFile : FileSystemObject)
    (hrow : tv.flatTree[row]? = some line) (htype : line.type = NodeType.files)
    (hres : lib.retrieve line.node.cont.firstFileId = some firstFile) :
    getLine lib parent tv row
      = some (Node.FilesNode line.percent line.node.cont.bytesNet line.node.cont.itemCountNet
          line.level
          (((parent firstFile).subFiles.filter
                (fun file => tv.lastViewFilterPred (.file file))).map FileSystemObject.file
            ++ ((parent firstFile).subLinks.filter
                (fun link => tv.lastViewFilterPred (.symlink link))).map
                  FileSystemObject.symlink)) := by
  unfold getLine
  simp only [hrow, htype, hres, collectFilesAndLinks_eq]

theorem getLine_files_row_witness :
    exampleView.flatTree[3]? = some docsFilesRow
      ∧ docsFilesRow.type = NodeType.files
      ∧ (referenceLibrary exampleCmp).retrieve docsFilesRow.node.cont.firstFileId
          = some (FileSystemObject.file ⟨12, 600, 600⟩)
      ∧ getLine (referenceLibrary exampleCmp) (parentIn exampleCmp) exampleView 3
          = some (Node.FilesNode docsFilesRow.percent docsFilesRow.node.cont.bytesNet
              docsFilesRow.node.cont.itemCountNet docsFilesRow.level
              (((parentIn exampleCmp (FileSystemObject.file ⟨12, 600, 600⟩)).subFiles.filter
                    (fun file => exampleView.lastViewFilterPred (.file file))).map
                  FileSystemObject.file
                ++ ((parentIn exampleCmp (FileSystemObject.file ⟨12, 600, 600⟩)).subLinks.filter
                    (fun link => exampleView.lastViewFilterPred (.symlink link))).map
                      FileSystemObject.symlink)) :=
  ⟨rfl, rfl, rfl,
    getLine_files_row (referenceLibrary exampleCmp) (parentIn exampleCmp) exampleView 3
      docsFilesRow (FileSystemObject.file ⟨12, 600, 600⟩) rfl rfl rfl⟩

/-- The files row of `docs` in the example view materialises to the one file of
`docs`, with net values 600 bytes and one item. -/
theorem getLine_files_example :
    getLine (referenceLibrary exampleCmp) (parentIn exampleCmp) exampleView 3
      = some (Node.FilesNode 100 600 1 2 [FileSystemObject.file ⟨12, 600, 600⟩]) := by
  rfl

/-- C28: `getLine` returns the null pointer exactly in the defensive cases: the row
is out of range, or it is a folder row whose stored folder identity does not
resolve to a folder, or it is a files row whose `firstFileId` does not resolve.
A root row in range always yields a `RootNode` with the percentage of the row,
the `bytesGross` and `itemCountGross` of the root node, the status of the row,
the root pair and the display name. -/
theorem getLine_none_iff (lib : Library) (parent : FileSystemObject → ContainerObject)
    (tv : TreeView) (row : Nat) :
    (getLine lib parent tv row = none
        ↔ tv.flatTree.length ≤ row
          ∨ (∃ line, tv.flatTree[row]? = some line ∧ line.type = NodeType.folder
              ∧ resolveFolder lib line.node.objId = none)
          ∨ (∃ line, tv.flatTree[row]? = some line ∧ line.type = NodeType.files
              ∧ lib.retrieve line.node.cont.firstFileId = none))
      ∧ (∀ line, tv.flatTree[row]? = some line → line.type = NodeType.root →
          getLine lib parent tv row
            = some (Node.RootNode line.percent line.node.cont.bytesGross
                line.node.cont.itemCountGross (getStatus tv row) line.node.baseFolder
                line.node.displayName)) := by
  constructor
  · cases hrow : tv.flatTree[row]? with
    | none =>
      have hlen : tv.flatTree.length ≤ row := List.getElem?_eq_none_iff.mp hrow
      simp only [getLine, hrow, true_iff]
      exact Or.inl hlen
    | some line =>
      have hlen : ¬ tv.flatTree.length ≤ row := by
        intro hc
        rw [List.getElem?_eq_none hc] at hrow
        exact Option.noConfusion hrow
      cases htype : line.type with
      | root =>
        simp only [getLine, hrow, htype]
        refine ⟨fun h => Option.noConfusion h, fun h => False.elim ?_⟩
        rcases h with h | ⟨l2, h1, h2, _⟩ | ⟨l2, h1, h2, _⟩
        · exact hlen h
        · rw [← Option.some.inj h1, htype] at h2
          exact NodeType.noConfusion h2
        · rw [← Option.some.inj h1, htype] at h2
          exact NodeType.noConfusion h2
      | folder =>
        cases hres : resolveFolder lib line.node.objId with
        | none =>
          simp only [getLine, hrow, htype, hres, true_iff]
          exact Or.inr (Or.inl ⟨line, rfl, htype, hres⟩)
        | some folder =>
          simp only [getLine, hrow, htype, hres]
          refine ⟨fun h => Option.noConfusion h, fun h => False.elim ?_⟩
          rcases h with h | ⟨l2, h1, _, h3⟩ | ⟨l2, h1, h2, _⟩
          · exact hlen h
          · rw [← Option.some.inj h1, hres] at h3
            exact Option.noConfusion h3
          · rw [← Option.some.inj h1, htype] at h2
            exact NodeType.noConfusion h2
      | files =>
        cases hres : lib.retrieve line.node.cont.firstFileId with
        | none =>
          simp only [getLine, hrow, htype, hres, true_iff]
          exact Or.inr (Or.inr ⟨line, rfl, htype, hres⟩)
        | some firstFile =>
          simp only [getLine, hrow, htype, hres]
          refine ⟨fun h => Option.noConfusion h, fun h => False.elim ?_⟩
          rcases h with h | ⟨l2, h1, h2, _⟩ | ⟨l2, h1, _, h3⟩
          · exact hlen h
          · rw [← Option.some.inj h1, htype] at h2
            exact NodeType.noConfusion h2
          · rw [← Option.some.inj h1, hres] at h3
            exact Option.noConfusion h3
  · intro line hrow htype
    simp only [getLine, hrow, htype]

/-! ## Theorems: the largest-remainder rule of `calcPercentage` -/

theorem roundDown_apply_of_mem (total : Nat) (l : WorkList) (mem : Store) (r : Int)
    (hslots : (l.map Prod.snd).Nodup) (pair : Nat × Slot) (hp : pair ∈ l) :
    (roundDown total l mem r).1 pair.2 = toInt32 (pair.1 * 100 % 2 ^ 64 / total) := by
  induction l generalizing mem r with
  | nil => simp at hp
  | cons x xs ih =>
    rw [List.map_cons, List.nodup_cons] at hslots
    rw [roundDown_cons]
    rcases List.mem_cons.mp hp with rfl | hp
    · rw [roundDown_apply_of_not_mem _ _ _ _ _ hslots.1]
      simp [Store.write]
    · exact ih _ _ hslots.2 hp

theorem incrementAll_apply (range : WorkList) (mem : Store) (q : Slot)
    (hslots : (range.map Prod.snd).Nodup) :
    incrementAll range mem q = mem q + (if q ∈ range.map Prod.snd then 1 else 0) := by
  induction range generalizing mem with
  | nil => simp [incrementAll]
  | cons x xs ih =>
    rw [List.map_cons, List.nodup_cons] at hslots
    have hstep : incrementAll (x :: xs) mem = incrementAll xs (mem.write x.2 (mem x.2 + 1)) := by
      simp [incrementAll]
    rw [hstep, ih _ hslots.2]
    by_cases hq : q = x.2
    · subst hq
      simp [Store.write, hslots.1]
    · have hmem : q ∈ x.2 :: xs.map Prod.snd ↔ q ∈ xs.map Prod.snd := by
        rw [List.mem_cons]
        exact ⟨fun h => h.resolve_left hq, Or.inr⟩
      simp only [Store.write, if_neg hq, List.map_cons]
      by_cases hm : q ∈ xs.map Prod.snd
      · rw [if_pos hm, if_pos (hmem.mpr hm)]
      · rw [if_neg hm, if_neg (fun h => hm (hmem.mp h))]

/-- When no `uint64_t` operation wraps around, the memory after `calcPercentage`
is the memory after the round-down loop with the slots of the first
`100 - S` pairs of the rearranged list incremented, `S` being the sum of the
shares rounded down; `S` is at most 100 and `100 - S` is less than the number of
pairs. -/
theorem calcPercentage_eq_of_no_wrap (nthElement : NthElement) (workList : WorkList)
    (mem : Store) (hslots : (workList.map Prod.snd).Nodup) (hne : workList ≠ [])
    (hlen : workList.length < 2 ^ 31)
    (hw : ∀ pair ∈ workList, pair.1 * 100 < 2 ^ 64)
    (hsum : (workList.map Prod.fst).sum < 2 ^ 64)
    (hpos : 0 < (workList.map Prod.fst).sum) :
    (calcPercentage nthElement workList mem).2
        = incrementAll
            ((nthElement (remainderGreater (workList.map Prod.fst).sum)
                (100 - (workList.map
                  (fun pair => pair.1 * 100 / (workList.map Prod.fst).sum)).sum - 1)
                workList).take
              (100 - (workList.map
                (fun pair => pair.1 * 100 / (workList.map Prod.fst).sum)).sum))
            (roundDown (workList.map Prod.fst).sum workList mem 100).1
      ∧ (workList.map (fun pair => pair.1 * 100 / (workList.map Prod.fst).sum)).sum ≤ 100
      ∧ 100 - (workList.map (fun pair => pair.1 * 100 / (workList.map Prod.fst).sum)).sum
          < workList.length
      ∧ ∀ pair ∈ workList,
          toInt32 (pair.1 * 100 % 2 ^ 64 / (workList.map Prod.fst).sum)
            = ((pair.1 * 100 / (workList.map Prod.fst).sum : Nat) : Int) := by
  have ht : accumulateTotal workList = (workList.map Prod.fst).sum := by
    rw [accumulateTotal_eq, Nat.mod_eq_of_lt hsum]
  have hne2 : workList.map Prod.fst ≠ [] := by
    intro h
    exact hne (List.map_eq_nil_iff.mp h)
  obtain ⟨hb1, hb2⟩ := shares_bounds (workList.map Prod.fst) hne2 hpos
  rw [List.map_map] at hb1 hb2
  rw [List.length_map] at hb2
  have hfun : ((fun w => w * 100 / (workList.map Prod.fst).sum) ∘ Prod.fst)
      = fun pair : Nat × Slot => pair.1 * 100 / (workList.map Prod.fst).sum := rfl
  rw [hfun] at hb1 hb2
  have hshare1 : ∀ pair ∈ workList,
      toInt32 (pair.1 * 100 % 2 ^ 64 / (workList.map Prod.fst).sum)
        = ((pair.1 * 100 / (workList.map Prod.fst).sum : Nat) : Int) := by
    intro pair hp
    have hle : pair.1 ≤ (workList.map Prod.fst).sum :=
      List.single_le_sum (fun _ _ => Nat.zero_le _) _ (List.mem_map_of_mem Prod.fst hp)
    have hdiv : pair.1 * 100 / (workList.map Prod.fst).sum ≤ 100 := by
      apply Nat.div_le_of_le_mul
      nlinarith
    rw [Nat.mod_eq_of_lt (hw pair hp), toInt32_of_lt _ (by omega)]
  have hshare : workList.map
      (fun pair => toInt32 (pair.1 * 100 % 2 ^ 64 / (workList.map Prod.fst).sum))
      = workList.map (fun pair =>
          ((pair.1 * 100 / (workList.map Prod.fst).sum : Nat) : Int)) :=
    List.map_congr_left hshare1
  have hcast : (workList.map (fun pair =>
      ((pair.1 * 100 / (workList.map Prod.fst).sum : Nat) : Int))).sum
      = ((workList.map
          (fun pair => pair.1 * 100 / (workList.map Prod.fst).sum)).sum : Nat) :=
    sum_map_natCast _ workList
  obtain ⟨hr1, _⟩ := roundDown_spec (workList.map Prod.fst).sum workList mem 100 hslots
  rw [hshare, hcast] at hr1
  have hlen2 : toInt32 workList.length = (workList.length : Int) := toInt32_of_lt _ hlen
  refine ⟨?_, hb1, by omega, hshare1⟩
  unfold calcPercentage
  simp only [ht, hlen2]
  rw [if_neg (by omega)]
  generalize hS : (workList.map
      (fun pair => pair.1 * 100 / (workList.map Prod.fst).sum)).sum = S at hb1 hb2 hr1
  have hmin : min (roundDown (workList.map Prod.fst).sum workList mem 100).2
      (workList.length : Int) = 100 - (S : Int) := by
    rw [hr1]
    apply min_eq_left
    omega
  rw [hmin]
  have htoNat : (100 - (S : Int)).toNat = 100 - S := by omega
  by_cases hgt : (100 : Int) - S > 0
  · rw [if_pos hgt]
    simp only [htoNat]
  · rw [if_neg hgt]
    have h0 : 100 - S = 0 := by omega
    simp only [h0, List.take_zero]
    rfl

theorem remainderGreater_swo (total : Nat) : StrictWeakOrder (remainderGreater total) := by
  have h := (keyLess_swo (fun pair : Nat × Slot => pair.1 * 100 % 2 ^ 64 % total)).swap
  have e : remainderGreater total
      = fun a b => decide ((fun pair : Nat × Slot => pair.1 * 100 % 2 ^ 64 % total) b
          < (fun pair : Nat × Slot => pair.1 * 100 % 2 ^ 64 % total) a) := by
    funext a b
    rfl
  rw [e]
  exact h

/-- The largest-remainder rule when no `uint64_t` operation wraps around: with
`nth_element` rearranging and partitioning, there is a list of recipients, pairs
of the work list without repetition, whose number is 100 minus the sum of the
shares rounded down; every slot holds its share rounded down, plus one exactly
for the recipients; and no pair that is not a recipient has a greater remainder
`weight * 100 mod total` than a recipient. -/
theorem calcPercentage_largest_remainder (nthElement : NthElement)
    (hperm : NthElementPerm nthElement) (hpart : NthElementPartition nthElement)
    (workList : WorkList) (mem : Store)
    (hslots : (workList.map Prod.snd).Nodup) (hne : workList ≠ [])
    (hlen : workList.length < 2 ^ 31)
    (hw : ∀ pair ∈ workList, pair.1 * 100 < 2 ^ 64)
    (hsum : (workList.map Prod.fst).sum < 2 ^ 64)
    (hpos : 0 < (workList.map Prod.fst).sum) :
    ∃ recipients : WorkList,
      (∀ pair ∈ recipients, pair ∈ workList)
        ∧ recipients.Nodup
        ∧ recipients.length + (workList.map
            (fun pair => pair.1 * 100 / (workList.map Prod.fst).sum)).sum = 100
        ∧ (∀ pair ∈ workList,
            (calcPercentage nthElement workList mem).2 pair.2
              = ((pair.1 * 100 / (workList.map Prod.fst).sum : Nat) : Int)
                + (if pair ∈ recipients then 1 else 0))
        ∧ ∀ a ∈ recipients, ∀ b ∈ workList, b ∉ recipients →
            b.1 * 100 % (workList.map Prod.fst).sum ≤ a.1 * 100 % (workList.map Prod.fst).sum := by
  obtain ⟨heq, hS1, hS2, hshare⟩ := calcPercentage_eq_of_no_wrap nthElement workList mem hslots
    hne hlen hw hsum hpos
  generalize hS : (workList.map
      (fun pair => pair.1 * 100 / (workList.map Prod.fst).sum)).sum = S at heq hS1 hS2
  generalize htot : (workList.map Prod.fst).sum = total at heq hshare hpos ⊢
  have hp := hperm (remainderGreater total) (100 - S - 1) workList
  generalize hout : nthElement (remainderGreater total) (100 - S - 1) workList = out at heq hp
  have hslots2 : (out.map Prod.snd).Nodup :=
    (List.Perm.nodup_iff (List.Perm.map Prod.snd hp)).mpr hslots
  have hnd : out.Nodup := List.Nodup.of_map _ hslots2
  have hslots3 : ((out.take (100 - S)).map Prod.snd).Nodup :=
    List.Nodup.sublist (List.Sublist.map _ (List.take_sublist _ _)) hslots2
  refine ⟨out.take (100 - S), ?_, ?_, ?_, ?_, ?_⟩
  · intro pair hpair
    exact (List.Perm.mem_iff hp).mp (List.mem_of_mem_take hpair)
  · exact List.Nodup.sublist (List.take_sublist _ _) hnd
  · rw [List.length_take, List.Perm.length_eq hp]
    omega
  · intro pair hpair
    rw [heq, incrementAll_apply _ _ _ hslots3, roundDown_apply_of_mem _ _ _ _ hslots pair hpair,
      hshare pair hpair]
    congr 1
    have hiff : pair.2 ∈ (out.take (100 - S)).map Prod.snd ↔ pair ∈ out.take (100 - S) := by
      constructor
      · intro hm
        obtain ⟨y, hy, hy2⟩ := List.mem_map.mp hm
        have hyo : y ∈ out := List.mem_of_mem_take hy
        have hpo : pair ∈ out := (List.Perm.mem_iff hp).mpr hpair
        have : y = pair := List.inj_on_of_nodup_map hslots2 hyo hpo hy2
        rw [← this]
        exact hy
      · intro hm
        exact List.mem_map_of_mem _ hm
    by_cases hm : pair ∈ out.take (100 - S)
    · rw [if_pos hm, if_pos (hiff.mpr hm)]
    · rw [if_neg hm, if_neg (fun h => hm (hiff.mp h))]
  · intro a ha b hb hnb
    obtain ⟨i, hi⟩ := List.getElem?_of_mem ha
    have hilt : i < (out.take (100 - S)).length := by
      by_contra hc
      rw [List.getElem?_eq_none (by omega)] at hi
      exact Option.noConfusion hi
    rw [List.length_take] at hilt
    have hi2 : out[i]? = some a := by
      rw [List.getElem?_take] at hi
      split at hi
      · exact hi
      · exact Option.noConfusion hi
    have hbo : b ∈ out := (List.Perm.mem_iff hp).mpr hb
    obtain ⟨j, hj⟩ := List.getElem?_of_mem hbo
    have hjge : 100 - S ≤ j := by
      by_contra hc
      apply hnb
      have : (out.take (100 - S))[j]? = some b := by
        rw [List.getElem?_take, if_pos (by omega)]
        exact hj
      exact List.getElem?_mem this
    have hcomp := hpart (remainderGreater total) (100 - S - 1) workList
      (remainderGreater_swo total) (by omega) i j a b (by omega) (by omega)
      (by rw [hout]; exact hi2) (by rw [hout]; exact hj)
    unfold remainderGreater at hcomp
    simp only [decide_eq_false_iff_not, not_lt, gt_iff_lt] at hcomp
    rw [Nat.mod_eq_of_lt (hw a (by rw [← List.Perm.mem_iff hp]; exact List.getElem?_mem hi2)),
      Nat.mod_eq_of_lt (hw b hb)] at hcomp
    exact hcomp

/-- C29 (failing input): on the one-element work list with weight `2 ^ 63` the
total is `2 ^ 63 > 0` and the share `weight * 100 / total` rounded down is 100,
but the slot ends up holding 1, which is neither that share nor that share plus
one: the product `bytes * 100U` wraps around to 0 in `uint64_t`. -/
theorem largest_remainder_fails_on_wrap (nthElement : NthElement)
    (h : NthElementPerm nthElement) (mem : Store) :
    0 < accumulateTotal [(2 ^ 63, 0)]
      ∧ 2 ^ 63 * 100 / accumulateTotal [(2 ^ 63, 0)] = 100
      ∧ (calcPercentage nthElement [(2 ^ 63, 0)] mem).2 0 = 1
      ∧ (calcPercentage nthElement [(2 ^ 63, 0)] mem).2 0 ≠ 100
      ∧ (calcPercentage nthElement [(2 ^ 63, 0)] mem).2 0 ≠ 100 + 1 := by
  have hn : ∀ comp n, nthElement comp n [(2 ^ 63, 0)] = [(2 ^ 63, 0)] := by
    intro comp n
    exact List.perm_singleton.mp (h comp n [(2 ^ 63, 0)])
  have ht : accumulateTotal [(2 ^ 63, 0)] = 2 ^ 63 := by decide
  have hr : roundDown (2 ^ 63) [(2 ^ 63, 0)] mem 100 = (mem.write 0 0, 100) := by
    simp [roundDown, Store.write, toInt32]
  have hc : (calcPercentage nthElement [(2 ^ 63, 0)] mem).2 0 = 1 := by
    unfold calcPercentage
    simp only [ht, hr, hn]
    simp [toInt32, incrementAll, Store.write]
  rw [hc, ht]
  refine ⟨by norm_num, by norm_num, rfl, by norm_num, by norm_num⟩

theorem largest_remainder_fails_on_wrap_witness :
    NthElementPerm nthElementBySort
      ∧ 0 < accumulateTotal [(2 ^ 63, 0)]
      ∧ 2 ^ 63 * 100 / accumulateTotal [(2 ^ 63, 0)] = 100
      ∧ (calcPercentage nthElementBySort [(2 ^ 63, 0)] (fun _ => 0)).2 0 = 1
      ∧ (calcPercentage nthElementBySort [(2 ^ 63, 0)] (fun _ => 0)).2 0 ≠ 100
      ∧ (calcPercentage nthElementBySort [(2 ^ 63, 0)] (fun _ => 0)).2 0 ≠ 100 + 1 :=
  ⟨nthElementBySort_perm,
    largest_remainder_fails_on_wrap nthElementBySort nthElementBySort_perm (fun _ => 0)⟩

/-- The largest-remainder rule on three weights 1, 1 and 2: the shares rounded
down are 25, 25 and 50, nothing remains to distribute. With weights 1, 2 and 4
the shares rounded down are 14, 28 and 57, one point remains and goes to the
weight 2, which has the largest remainder 4. -/
theorem largest_remainder_example :
    (([0, 1, 2] : List Slot).map
        (calcPercentage nthElementBySort [(1, 0), (1, 1), (2, 2)] (fun _ => 0)).2
      = [25, 25, 50])
      ∧ (([0, 1, 2] : List Slot).map
        (calcPercentage nthElementBySort [(1, 0), (2, 1), (4, 2)] (fun _ => 0)).2
      = [14, 29, 57]) := by
  decide

/-! ## Theorems: ties between equal remainders -/

theorem nthElementFromBack_perm : NthElementPerm nthElementFromBack := by
  intro comp n workList
  exact (nthElementBySort_perm comp n workList.reverse).trans (List.reverse_perm workList)

theorem nthElementFromBack_partition : NthElementPartition nthElementFromBack := by
  intro comp n workList hswo _ i j x y hin hnj hi hj
  exact pairwise_index hswo.1 _ (nthElementBySort_pairwise hswo n workList.reverse) i j x y
    (by omega) hi hj

/-- C30 (counterexample): `nthElementFromBack` meets the contract of
`std::nth_element` used here. On seven pairs of weight 1, whose remainders
`100 mod 7 = 2` are all equal and which leave two points to distribute, the two
extra points go to the last two pairs of the input, not to the first two. -/
theorem ties_go_to_last_pairs :
    NthElementPerm nthElementFromBack
      ∧ NthElementPartition nthElementFromBack
      ∧ ([(1, 0), (1, 1), (1, 2), (1, 3), (1, 4), (1, 5), (1, 6)] : WorkList).map
          (fun pair => pair.1 * 100 % 7) = [2, 2, 2, 2, 2, 2, 2]
      ∧ ([0, 1, 2, 3, 4, 5, 6] : List Slot).map
          (calcPercentage nthElementFromBack
            [(1, 0), (1, 1), (1, 2), (1, 3), (1, 4), (1, 5), (1, 6)] (fun _ => 0)).2
        = [14, 14, 14, 14, 14, 15, 15] :=
  ⟨nthElementFromBack_perm, nthElementFromBack_partition, by decide, by decide⟩

/-- C30 (amended): an extra point prefers the larger remainder. When no `uint64_t`
operation wraps around, with `nth_element` rearranging and partitioning: for
every work list with positive total, with pairwise distinct output slots and
with fewer than `2 ^ 31` pairs, if a pair receives an extra point (its slot holds
its share rounded down plus one), then so does every pair with a strictly
greater remainder `weight * 100 mod total`; which of several pairs with equal
remainder receive the extra points is left to `nth_element`. -/
theorem extra_point_prefers_larger_remainder (nthElement : NthElement)
    (hperm : NthElementPerm nthElement) (hpart : NthElementPartition nthElement)
    (workList : WorkList) (mem : Store)
    (hslots : (workList.map Prod.snd).Nodup) (hne : workList ≠ [])
    (hlen : workList.length < 2 ^ 31)
    (hw : ∀ pair ∈ workList, pair.1 * 100 < 2 ^ 64)
    (hsum : (workList.map Prod.fst).sum < 2 ^ 64)
    (hpos : 0 < (workList.map Prod.fst).sum) :
    ∀ a ∈ workList, ∀ b ∈ workList,
      b.1 * 100 % (workList.map Prod.fst).sum < a.1 * 100 % (workList.map Prod.fst).sum →
      (calcPercentage nthElement workList mem).2 b.2
          = ((b.1 * 100 / (workList.map Prod.fst).sum : Nat) : Int) + 1 →
        (calcPercentage nthElement workList mem).2 a.2
          = ((a.1 * 100 / (workList.map Prod.fst).sum : Nat) : Int) + 1 := by
  obtain ⟨recipients, _, _, _, hout, hrem⟩ := calcPercentage_largest_remainder nthElement hperm
    hpart workList mem hslots hne hlen hw hsum hpos
  intro a ha b hb hlt hbout
  have hbr : b ∈ recipients := by
    by_contra hc
    rw [hout b hb, if_neg hc] at hbout
    omega
  have har : a ∈ recipients := by
    by_contra hc
    have := hrem b hbr a ha hc
    omega
  rw [hout a ha, if_pos har]

theorem extra_point_prefers_larger_remainder_witness :
    NthElementPerm nthElementBySort
      ∧ NthElementPartition nthElementBySort
      ∧ (([(1, 0), (2, 1), (4, 2)] : WorkList).map Prod.snd).Nodup
      ∧ ([(1, 0), (2, 1), (4, 2)] : WorkList) ≠ []
      ∧ ([(1, 0), (2, 1), (4, 2)] : WorkList).length < 2 ^ 31
      ∧ (∀ pair ∈ ([(1, 0), (2, 1), (4, 2)] : WorkList), pair.1 * 100 < 2 ^ 64)
      ∧ (([(1, 0), (2, 1), (4, 2)] : WorkList).map Prod.fst).sum < 2 ^ 64
      ∧ 0 < (([(1, 0), (2, 1), (4, 2)] : WorkList).map Prod.fst).sum
      ∧ ∀ a ∈ ([(1, 0), (2, 1), (4, 2)] : WorkList), ∀ b ∈ ([(1, 0), (2, 1), (4, 2)] : WorkList),
          b.1 * 100 % (([(1, 0), (2, 1), (4, 2)] : WorkList).map Prod.fst).sum
              < a.1 * 100 % (([(1, 0), (2, 1), (4, 2)] : WorkList).map Prod.fst).sum →
          (calcPercentage nthElementBySort [(1, 0), (2, 1), (4, 2)] (fun _ => 0)).2 b.2
              = ((b.1 * 100 / (([(1, 0), (2, 1), (4, 2)] : WorkList).map Prod.fst).sum : Nat)
                  : Int) + 1 →
            (calcPercentage nthElementBySort [(1, 0), (2, 1), (4, 2)] (fun _ => 0)).2 a.2
              = ((a.1 * 100 / (([(1, 0), (2, 1), (4, 2)] : WorkList).map Prod.fst).sum : Nat)
                  : Int) + 1 :=
  ⟨nthElementBySort_perm, nthElementBySort_partition, by decide, by decide, by decide,
    by decide, by decide, by decide,
    extra_point_prefers_larger_remainder nthElementBySort nthElementBySort_perm
      nthElementBySort_partition [(1, 0), (2, 1), (4, 2)] (fun _ => 0) (by decide) (by decide)
      (by decide) (by decide) (by decide) (by decide)⟩

/-- With the reference `nth_element`, a stable sort, the same seven pairs give the
two extra points to the first two pairs. -/
theorem ties_with_stable_selection :
    ([0, 1, 2, 3, 4, 5, 6] : List Slot).map
        (calcPercentage nthElementBySort
          [(1, 0), (1, 1), (1, 2), (1, 3), (1, 4), (1, 5), (1, 6)] (fun _ => 0)).2
      = [15, 15, 14, 14, 14, 14, 14] := by
  decide

/-! ## Theorems: the name comparison as a strict weak ordering -/

/-- C32: the name comparison `LessShortName`, in both directions, is a strict weak
ordering on all rows (so on every sibling row list, with any number of files
rows, and whether or not the folder identities resolve) if the natural name
comparison is a strict weak ordering: it is irreflexive, it is transitive, and
its incomparability is transitive. -/
theorem lessShortName_strict_weak_ordering (lib : Library)
    (hname : StrictWeakOrder lib.lessNaturalSort) :
    ∀ ascending : Bool,
      (∀ a, lessShortName lib ascending a a = false)
        ∧ (∀ a b c, lessShortName lib ascending a b = true →
            lessShortName lib ascending b c = true → lessShortName lib ascending a c = true)
        ∧ (∀ a b c, lessShortName lib ascending a b = false →
            lessShortName lib ascending b a = false →
            lessShortName lib ascending b c = false →
            lessShortName lib ascending c b = false →
            lessShortName lib ascending a c = false
              ∧ lessShortName lib ascending c a = false) :=
  fun ascending => lessShortName_swo lib hname ascending

theorem lessShortName_strict_weak_ordering_witness :
    StrictWeakOrder (referenceLibrary exampleCmp).lessNaturalSort
      ∧ ∀ ascending : Bool,
          (∀ a, lessShortName (referenceLibrary exampleCmp) ascending a a = false)
            ∧ (∀ a b c, lessShortName (referenceLibrary exampleCmp) ascending a b = true →
                lessShortName (referenceLibrary exampleCmp) ascending b c = true →
                lessShortName (referenceLibrary exampleCmp) ascending a c = true)
            ∧ (∀ a b c, lessShortName (referenceLibrary exampleCmp) ascending a b = false →
                lessShortName (referenceLibrary exampleCmp) ascending b a = false →
                lessShortName (referenceLibrary exampleCmp) ascending b c = false →
                lessShortName (referenceLibrary exampleCmp) ascending c b = false →
                lessShortName (referenceLibrary exampleCmp) ascending a c = false
                  ∧ lessShortName (referenceLibrary exampleCmp) ascending c a = false) :=
  ⟨referenceLibrary_lessNaturalSort_swo exampleCmp,
    lessShortName_strict_weak_ordering (referenceLibrary exampleCmp)
      (referenceLibrary_lessNaturalSort_swo exampleCmp)⟩

/-- The four groups of `LessShortName` on the example rows: the folder row of
`img` resolves, `staleRow` does not, `docsFilesRow` is a files row; each is
ordered before the next in both directions and none before itself. -/
theorem lessShortName_groups_example :
    ∀ ascending : Bool,
      lessShortName (referenceLibrary exampleCmp) ascending imgRow staleRow = true
        ∧ lessShortName (referenceLibrary exampleCmp) ascending staleRow docsFilesRow = true
        ∧ lessShortName (referenceLibrary exampleCmp) ascending imgRow docsFilesRow = true
        ∧ lessShortName (referenceLibrary exampleCmp) ascending staleRow staleRow = false
        ∧ lessShortName (referenceLibrary exampleCmp) ascending docsFilesRow imgRow = false := by
  decide

/-! ## Theorems: the assertions of `calcPercentage` -/

/-- After the round-down loop the remaining percent is the start value minus the
sum of the shares that were stored, whether or not slots coincide. -/
theorem roundDown_remaining (total : Nat) (l : WorkList) (mem : Store) (r : Int) :
    (roundDown total l mem r).2
      = r - (l.map (fun pair => toInt32 (pair.1 * 100 % 2 ^ 64 / total))).sum := by
  induction l generalizing mem r with
  | nil => simp [roundDown]
  | cons x xs ih =>
    rw [roundDown_cons, ih]
    simp only [List.map_cons, List.sum_cons]
    ring

/-- C34: assertion validity in `calcPercentage`. For every list of `n ≥ 1` weights
whose number fits an `int` (`n < 2 ^ 31`), with total greater than 0, every
`weight * 100` below `2 ^ 64` and the sum of the weights below `2 ^ 64`: after
the round-down pass the remaining percent is 100 minus the sum of the shares
rounded down and satisfies `0 ≤ remainingPercent < n`, so both assertions hold,
and the clamp `std::min(remainingPercent, static_cast<int>(workList.size()))`
does not change it. -/
theorem calcPercentage_assertions_hold (workList : WorkList) (mem : Store)
    (hne : 1 ≤ workList.length) (hlen : workList.length < 2 ^ 31)
    (hw : ∀ pair ∈ workList, pair.1 * 100 < 2 ^ 64)
    (hsum : (workList.map Prod.fst).sum < 2 ^ 64)
    (hpos : 0 < (workList.map Prod.fst).sum) :
    accumulateTotal workList = (workList.map Prod.fst).sum
      ∧ (roundDown (accumulateTotal workList) workList mem 100).2
          = 100 - (((workList.map
              (fun pair => pair.1 * 100 / (workList.map Prod.fst).sum)).sum : Nat) : Int)
      ∧ 0 ≤ (roundDown (accumulateTotal workList) workList mem 100).2
      ∧ (roundDown (accumulateTotal workList) workList mem 100).2 < (workList.length : Int)
      ∧ min (roundDown (accumulateTotal workList) workList mem 100).2
          (toInt32 workList.length)
        = (roundDown (accumulateTotal workList) workList mem 100).2 := by
  have ht : accumulateTotal workList = (workList.map Prod.fst).sum := by
    rw [accumulateTotal_eq, Nat.mod_eq_of_lt hsum]
  have hne1 : workList ≠ [] := by
    intro h
    rw [h] at hne
    simp at hne
  have hne2 : workList.map Prod.fst ≠ [] := by
    intro h
    exact hne1 (List.map_eq_nil_iff.mp h)
  obtain ⟨hb1, hb2⟩ := shares_bounds (workList.map Prod.fst) hne2 hpos
  rw [List.map_map] at hb1 hb2
  rw [List.length_map] at hb2
  have hfun : ((fun w => w * 100 / (workList.map Prod.fst).sum) ∘ Prod.fst)
      = fun pair : Nat × Slot => pair.1 * 100 / (workList.map Prod.fst).sum := rfl
  rw [hfun] at hb1 hb2
  have hshare : workList.map
      (fun pair => toInt32 (pair.1 * 100 % 2 ^ 64 / (workList.map Prod.fst).sum))
      = workList.map (fun pair =>
          ((pair.1 * 100 / (workList.map Prod.fst).sum : Nat) : Int)) := by
    apply List.map_congr_left
    intro pair hp
    have hle : pair.1 ≤ (workList.map Prod.fst).sum :=
      List.single_le_sum (fun _ _ => Nat.zero_le _) _ (List.mem_map_of_mem Prod.fst hp)
    have hdiv : pair.1 * 100 / (workList.map Prod.fst).sum ≤ 100 := by
      apply Nat.div_le_of_le_mul
      nlinarith
    rw [Nat.mod_eq_of_lt (hw pair hp), toInt32_of_lt _ (by omega)]
  have hcast : (workList.map (fun pair =>
      ((pair.1 * 100 / (workList.map Prod.fst).sum : Nat) : Int))).sum
      = ((workList.map
          (fun pair => pair.1 * 100 / (workList.map Prod.fst).sum)).sum : Nat) :=
    sum_map_natCast _ workList
  have hr := roundDown_remaining (workList.map Prod.fst).sum workList mem 100
  rw [hshare, hcast] at hr
  have hlen2 : toInt32 workList.length = (workList.length : Int) := toInt32_of_lt _ hlen
  rw [ht, hr, hlen2]
  refine ⟨rfl, rfl, by omega, by omega, ?_⟩
  apply min_eq_left
  omega

theorem calcPercentage_assertions_hold_witness :
    1 ≤ ([(1, 0), (2, 1), (4, 2)] : WorkList).length
      ∧ ([(1, 0), (2, 1), (4, 2)] : WorkList).length < 2 ^ 31
      ∧ (∀ pair ∈ ([(1, 0), (2, 1), (4, 2)] : WorkList), pair.1 * 100 < 2 ^ 64)
      ∧ (([(1, 0), (2, 1), (4, 2)] : WorkList).map Prod.fst).sum < 2 ^ 64
      ∧ 0 < (([(1, 0), (2, 1), (4, 2)] : WorkList).map Prod.fst).sum
      ∧ (accumulateTotal [(1, 0), (2, 1), (4, 2)]
            = (([(1, 0), (2, 1), (4, 2)] : WorkList).map Prod.fst).sum
        ∧ (roundDown (accumulateTotal [(1, 0), (2, 1), (4, 2)]) [(1, 0), (2, 1), (4, 2)]
              (fun _ => 0) 100).2
            = 100 - (((([(1, 0), (2, 1), (4, 2)] : WorkList).map
                (fun pair => pair.1 * 100
                  / (([(1, 0), (2, 1), (4, 2)] : WorkList).map Prod.fst).sum)).sum : Nat) : Int)
        ∧ 0 ≤ (roundDown (accumulateTotal [(1, 0), (2, 1), (4, 2)]) [(1, 0), (2, 1), (4, 2)]
              (fun _ => 0) 100).2
        ∧ (roundDown (accumulateTotal [(1, 0), (2, 1), (4, 2)]) [(1, 0), (2, 1), (4, 2)]
              (fun _ => 0) 100).2 < (([(1, 0), (2, 1), (4, 2)] : WorkList).length : Int)
        ∧ min (roundDown (accumulateTotal [(1, 0), (2, 1), (4, 2)]) [(1, 0), (2, 1), (4, 2)]
              (fun _ => 0) 100).2
            (toInt32 ([(1, 0), (2, 1), (4, 2)] : WorkList).length)
          = (roundDown (accumulateTotal [(1, 0), (2, 1), (4, 2)]) [(1, 0), (2, 1), (4, 2)]
              (fun _ => 0) 100).2) :=
  ⟨by decide, by decide, by decide, by decide, by decide,
    calcPercentage_assertions_hold [(1, 0), (2, 1), (4, 2)] (fun _ => 0) (by decide)
      (by decide) (by decide) (by decide) (by decide)⟩

theorem unitWeights_length (n : Nat) : (unitWeights n).length = n := by
  simp [unitWeights]

theorem unitWeights_weight (n : Nat) : ∀ pair ∈ unitWeights n, pair.1 = 1 := by
  intro pair hp
  obtain ⟨i, _, rfl⟩ := List.mem_map.mp hp
  rfl

theorem unitWeights_slots (n : Nat) : (unitWeights n).map Prod.snd = List.range n := by
  unfold unitWeights
  rw [List.map_map]
  exact List.map_id _

theorem unitWeights_sum (n : Nat) : ((unitWeights n).map Prod.fst).sum = n := by
  have e : (unitWeights n).map Prod.fst = List.replicate n 1 := by
    unfold unitWeights
    rw [List.map_map]
    apply List.eq_replicate_iff.mpr
    constructor
    · simp
    · intro b hb
      obtain ⟨i, _, rfl⟩ := List.mem_map.mp hb
      rfl
  rw [e, List.sum_replicate]
  simp

/-- On `n` pairs of weight 1 with distinct slots, `n` above 100 and below `2 ^ 64`
with `static_cast<int>(n)` not positive: nothing wraps around in `uint64_t`, the
remaining percent after the round-down pass is 100, the clamp replaces it by
`static_cast<int>(n)`, no point is distributed and the percentages sum to 0. -/
theorem calcPercentage_unitWeights_clamped (nthElement : NthElement) (mem : Store) (n : Nat)
    (h100 : 100 < n) (hn : n < 2 ^ 64) (hneg : toInt32 n ≤ 0) :
    (unitWeights n).length = n
      ∧ ((unitWeights n).map Prod.fst).sum = n
      ∧ (∀ pair ∈ unitWeights n, pair.1 * 100 < 2 ^ 64)
      ∧ ((unitWeights n).map Prod.snd).Nodup
      ∧ accumulateTotal (unitWeights n) = n
      ∧ (roundDown (accumulateTotal (unitWeights n)) (unitWeights n) mem 100).2 = 100
      ∧ min (roundDown (accumulateTotal (unitWeights n)) (unitWeights n) mem 100).2
          (toInt32 (unitWeights n).length) = toInt32 n
      ∧ percentSum (unitWeights n) (calcPercentage nthElement (unitWeights n) mem).2 = 0 := by
  have hlen := unitWeights_length n
  have hsum := unitWeights_sum n
  have hslots : ((unitWeights n).map Prod.snd).Nodup := by
    rw [unitWeights_slots]
    exact List.nodup_range _
  have ht : accumulateTotal (unitWeights n) = n := by
    rw [accumulateTotal_eq, hsum, Nat.mod_eq_of_lt hn]
  have hshares : (unitWeights n).map (fun pair => toInt32 (pair.1 * 100 % 2 ^ 64 / n))
      = (unitWeights n).map (fun _ => (0 : Int)) := by
    apply List.map_congr_left
    intro pair hp
    rw [unitWeights_weight _ pair hp]
    have e100 : 1 * 100 % 2 ^ 64 = 100 := by norm_num
    rw [e100, Nat.div_eq_of_lt h100]
    rfl
  have hzero : ((unitWeights n).map (fun _ => (0 : Int))).sum = 0 := by
    apply List.sum_eq_zero
    intro x hx
    obtain ⟨_, _, rfl⟩ := List.mem_map.mp hx
    rfl
  have hr : (roundDown n (unitWeights n) mem 100).2 = 100 := by
    rw [roundDown_remaining, hshares, hzero]
    norm_num
  have hps : percentSum (unitWeights n) (roundDown n (unitWeights n) mem 100).1 = 0 := by
    rw [(roundDown_spec n (unitWeights n) mem 100 hslots).2, hshares, hzero]
  have hmin : min (roundDown n (unitWeights n) mem 100).2 (toInt32 (unitWeights n).length)
      = toInt32 n := by
    rw [hr, hlen]
    apply min_eq_right
    omega
  refine ⟨hlen, hsum, ?_, hslots, ht, ?_, ?_, ?_⟩
  · intro pair hp
    rw [unitWeights_weight _ pair hp]
    norm_num
  · rw [ht, hr]
  · rw [ht, hmin]
  · unfold calcPercentage
    simp only [ht]
    rw [if_neg (by omega)]
    simp only [hmin]
    rw [if_neg (by omega)]
    exact hps

/-- C34 (failing input): on the list of `2 ^ 31` pairs of weight 1 with distinct
slots nothing wraps around in `uint64_t` (the total is `2 ^ 31`, every
`weight * 100` is 100), the remaining percent after the round-down pass is 100
and both assertions hold, but `static_cast<int>(workList.size())` is `-2 ^ 31`,
so the clamp changes the remaining percent from 100 to `-2 ^ 31`; no point is
distributed and the percentages sum to 0. -/
theorem clamp_changes_remaining_at_two_pow_31 (nthElement : NthElement) (mem : Store) :
    toInt32 (2 ^ 31) = -2 ^ 31
      ∧ (unitWeights (2 ^ 31)).length = 2 ^ 31
      ∧ ((unitWeights (2 ^ 31)).map Prod.fst).sum = 2 ^ 31
      ∧ (∀ pair ∈ unitWeights (2 ^ 31), pair.1 * 100 < 2 ^ 64)
      ∧ ((unitWeights (2 ^ 31)).map Prod.snd).Nodup
      ∧ accumulateTotal (unitWeights (2 ^ 31)) = 2 ^ 31
      ∧ (roundDown (accumulateTotal (unitWeights (2 ^ 31))) (unitWeights (2 ^ 31)) mem 100).2
          = 100
      ∧ min (roundDown (accumulateTotal (unitWeights (2 ^ 31))) (unitWeights (2 ^ 31))
            mem 100).2 (toInt32 (unitWeights (2 ^ 31)).length) = toInt32 (2 ^ 31)
      ∧ percentSum (unitWeights (2 ^ 31))
          (calcPercentage nthElement (unitWeights (2 ^ 31)) mem).2 = 0 := by
  have hcast : toInt32 (2 ^ 31) = -2 ^ 31 := by
    unfold toInt32
    norm_num
  exact ⟨hcast, calcPercentage_unitWeights_clamped nthElement mem (2 ^ 31) (by norm_num)
    (by norm_num) (by rw [hcast]; norm_num)⟩

/-! ## Theorems: well-formedness of the flat rows -/

/-- In a layout of siblings of one level, no row is deeper than the row before it
by more than one level. -/
theorem FlatOf.chain (lib : Library) (hsort : SortPerm lib) (currentSort : SortInfo)
    {opens : TreeLine → Bool → Prop} {siblings rows : List TreeLine}
    (h : FlatOf (childrenOf lib currentSort) opens siblings rows) :
    ∀ L, (∀ s ∈ siblings, s.level = L) →
      List.Chain' (fun x y : TreeLine => y.level ≤ x.level + 1) rows := by
  induction h with
  | nil =>
    intro _ _
    exact List.chain'_nil
  | @closed line sibs rows0 hop hrest ih =>
    intro L hlevel
    have hlevel2 : ∀ s ∈ sibs, s.level = L := fun s hs => hlevel s (List.mem_cons_of_mem _ hs)
    have hL0 : line.level = L := hlevel line (List.mem_cons_self _ _)
    refine List.chain'_cons'.mpr ⟨?_, ih L hlevel2⟩
    intro y hy
    have := FlatOf.head_level hrest L [] hlevel2 (by intro t ht; simp at ht) y
      (by rw [List.append_nil]; exact hy)
    omega
  | @opened line sibs below rows0 hop hbelow hrest ihb ihr =>
    intro L hlevel
    have hlevel2 : ∀ s ∈ sibs, s.level = L := fun s hs => hlevel s (List.mem_cons_of_mem _ hs)
    have hL0 : line.level = L := hlevel line (List.mem_cons_self _ _)
    have hchild : ∀ c ∈ childrenOf lib currentSort line, c.level = L + 1 := by
      intro c hc
      rw [childrenOf_level lib hsort currentSort line c hc, hL0]
    have hrestHead : ∀ t, rows0.head? = some t → t.level ≤ L := by
      intro t ht
      exact FlatOf.head_level hrest L [] hlevel2 (by intro t ht; simp at ht) t
        (by rw [List.append_nil]; exact ht)
    refine List.chain'_cons'.mpr ⟨?_, ?_⟩
    · intro y hy
      have := FlatOf.head_level hbelow (L + 1) rows0 hchild
        (fun t ht => Nat.le_succ_of_le (hrestHead t ht)) y hy
      omega
    · refine List.Chain'.append (ihb (L + 1) hchild) (ihr L hlevel2) ?_
      intro x hx y hy
      have hxb : x ∈ below := List.mem_of_mem_getLast? hx
      have h1 := FlatOf.level_ge lib hsort currentSort hbelow (L + 1)
        (fun c hc => Nat.le_of_eq (hchild c hc).symm) x hxb
      have h2 := hrestHead y hy
      omega

theorem chain_getElem? {α : Type} {R : α → α → Prop} :
    ∀ (l : List α), List.Chain' R l →
      ∀ (i : Nat) (x y : α), l[i]? = some x → l[i + 1]? = some y → R x y
  | [], _, i, x, y, hi, _ => by simp at hi
  | a :: as, hc, 0, x, y, hi, hj => by
    simp only [List.getElem?_cons_zero, Option.some.injEq] at hi
    simp only [Nat.zero_add, List.getElem?_cons_succ] at hj
    subst hi
    refine (List.chain'_cons'.mp hc).1 y ?_
    cases as with
    | nil => simp at hj
    | cons b bs =>
      simp only [List.getElem?_cons_zero, Option.some.injEq] at hj
      simp [hj]
  | a :: as, hc, i + 1, x, y, hi, hj => by
    simp only [List.getElem?_cons_succ] at hi hj
    exact chain_getElem? as (List.chain'_cons'.mp hc).2 i x y hi hj

/-- C33: well-formedness of the flat rows. In every view reachable from the
constructor through `updateView`, `setSortDirection`, `expandNode` and
`reduceNode` (with a sort that only rearranges): the first row, if any, has level
0; the level of every other row is at most the level of the row before it plus
one; a row is deeper than the row before it only if that row is a root or folder
row; and for every row of level greater than 0, `getParent` returns the index of
an earlier row whose level is exactly one less. -/
theorem flat_rows_well_formed (lib : Library) (hsort : SortPerm lib)
    (isNullPath : String → Bool) (folderCmp : List BaseFolderPair) (tv : TreeView)
    (hreach : Reachable lib isNullPath folderCmp tv) :
    (∀ line, tv.flatTree[0]? = some line → line.level = 0)
      ∧ (∀ row prev line, tv.flatTree[row]? = some prev → tv.flatTree[row + 1]? = some line →
          line.level ≤ prev.level + 1
            ∧ (prev.level < line.level →
                prev.type = NodeType.root ∨ prev.type = NodeType.folder))
      ∧ (∀ row line, tv.flatTree[row]? = some line → 0 < line.level →
          ∃ (p : Nat) (parent : TreeLine), getParent tv row = (p : Int) ∧ p < row
            ∧ tv.flatTree[p]? = some parent ∧ parent.level + 1 = line.level) := by
  obtain ⟨_, _, hflat⟩ := Reachable.layout lib hsort isNullPath folderCmp hreach
  have hlevel := defaultFlatTree_level lib hsort tv.folderCmp tv.currentSort tv.folderCmpView
  have hchain := FlatOf.chain lib hsort tv.currentSort hflat 0 hlevel
  have hfirst : ∀ line, tv.flatTree[0]? = some line → line.level = 0 := by
    intro line h0
    have hh : (tv.flatTree ++ []).head? = some line := by
      rw [List.append_nil, List.head?_eq_getElem?]
      exact h0
    have := FlatOf.head_level hflat 0 [] hlevel (by intro t ht; simp at ht) line hh
    omega
  have hstep : ∀ row prev line, tv.flatTree[row]? = some prev →
      tv.flatTree[row + 1]? = some line → line.level ≤ prev.level + 1 :=
    fun row prev line h1 h2 => chain_getElem? tv.flatTree hchain row prev line h1 h2
  refine ⟨hfirst, ?_, ?_⟩
  · intro row prev line hprev hline
    refine ⟨hstep row prev line hprev hline, ?_⟩
    intro hlt
    have hst := (FlatOf.status lib hsort tv.currentSort hflat 0 [] hlevel
      (by intro t ht; simp at ht) row prev hprev).1
      (by rw [List.append_nil]; exact ⟨prev, line, hprev, hline, hlt⟩)
    have hne : prev.type ≠ NodeType.files := hst.1 rfl
    cases ht : prev.type with
    | root => exact Or.inl rfl
    | folder => exact Or.inr rfl
    | files => exact absurd ht hne
  · intro row line hrow hpos
    have hrowlt : row < tv.flatTree.length := by
      by_contra hc
      rw [List.getElem?_eq_none (by omega)] at hrow
      exact Option.noConfusion hrow
    have e : getParent tv row = getParentLoop tv.flatTree line.level row := by
      simp only [getParent, hrow]
    rw [e]
    have hrow0 : row ≠ 0 := by
      intro h0
      rw [h0] at hrow
      have := hfirst line hrow
      omega
    rcases getParentLoop_spec tv.flatTree line.level row (by omega) with
      ⟨_, h2⟩ | ⟨p, lp, h1, h2, h3, h4, h5⟩
    · exfalso
      have h0lt : 0 < tv.flatTree.length := by omega
      have h0 : tv.flatTree[0]? = some tv.flatTree[0] := List.getElem?_eq_getElem h0lt
      have hl0 := hfirst _ h0
      have := h2 0 _ (by omega) h0
      omega
    · refine ⟨p, lp, h1, h2, h3, ?_⟩
      have hnextlt : p + 1 < tv.flatTree.length := by omega
      have hnext : tv.flatTree[p + 1]? = some tv.flatTree[p + 1] :=
        List.getElem?_eq_getElem hnextlt
      have hs := hstep p lp _ h3 hnext
      have hge : line.level ≤ (tv.flatTree[p + 1]).level := by
        by_cases hp1 : p + 1 = row
        · have : tv.flatTree[p + 1]? = some line := by
            rw [hp1]
            exact hrow
          rw [hnext] at this
          rw [Option.some.inj this]
        · exact h5 (p + 1) _ (by omega) (by omega) hnext
      omega

theorem flat_rows_well_formed_witness :
    SortPerm (referenceLibrary exampleCmp)
      ∧ Reachable (referenceLibrary exampleCmp) (fun _ => false) exampleCmp exampleView
      ∧ ((∀ line, exampleView.flatTree[0]? = some line → line.level = 0)
        ∧ (∀ row prev line, exampleView.flatTree[row]? = some prev →
            exampleView.flatTree[row + 1]? = some line →
            line.level ≤ prev.level + 1
              ∧ (prev.level < line.level →
                  prev.type = NodeType.root ∨ prev.type = NodeType.folder))
        ∧ (∀ row line, exampleView.flatTree[row]? = some line → 0 < line.level →
            ∃ (p : Nat) (parent : TreeLine), getParent exampleView row = (p : Int) ∧ p < row
              ∧ exampleView.flatTree[p]? = some parent ∧ parent.level + 1 = line.level)) :=
  ⟨referenceLibrary_sortPerm exampleCmp,
    Reachable.afterExpandNode 1
      (Reachable.afterExpandNode 0
        (Reachable.afterUpdateView includeAll (Reachable.constructed byNameAscending))),
    flat_rows_well_formed (referenceLibrary exampleCmp) (referenceLibrary_sortPerm exampleCmp)
      (fun _ => false) exampleCmp exampleView
      (Reachable.afterExpandNode 1
        (Reachable.afterExpandNode 0
          (Reachable.afterUpdateView includeAll (Reachable.constructed byNameAscending))))⟩

/-- The parents in the example view: the rows of `img` and of the files of `docs`
have the row of `docs` as parent, the folder rows of level 1 have the root row,
the root row has none. -/
theorem exampleView_parents :
    (List.range 6).map (getParent exampleView) = [-1, 0, 1, 1, 0, 0] := by
  decide

/-! ## Theorems: the rounding error of `calcPercentage` -/

theorem exists_max_of_exists {α : Type} (P : α → Prop) (f : α → Int) :
    ∀ l : List α, (∃ x ∈ l, P x) → ∃ m ∈ l, P m ∧ ∀ x ∈ l, P x → f x ≤ f m := by
  intro l
  induction l with
  | nil =>
    rintro ⟨x, hx, _⟩
    simp at hx
  | cons a as ih =>
    intro hex
    by_cases has : ∃ x ∈ as, P x
    · obtain ⟨m, hm, hPm, hmax⟩ := ih has
      by_cases ha : P a ∧ f m < f a
      · refine ⟨a, List.mem_cons_self _ _, ha.1, ?_⟩
        intro x hx hPx
        rcases List.mem_cons.mp hx with rfl | hx
        · exact le_refl _
        · have := hmax x hx hPx
          omega
      · refine ⟨m, List.mem_cons_of_mem _ hm, hPm, ?_⟩
        intro x hx hPx
        rcases List.mem_cons.mp hx with rfl | hx
        · by_contra hc
          exact ha ⟨hPx, by omega⟩
        · exact hmax x hx hPx
    · obtain ⟨x, hx, hPx⟩ := hex
      rcases List.mem_cons.mp hx with rfl | hx
      · refine ⟨x, List.mem_cons_self _ _, hPx, ?_⟩
        intro y hy hPy
        rcases List.mem_cons.mp hy with rfl | hy
        · exact le_refl _
        · exact absurd ⟨y, hy, hPy⟩ has
      · exact absurd ⟨x, hx, hPx⟩ has

theorem sum_shift {α : Type} (e d r : α → Int) (t : Int) (l : List α) :
    (l.map (fun p => (e p - d p) * r p)).sum
      = (l.map (fun p => (e p - d p) * (r p - t))).sum
        + t * ((l.map e).sum - (l.map d).sum) := by
  induction l with
  | nil => simp
  | cons x xs ih =>
    simp only [List.map_cons, List.sum_cons, ih]
    ring

/-- Choosing the points by largest remainder collects at least as much remainder
as any other choice of the same number of points. -/
theorem chosen_remainders_maximal {α : Type} (e d r : α → Int) (l : List α)
    (he : ∀ p ∈ l, e p = 0 ∨ e p = 1) (hd : ∀ p ∈ l, d p = 0 ∨ d p = 1)
    (hr : ∀ p ∈ l, 0 ≤ r p) (hsum : (l.map e).sum = (l.map d).sum)
    (hthr : ∀ a ∈ l, ∀ b ∈ l, e a = 1 → e b = 0 → r b ≤ r a) :
    0 ≤ (l.map (fun p => (e p - d p) * r p)).sum := by
  have hex : ∃ t : Int, (∀ p ∈ l, e p = 1 → t ≤ r p) ∧ (∀ p ∈ l, e p = 0 → r p ≤ t) := by
    by_cases h0 : ∃ b ∈ l, e b = 0
    · obtain ⟨m, hm, hem, hmax⟩ := exists_max_of_exists (fun b => e b = 0) r l h0
      exact ⟨r m, fun p hp hp1 => hthr p hp m hm hp1 hem, fun p hp hp0 => hmax p hp hp0⟩
    · refine ⟨0, fun p hp _ => hr p hp, ?_⟩
      intro p hp hp0
      exact absurd ⟨p, hp, hp0⟩ h0
  obtain ⟨t, ht1, ht0⟩ := hex
  rw [sum_shift e d r t l, hsum]
  have hnonneg : 0 ≤ (l.map (fun p => (e p - d p) * (r p - t))).sum := by
    apply List.sum_nonneg
    intro x hx
    obtain ⟨p, hp, rfl⟩ := List.mem_map.mp hx
    rcases he p hp with h | h
    · have h1 := ht0 p hp h
      rcases hd p hp with h2 | h2
      · rw [h, h2]
        simp
      · rw [h, h2]
        nlinarith
    · have h1 := ht1 p hp h
      rcases hd p hp with h2 | h2
      · rw [h, h2]
        nlinarith
      · rw [h, h2]
        simp
  simpa using hnonneg

theorem sum_scaled_difference {α : Type} (f g e d r : α → Int) (T : Int) (l : List α)
    (hterm : ∀ p ∈ l, f p - g p = T * (d p - e p) + 2 * ((e p - d p) * r p)) :
    (l.map f).sum - (l.map g).sum
      = T * ((l.map d).sum - (l.map e).sum)
        + 2 * (l.map (fun p => (e p - d p) * r p)).sum := by
  induction l with
  | nil => simp
  | cons x xs ih =>
    have hx := hterm x (List.mem_cons_self _ _)
    have hxs := ih (fun p hp => hterm p (List.mem_cons_of_mem _ hp))
    simp only [List.map_cons, List.sum_cons]
    linarith

/-- The error of one percentage scaled by the total: `|x - 100 * w / T|` is
`|x * T - 100 * w|` divided by `T`. -/
theorem abs_sub_div_eq (x : Int) (w T : Nat) (hT : 0 < T) :
    |((x : Int) : ℚ) - 100 * ((w : Nat) : ℚ) / ((T : Nat) : ℚ)|
      = ((|x * (T : Int) - 100 * (w : Int)| : Int) : ℚ) / ((T : Nat) : ℚ) := by
  have hT2 : (0 : ℚ) < ((T : Nat) : ℚ) := by exact_mod_cast hT
  have e : ((x : Int) : ℚ) - 100 * ((w : Nat) : ℚ) / ((T : Nat) : ℚ)
      = (((x : Int) : ℚ) * ((T : Nat) : ℚ) - 100 * ((w : Nat) : ℚ)) / ((T : Nat) : ℚ) := by
    field_simp
  rw [e, abs_div, abs_of_pos hT2, Int.cast_abs]
  push_cast
  rfl

theorem sum_map_div_cast {α : Type} (g : α → Int) (T : ℚ) (l : List α) :
    (l.map (fun p => ((g p : Int) : ℚ) / T)).sum = (((l.map g).sum : Int) : ℚ) / T := by
  induction l with
  | nil => simp
  | cons x xs ih =>
    simp only [List.map_cons, List.sum_cons, ih]
    push_cast
    ring

/-- The total rounding error is the sum of the scaled errors `|p * total - 100 * w|`
divided by the total. -/
theorem roundingError_eq (workList : WorkList) (percent : Store)
    (hpos : 0 < (workList.map Prod.fst).sum) :
    roundingError workList percent
      = (((workList.map (fun pair =>
            |percent pair.2 * (((workList.map Prod.fst).sum : Nat) : Int)
              - 100 * ((pair.1 : Nat) : Int)|)).sum : Int) : ℚ)
        / (((workList.map Prod.fst).sum : Nat) : ℚ) := by
  unfold roundingError
  rw [← sum_map_div_cast]
  apply congrArg
  apply List.map_congr_left
  intro pair _
  exact abs_sub_div_eq (percent pair.2) pair.1 _ hpos

/-- The scaled error of a share rounded down, or rounded down plus one. -/
theorem scaled_error_eq (w T : Nat) (hT : 0 < T) (x delta : Int)
    (hdelta : delta = 0 ∨ delta = 1) (hx : x = ((w * 100 / T : Nat) : Int) + delta) :
    |x * (T : Int) - 100 * (w : Int)|
      = ((w * 100 % T : Nat) : Int) + delta * ((T : Int) - 2 * ((w * 100 % T : Nat) : Int)) := by
  have hdm := Nat.div_add_mod (w * 100) T
  have hlt := Nat.mod_lt (w * 100) hT
  have hdm2 : (T : Int) * ((w * 100 / T : Nat) : Int) + ((w * 100 % T : Nat) : Int)
      = (w : Int) * 100 := by exact_mod_cast hdm
  have hlt2 : ((w * 100 % T : Nat) : Int) < (T : Int) := by exact_mod_cast hlt
  have hge : (0 : Int) ≤ ((w * 100 % T : Nat) : Int) := Int.natCast_nonneg _
  rcases hdelta with h | h
  · rw [hx, h]
    have e : (((w * 100 / T : Nat) : Int) + 0) * (T : Int) - 100 * (w : Int)
        = -((w * 100 % T : Nat) : Int) := by linarith
    rw [e, abs_neg, abs_of_nonneg hge]
    ring
  · rw [hx, h]
    have e : (((w * 100 / T : Nat) : Int) + 1) * (T : Int) - 100 * (w : Int)
        = (T : Int) - ((w * 100 % T : Nat) : Int) := by linarith
    rw [e, abs_of_nonneg (by linarith)]
    ring

theorem sum_map_sub_percent (f : Store) (g : Nat × Slot → Int) (l : WorkList) :
    (l.map (fun p => f p.2 - g p)).sum = percentSum l f - (l.map g).sum := by
  unfold percentSum
  induction l with
  | nil => simp
  | cons x xs ih =>
    simp only [List.map_cons, List.sum_cons, ih]
    ring

/-- Error minimality when no `uint64_t` operation wraps around: with `nth_element`
rearranging and partitioning, the percentages that `calcPercentage` produces have
a total rounding error not greater than that of any other allocation that gives
every pair its share rounded down or that share plus one and sums to 100. -/
theorem calcPercentage_minimises_error (nthElement : NthElement)
    (hperm : NthElementPerm nthElement) (hpart : NthElementPartition nthElement)
    (workList : WorkList) (mem : Store)
    (hslots : (workList.map Prod.snd).Nodup) (hne : workList ≠ [])
    (hlen : workList.length < 2 ^ 31)
    (hw : ∀ pair ∈ workList, pair.1 * 100 < 2 ^ 64)
    (hsum : (workList.map Prod.fst).sum < 2 ^ 64)
    (hpos : 0 < (workList.map Prod.fst).sum)
    (other : Store)
    (hclass : ∀ pair ∈ workList,
      other pair.2 = ((pair.1 * 100 / (workList.map Prod.fst).sum : Nat) : Int)
        ∨ other pair.2 = ((pair.1 * 100 / (workList.map Prod.fst).sum : Nat) : Int) + 1)
    (hother : percentSum workList other = 100) :
    roundingError workList (calcPercentage nthElement workList mem).2
      ≤ roundingError workList other := by
  obtain ⟨recipients, _, _, _, hout, hrem⟩ := calcPercentage_largest_remainder nthElement hperm
    hpart workList mem hslots hne hlen hw hsum hpos
  have hsum100 := calcPercentage_sum_of_no_wrap nthElement hperm workList mem hslots hne hlen
    hw hsum hpos
  generalize hO : (calcPercentage nthElement workList mem).2 = out at hout hsum100 ⊢
  generalize hT : (workList.map Prod.fst).sum = T at hout hrem hclass hpos ⊢
  have hTq : (0 : ℚ) < ((T : Nat) : ℚ) := by exact_mod_cast hpos
  have hroe := roundingError_eq workList out (by rw [hT]; exact hpos)
  have hroo := roundingError_eq workList other (by rw [hT]; exact hpos)
  rw [hT] at hroe hroo
  rw [hroe, hroo]
  apply div_le_div_of_nonneg_right _ (le_of_lt hTq)
  have hgoal : (workList.map (fun pair => |out pair.2 * ((T : Nat) : Int)
        - 100 * ((pair.1 : Nat) : Int)|)).sum
      ≤ (workList.map (fun pair => |other pair.2 * ((T : Nat) : Int)
        - 100 * ((pair.1 : Nat) : Int)|)).sum := by
    have he : ∀ p ∈ workList, (fun p : Nat × Slot => out p.2 - ((p.1 * 100 / T : Nat) : Int)) p = 0
        ∨ (fun p : Nat × Slot => out p.2 - ((p.1 * 100 / T : Nat) : Int)) p = 1 := by
      intro p hp
      simp only [hout p hp]
      by_cases hm : p ∈ recipients
      · rw [if_pos hm]
        exact Or.inr (by ring)
      · rw [if_neg hm]
        exact Or.inl (by ring)
    have hd : ∀ p ∈ workList,
        (fun p : Nat × Slot => other p.2 - ((p.1 * 100 / T : Nat) : Int)) p = 0
        ∨ (fun p : Nat × Slot => other p.2 - ((p.1 * 100 / T : Nat) : Int)) p = 1 := by
      intro p hp
      rcases hclass p hp with h | h
      · exact Or.inl (by simp only [h]; ring)
      · exact Or.inr (by simp only [h]; ring)
    have hr : ∀ p ∈ workList, (0 : Int) ≤ (fun p : Nat × Slot => ((p.1 * 100 % T : Nat) : Int)) p :=
      fun p _ => Int.natCast_nonneg _
    have hsumeq : (workList.map
          (fun p : Nat × Slot => out p.2 - ((p.1 * 100 / T : Nat) : Int))).sum
        = (workList.map
          (fun p : Nat × Slot => other p.2 - ((p.1 * 100 / T : Nat) : Int))).sum := by
      rw [sum_map_sub_percent, sum_map_sub_percent, hsum100, hother]
    have hthr : ∀ a ∈ workList, ∀ b ∈ workList,
        (fun p : Nat × Slot => out p.2 - ((p.1 * 100 / T : Nat) : Int)) a = 1 →
        (fun p : Nat × Slot => out p.2 - ((p.1 * 100 / T : Nat) : Int)) b = 0 →
        (fun p : Nat × Slot => ((p.1 * 100 % T : Nat) : Int)) b
          ≤ (fun p : Nat × Slot => ((p.1 * 100 % T : Nat) : Int)) a := by
      intro a ha b hb hea heb
      simp only [hout a ha] at hea
      simp only [hout b hb] at heb
      have har : a ∈ recipients := by
        by_contra hc
        rw [if_neg hc] at hea
        omega
      have hbr : b ∉ recipients := by
        intro hc
        rw [if_pos hc] at heb
        omega
      have := hrem a har b hb hbr
      simp only []
      exact_mod_cast this
    have hmax := chosen_remainders_maximal _ _ _ workList he hd hr hsumeq hthr
    have hterm : ∀ p ∈ workList,
        (fun pair : Nat × Slot => |other pair.2 * ((T : Nat) : Int)
            - 100 * ((pair.1 : Nat) : Int)|) p
          - (fun pair : Nat × Slot => |out pair.2 * ((T : Nat) : Int)
            - 100 * ((pair.1 : Nat) : Int)|) p
        = (T : Int) * ((fun p : Nat × Slot => other p.2 - ((p.1 * 100 / T : Nat) : Int)) p
              - (fun p : Nat × Slot => out p.2 - ((p.1 * 100 / T : Nat) : Int)) p)
          + 2 * (((fun p : Nat × Slot => out p.2 - ((p.1 * 100 / T : Nat) : Int)) p
              - (fun p : Nat × Slot => other p.2 - ((p.1 * 100 / T : Nat) : Int)) p)
            * (fun p : Nat × Slot => ((p.1 * 100 % T : Nat) : Int)) p) := by
      intro p hp
      have h1 := scaled_error_eq p.1 T hpos (out p.2) (out p.2 - ((p.1 * 100 / T : Nat) : Int))
        (he p hp) (by ring)
      have h2 := scaled_error_eq p.1 T hpos (other p.2)
        (other p.2 - ((p.1 * 100 / T : Nat) : Int)) (hd p hp) (by ring)
      simp only []
      rw [h1, h2]
      ring
    have hdiff := sum_scaled_difference _ _ _ _ _ (T : Int) workList hterm
    rw [← hsumeq] at hdiff
    linarith
  exact_mod_cast hgoal

/-- C31 (failing input): on the one-element work list with weight `2 ^ 63` the
total is `2 ^ 63 > 0` and the share rounded down is 100, so the allocation that
gives the pair 100 is admissible (share rounded down, sum 100) and has rounding
error 0; `calcPercentage` gives the pair 1, with rounding error 99: the product
`bytes * 100U` wraps around to 0 in `uint64_t`. -/
theorem error_not_minimal_on_wrap (nthElement : NthElement)
    (h : NthElementPerm nthElement) (mem : Store) :
    0 < (([(2 ^ 63, 0)] : WorkList).map Prod.fst).sum
      ∧ 2 ^ 63 * 100 / (([(2 ^ 63, 0)] : WorkList).map Prod.fst).sum = 100
      ∧ percentSum [(2 ^ 63, 0)] (fun _ => 100) = 100
      ∧ roundingError [(2 ^ 63, 0)] (fun _ => 100) = 0
      ∧ (calcPercentage nthElement [(2 ^ 63, 0)] mem).2 0 = 1
      ∧ roundingError [(2 ^ 63, 0)] (calcPercentage nthElement [(2 ^ 63, 0)] mem).2 = 99 := by
  have hn : ∀ comp n, nthElement comp n [(2 ^ 63, 0)] = [(2 ^ 63, 0)] := by
    intro comp n
    exact List.perm_singleton.mp (h comp n [(2 ^ 63, 0)])
  have ht : accumulateTotal [(2 ^ 63, 0)] = 2 ^ 63 := by decide
  have hr : roundDown (2 ^ 63) [(2 ^ 63, 0)] mem 100 = (mem.write 0 0, 100) := by
    simp [roundDown, Store.write, toInt32]
  have hc : (calcPercentage nthElement [(2 ^ 63, 0)] mem).2 0 = 1 := by
    unfold calcPercentage
    simp only [ht, hr, hn]
    simp [toInt32, incrementAll, Store.write]
  refine ⟨by norm_num, by norm_num, by simp [percentSum], ?_, hc, ?_⟩
  · unfold roundingError
    simp
  · unfold roundingError
    simp only [List.map_cons, List.map_nil, List.sum_cons, List.sum_nil, hc]
    norm_num

theorem error_not_minimal_on_wrap_witness :
    NthElementPerm nthElementBySort
      ∧ 0 < (([(2 ^ 63, 0)] : WorkList).map Prod.fst).sum
      ∧ 2 ^ 63 * 100 / (([(2 ^ 63, 0)] : WorkList).map Prod.fst).sum = 100
      ∧ percentSum [(2 ^ 63, 0)] (fun _ => 100) = 100
      ∧ roundingError [(2 ^ 63, 0)] (fun _ => 100) = 0
      ∧ (calcPercentage nthElementBySort [(2 ^ 63, 0)] (fun _ => 0)).2 0 = 1
      ∧ roundingError [(2 ^ 63, 0)]
          (calcPercentage nthElementBySort [(2 ^ 63, 0)] (fun _ => 0)).2 = 99 :=
  ⟨nthElementBySort_perm,
    error_not_minimal_on_wrap nthElementBySort nthElementBySort_perm (fun _ => 0)⟩

/-- The rounding error on the weights 1, 2 and 4: the percentages 14, 29 and 57
have total error 6/7, the other admissible allocations 15, 28, 57 and 14, 28, 58
have total errors 10/7 and 12/7. -/
theorem roundingError_example :
    roundingError [(1, 0), (2, 1), (4, 2)]
        (calcPercentage nthElementBySort [(1, 0), (2, 1), (4, 2)] (fun _ => 0)).2 = 6 / 7
      ∧ roundingError [(1, 0), (2, 1), (4, 2)]
          (fun slot => if slot = 0 then 15 else if slot = 1 then 28 else 57) = 10 / 7
      ∧ roundingError [(1, 0), (2, 1), (4, 2)]
          (fun slot => if slot = 0 then 14 else if slot = 1 then 28 else 58) = 12 / 7 := by
  have h0 : (calcPercentage nthElementBySort [(1, 0), (2, 1), (4, 2)] (fun _ => 0)).2 0 = 14 := by
    decide
  have h1 : (calcPercentage nthElementBySort [(1, 0), (2, 1), (4, 2)] (fun _ => 0)).2 1 = 29 := by
    decide
  have h2 : (calcPercentage nthElementBySort [(1, 0), (2, 1), (4, 2)] (fun _ => 0)).2 2 = 57 := by
    decide
  refine ⟨?_, ?_, ?_⟩
  · unfold roundingError
    simp only [List.map_cons, List.map_nil, List.sum_cons, List.sum_nil, h0, h1, h2]
    norm_num [abs_of_nonneg, abs_of_nonpos]
  · unfold roundingError
    simp only [List.map_cons, List.map_nil, List.sum_cons, List.sum_nil]
    norm_num [abs_of_nonneg, abs_of_nonpos]
  · unfold roundingError
    simp only [List.map_cons, List.map_nil, List.sum_cons, List.sum_nil]
    norm_num [abs_of_nonneg, abs_of_nonpos]

end TreeGrid
